import Mathlib

/-! # The place registry of `main.go`

A shallow embedding of the Go program `main.go` (a fiber service keeping a list
of places in memory and in `places.json`) together with the parts of the Go
standard library its behaviour depends on: `unicode/utf8`, `strconv`,
`fmt.Sscanf` with the format `%d`, and the encoder and decoder of
`encoding/json` for the type `[]Place`.

Conventions.
* A Go `string` is a sequence of bytes (`GoString`); nothing forces it to be
  valid UTF-8.
* A Go slice is `Slice α`: `none` is the nil slice, `some xs` a non-nil slice
  holding `xs`.  Capacity is not represented.
* Go's `int` is taken to be 64 bits wide (`intSize`).
* The handlers are functions from a request (`Ctx`) and the process state
  (`State`: the global `currentUser`, the content of `places.json`, and the
  buffers of fasthttp that stored strings point into) to a response and a new
  state; requests are served one after the other.
* `fiber.New()` is called without a configuration, so `Immutable` is off and
  `c.Query` returns a string that shares its bytes with the query arguments
  of the `*fasthttp.RequestCtx` serving the request.  fasthttp parses the
  query arguments on the first call of `QueryArgs` and reuses the buffers of
  the arguments from one request to the next; the section on fasthttp models
  `Args.ParseBytes`, `decodeArgAppend` and `Args.Peek`.
* The capacity of the array that `append` allocates for a `[]byte` is left to
  the Go runtime: it is a parameter (`Growslice`) of which only "at least the
  length needed" is used.
* Opening, creating and writing `places.json` is assumed to succeed unless the
  file is absent (the program terminates through `log.Fatalf` otherwise).
* Loops of the library that advance by a variable number of bytes carry a
  recursion bound (`fuel`), which their callers set to the length of the input.
-/

namespace RatingPlaces

/-! ## Bytes, strings, slices -/

/-- One byte. -/
abbrev Byte := Fin 256

/-- A Go `string`: any sequence of bytes. -/
abbrev GoString := List Byte

/-- The byte with value `n % 256` (Go's conversion `byte(n)`). -/
def byte (n : Nat) : Byte := ⟨n % 256, Nat.mod_lt n (by decide)⟩

/-- The Go string whose bytes are the code points of an ASCII text. -/
def ascii (s : String) : GoString := s.data.map (fun c => byte c.toNat)

/-- A Go slice: `none` is the nil slice. -/
abbrev Slice (α : Type) := Option (List α)

namespace Slice

/-- The elements of a slice, in order (`range s`). -/
def elems {α : Type} : Slice α → List α
  | none => []
  | some xs => xs

/-- Go's `len(s)`. -/
def len {α : Type} (s : Slice α) : Nat := s.elems.length

/-- Go's `append(s, x)`: the result is never nil. -/
def push {α : Type} (s : Slice α) (x : α) : Slice α := some (s.elems ++ [x])

/-- Go's `s[:i]` for `i ≤ len(s)`; slicing the nil slice gives the nil slice. -/
def upTo {α : Type} (s : Slice α) (i : Nat) : Slice α := s.map (fun xs => xs.take i)

/-- Go's `s[i:]` for `i ≤ len(s)`. -/
def since {α : Type} (s : Slice α) (i : Nat) : Slice α := s.map (fun xs => xs.drop i)

/-- Go's `append(s, t...)`: appending nothing returns `s` itself. -/
def appendAll {α : Type} (s t : Slice α) : Slice α :=
  match t.elems with
  | [] => s
  | y :: ys => some (s.elems ++ y :: ys)

end Slice

/-- The list `l`, read as a table whose entries beyond its end are `dflt`, with
entry `i` set to `a`.  The list is left as it is when the entry already is `a`. -/
def putAt {α : Type} [DecidableEq α] (dflt : α) (l : List α) (i : Nat) (a : α) : List α :=
  if l.getD i dflt = a then l
  else (l ++ List.replicate (i + 1 - l.length) dflt).set i a

/-- Width of Go's `int` on the platforms considered. -/
def intSize : Nat := 64

/-! ## `unicode/utf8` -/

namespace utf8

/-- The replacement rune U+FFFD. -/
def RuneError : Nat := 0xFFFD

/-- Largest valid code point. -/
def MaxRune : Nat := 0x10FFFF

/-- Whether `b` is a byte in the closed range `lo .. hi`. -/
def between (lo hi : Nat) (b : Byte) : Bool := decide (lo ≤ b.val) && decide (b.val ≤ hi)

/-- Go's `utf8.DecodeRune`: the first rune of `p` and its width in bytes.
Returns `(RuneError, 0)` on empty input and `(RuneError, 1)` on an invalid
encoding. -/
def DecodeRune : List Byte → Nat × Nat
  | [] => (RuneError, 0)
  | p0 :: rest =>
    if p0.val < 0x80 then (p0.val, 1)
    else if p0.val < 0xC2 then (RuneError, 1)
    else if p0.val < 0xE0 then
      match rest with
      | b1 :: _ =>
        if between 0x80 0xBF b1 then (p0.val % 32 * 64 + b1.val % 64, 2)
        else (RuneError, 1)
      | [] => (RuneError, 1)
    else if p0.val < 0xF0 then
      match rest with
      | b1 :: b2 :: _ =>
        if between (if p0.val = 0xE0 then 0xA0 else 0x80)
              (if p0.val = 0xED then 0x9F else 0xBF) b1 && between 0x80 0xBF b2 then
          (p0.val % 16 * 4096 + b1.val % 64 * 64 + b2.val % 64, 3)
        else (RuneError, 1)
      | _ => (RuneError, 1)
    else if p0.val < 0xF5 then
      match rest with
      | b1 :: b2 :: b3 :: _ =>
        if between (if p0.val = 0xF0 then 0x90 else 0x80)
              (if p0.val = 0xF4 then 0x8F else 0xBF) b1 && between 0x80 0xBF b2
            && between 0x80 0xBF b3 then
          (p0.val % 8 * 262144 + b1.val % 64 * 4096 + b2.val % 64 * 64 + b3.val % 64, 4)
        else (RuneError, 1)
      | _ => (RuneError, 1)
    else (RuneError, 1)

/-- Go's `utf8.EncodeRune` (`utf8.AppendRune`) for a non-negative rune:
surrogates and values above `MaxRune` are written as U+FFFD. -/
def EncodeRune (r : Nat) : List Byte :=
  if r ≤ 0x7F then [byte r]
  else if r ≤ 0x7FF then [byte (0xC0 + r / 64), byte (0x80 + r % 64)]
  else if MaxRune < r ∨ (0xD800 ≤ r ∧ r ≤ 0xDFFF) then [0xEF, 0xBF, 0xBD]
  else if r ≤ 0xFFFF then
    [byte (0xE0 + r / 4096), byte (0x80 + r / 64 % 64), byte (0x80 + r % 64)]
  else
    [byte (0xF0 + r / 262144), byte (0x80 + r / 4096 % 64), byte (0x80 + r / 64 % 64),
      byte (0x80 + r % 64)]

/-- Decoding loop of `utf8.Valid`, with the input length as recursion bound. -/
def validAux : Nat → List Byte → Bool
  | _, [] => true
  | 0, _ :: _ => false
  | fuel + 1, b :: rest =>
    let d := DecodeRune (b :: rest)
    if d.1 = RuneError ∧ d.2 = 1 then false
    else validAux fuel ((b :: rest).drop d.2)

/-- Go's `utf8.Valid`: whether `p` consists entirely of valid UTF-8-encoded runes. -/
def Valid (p : List Byte) : Bool := validAux p.length p

end utf8

/-! ## `strconv` -/

namespace strconv

/-- The two kinds of `*strconv.NumError`. -/
inductive NumError where
  | ErrSyntax
  | ErrRange
  deriving DecidableEq, Repr

/-- Digit loop of `strconv.ParseUint(s, 10, 64)`: `n` is the value read so far. -/
def parseUintLoop : Nat → List Byte → Except NumError Nat
  | n, [] => .ok n
  | n, c :: rest =>
    if 0x30 ≤ c.val ∧ c.val ≤ 0x39 then
      if n ≥ (2 ^ 64 - 1) / 10 + 1 then .error .ErrRange
      else if n * 10 + (c.val - 0x30) > 2 ^ 64 - 1 then .error .ErrRange
      else parseUintLoop (n * 10 + (c.val - 0x30)) rest
    else .error .ErrSyntax

/-- Go's `strconv.ParseUint(s, 10, 64)`. -/
def ParseUint (s : GoString) : Except NumError Nat :=
  match s with
  | [] => .error .ErrSyntax
  | _ => parseUintLoop 0 s

/-- Go's `strconv.ParseInt(s, 10, 64)`: an optional sign followed by decimal
digits, the value within the signed 64-bit range. -/
def ParseInt (s : GoString) : Except NumError Int :=
  match s with
  | [] => .error .ErrSyntax
  | c :: rest =>
    let neg := decide (c.val = 0x2D)
    let digits := if c.val = 0x2B ∨ c.val = 0x2D then rest else c :: rest
    match ParseUint digits with
    | .error e => .error e
    | .ok un =>
      if ¬ neg ∧ un ≥ 2 ^ 63 then .error .ErrRange
      else if neg ∧ un > 2 ^ 63 then .error .ErrRange
      else .ok (if neg then - (un : Int) else (un : Int))

/-- Go's `strconv.Atoi(s)`, which is `ParseInt(s, 10, 0)` converted to `int`. -/
def Atoi (s : GoString) : Except NumError Int := ParseInt s

/-- Decimal digits of `n`, least significant first; `fuel` bounds the recursion. -/
def digitsRev : Nat → Nat → List Byte
  | 0, _ => []
  | fuel + 1, n =>
    if n < 10 then [byte (0x30 + n)] else byte (0x30 + n % 10) :: digitsRev fuel (n / 10)

/-- Decimal text of a natural number (`strconv.FormatUint(n, 10)`). -/
def FormatUint (n : Nat) : GoString := (digitsRev (n + 1) n).reverse

/-- Go's `strconv.FormatInt(i, 10)`. -/
def FormatInt (i : Int) : GoString :=
  if i < 0 then 0x2D :: FormatUint i.natAbs else FormatUint i.natAbs

end strconv

/-! ## `fmt.Sscanf` with the format `%d` -/

namespace fmt

/-- Outcomes of a failed scan. -/
inductive ScanError where
  | EOF
  | unexpectedNewline
  | expectedInteger
  | num (e : strconv.NumError)
  deriving DecidableEq, Repr

/-- The table `space` of `fmt/scan.go`. -/
def isSpace (r : Nat) : Bool :=
  decide ((0x09 ≤ r ∧ r ≤ 0x0D) ∨ r = 0x20 ∨ r = 0x85 ∨ r = 0xA0 ∨ r = 0x1680
    ∨ (0x2000 ≤ r ∧ r ≤ 0x200A) ∨ r = 0x2028 ∨ r = 0x2029 ∨ r = 0x202F ∨ r = 0x205F
    ∨ r = 0x3000)

/-- The method `(*ss).SkipSpace` in the mode of `Sscanf` (a newline is not a
space): skips leading space runes and returns the rest of the input; a
newline is an error.  `fuel` bounds the number of runes skipped. -/
def skipSpaceAux : Nat → GoString → Except ScanError GoString
  | _, [] => .ok []
  | 0, s => .ok s
  | fuel + 1, b :: rest =>
    let d := utf8.DecodeRune (b :: rest)
    if d.1 = 0x0A then .error .unexpectedNewline
    else if isSpace d.1 then skipSpaceAux fuel ((b :: rest).drop d.2)
    else .ok (b :: rest)

/-- The method `(*ss).SkipSpace` on the whole remaining input. -/
def SkipSpace (s : GoString) : Except ScanError GoString := skipSpaceAux s.length s

/-- The longest prefix of `s` made of bytes of `decimalDigits` (`0123456789`,
the digits `getBase` gives for the verb `d`), and what follows it: the loop
`for s.accept(digits)` of `scanNumber`. -/
def acceptDigits : GoString → GoString × GoString
  | [] => ([], [])
  | c :: rest =>
    if 0x30 ≤ c.val ∧ c.val ≤ 0x39 then
      ((acceptDigits rest).1.cons c, (acceptDigits rest).2)
    else ([], c :: rest)

/-- The method `(*ss).scanInt` for the verb `d` and 64 bits: the integer
scanned and the rest of the input. -/
def scanInt (s : GoString) : Except ScanError (Int × GoString) :=
  match SkipSpace s with
  | .error e => .error e
  | .ok [] => .error .EOF
  | .ok (c :: rest) =>
    let sign : GoString := if c.val = 0x2B ∨ c.val = 0x2D then [c] else []
    let afterSign := if c.val = 0x2B ∨ c.val = 0x2D then rest else c :: rest
    match afterSign with
    | [] => .error .EOF
    | _ =>
      let tok := acceptDigits afterSign
      if tok.1 = [] then .error .expectedInteger
      else
        match strconv.ParseInt (sign ++ tok.1) with
        | .error e => .error (.num e)
        | .ok i => .ok (i, tok.2)

/-- Go's `fmt.Sscanf(s, "%d", new(int))`: the number of items scanned and the
error.  Input after the integer is left unread and is not an error. -/
def Sscanf (s : GoString) : Nat × Option ScanError :=
  match scanInt s with
  | .error e => (0, some e)
  | .ok _ => (1, none)

end fmt

/-! ## The data model of `main.go` -/

/-- The struct `Review`: a text and a rating. -/
structure Review where
  Text : GoString
  Rating : Int
  deriving DecidableEq, Repr

/-- The struct `Place`: name, description, category and reviews. -/
structure Place where
  Name : GoString
  Description : GoString
  Category : GoString
  Reviews : Slice Review
  deriving DecidableEq, Repr

/-- The struct `User`: a name and the list of places. -/
structure User where
  Name : GoString
  Places : Slice Place
  deriving DecidableEq, Repr

/-! ## `encoding/json`: the encoder -/

namespace json

/-- The table `hex` of `encoding/json`. -/
def hex (n : Nat) : Byte := if n < 10 then byte (0x30 + n) else byte (0x61 + (n - 10))

/-- The table `htmlSafeSet`: the ASCII bytes written unescaped when HTML
escaping is on (the default of `json.Encoder`). -/
def htmlSafe (b : Byte) : Bool :=
  decide (0x20 ≤ b.val ∧ b.val < 0x80 ∧ b.val ≠ 0x22 ∧ b.val ≠ 0x5C ∧ b.val ≠ 0x3C
    ∧ b.val ≠ 0x3E ∧ b.val ≠ 0x26)

/-- The escape written for an ASCII byte outside `htmlSafeSet` (Go 1.22 and
later; earlier releases write backspace and form feed as `\u0008` and
`\u000c`, which denote the same bytes). -/
def escapeByte (b : Byte) : List Byte :=
  if b.val = 0x5C ∨ b.val = 0x22 then [0x5C, b]
  else if b.val = 0x08 then [0x5C, 0x62]
  else if b.val = 0x0C then [0x5C, 0x66]
  else if b.val = 0x0A then [0x5C, 0x6E]
  else if b.val = 0x0D then [0x5C, 0x72]
  else if b.val = 0x09 then [0x5C, 0x74]
  else [0x5C, 0x75, 0x30, 0x30, hex (b.val / 16), hex (b.val % 16)]

/-- The loop of `appendString`: the text written between the quotes for `src`.
Invalid UTF-8 is written as the six-byte escape of U+FFFD, and U+2028 and
U+2029 as their six-byte escapes.  `fuel` bounds the number of iterations. -/
def escapeAux : Nat → GoString → List Byte
  | _, [] => []
  | 0, _ :: _ => []
  | fuel + 1, b :: rest =>
    if b.val < 0x80 then
      if htmlSafe b then b :: escapeAux fuel rest
      else escapeByte b ++ escapeAux fuel rest
    else
      let d := utf8.DecodeRune (b :: rest)
      if d.1 = utf8.RuneError ∧ d.2 = 1 then
        [0x5C, 0x75, 0x66, 0x66, 0x66, 0x64] ++ escapeAux fuel rest
      else if d.1 = 0x2028 ∨ d.1 = 0x2029 then
        [0x5C, 0x75, 0x32, 0x30, 0x32, hex (d.1 % 16)] ++ escapeAux fuel ((b :: rest).drop d.2)
      else (b :: rest).take d.2 ++ escapeAux fuel ((b :: rest).drop d.2)

/-- The text written between the quotes for the string `src`. -/
def escape (src : GoString) : List Byte := escapeAux src.length src

/-- Go's `appendString(dst, src, true)`: `src` as a JSON string literal. -/
def appendString (src : GoString) : List Byte := 0x22 :: escape src ++ [0x22]

/-- Encoding of a slice: `null` for the nil slice, else the elements between
brackets, separated by commas. -/
def encodeSlice {α : Type} (enc : α → List Byte) : Slice α → List Byte
  | none => ascii "null"
  | some xs => 0x5B :: List.intercalate [0x2C] (xs.map enc) ++ [0x5D]

/-- Encoding of a `Review` value. -/
def encodeReview (r : Review) : List Byte :=
  ascii "\x7b\"text\":" ++ appendString r.Text ++ ascii ",\"rating\":"
    ++ strconv.FormatInt r.Rating ++ ascii "\x7d"

/-- Encoding of a `Place` value. -/
def encodePlace (p : Place) : List Byte :=
  ascii "\x7b\"name\":" ++ appendString p.Name ++ ascii ",\"description\":"
    ++ appendString p.Description ++ ascii ",\"category\":" ++ appendString p.Category
    ++ ascii ",\"reviews\":" ++ encodeSlice encodeReview p.Reviews ++ ascii "\x7d"

/-- Go's `json.Marshal` on a value of type `[]Place`, with HTML escaping. -/
def Marshal (ps : Slice Place) : List Byte := encodeSlice encodePlace ps

/-- What `json.NewEncoder(w).Encode(ps)` writes to `w`: the encoding followed
by a newline. -/
def Encode (ps : Slice Place) : List Byte := Marshal ps ++ [0x0A]

end json

/-! ## `encoding/json`: the scanner -/

namespace json

/-- A JSON value as the scanner delimits it.  A string carries the text between
its quotes, escapes included, and a number its literal text. -/
inductive Value where
  | null : Value
  | bool (b : Bool) : Value
  | number (lit : List Byte) : Value
  | string (lit : List Byte) : Value
  | array (elems : List Value) : Value
  | object (members : List (List Byte × Value)) : Value

/-- An entry of the scanner's `parseState` stack, together with the part of
the array or object read so far.  `arr`: inside an array (`parseArrayValue`).
`objKey`: inside an object, where a key is expected next or a member has just
been completed.  `objColon`: a key has been read and the colon is expected
(`parseObjectKey`).  `objVal`: the value of the member `key` is being read
(`parseObjectValue`). -/
inductive Frame where
  | arr (done : List Value) : Frame
  | objKey (done : List (List Byte × Value)) : Frame
  | objColon (done : List (List Byte × Value)) (key : List Byte) : Frame
  | objVal (done : List (List Byte × Value)) (key : List Byte) : Frame

/-- The states of the scanner (`stateBeginValue`, `stateInString`, `state0`, ...
of `scanner.go`).  `literal rest v` stands for the states inside `true`, `false`
and `null`; `done` is reached when `scanEnd` is reported. -/
inductive Mode where
  | beginValue : Mode
  | beginValueOrEmpty : Mode
  | beginString : Mode
  | beginStringOrEmpty : Mode
  | endValue : Mode
  | endTop : Mode
  | inString : Mode
  | inStringEsc : Mode
  | inStringEscU (more : Nat) : Mode
  | neg : Mode
  | zero : Mode
  | int : Mode
  | dot : Mode
  | dot0 : Mode
  | exp : Mode
  | expSign : Mode
  | exp0 : Mode
  | literal (rest : List Byte) (v : Value) : Mode
  | done : Mode
  | error : Mode

/-- The scanner: its state function, its stack, the text of the literal being
read and the top-level value once complete.  Beyond checking the syntax as
`scanner.go` does, it records the values it delimits, which the decoder then
stores into its target. -/
structure Scanner where
  step : Mode
  parseState : List Frame
  lit : List Byte
  value : Option Value

/-- The constant `maxNestingDepth`. -/
def maxNestingDepth : Nat := 10000

/-- The scanner's `isSpace`. -/
def isSpace (c : Byte) : Bool :=
  decide (c.val = 0x20 ∨ c.val = 0x09 ∨ c.val = 0x0D ∨ c.val = 0x0A)

/-- Whether `c` is a decimal digit. -/
def isDigit (c : Byte) : Bool := decide (0x30 ≤ c.val ∧ c.val ≤ 0x39)

/-- Whether `c` is a hexadecimal digit. -/
def isHex (c : Byte) : Bool :=
  decide ((0x30 ≤ c.val ∧ c.val ≤ 0x39) ∨ (0x61 ≤ c.val ∧ c.val ≤ 0x66)
    ∨ (0x41 ≤ c.val ∧ c.val ≤ 0x46))

/-- The scanner after a syntax error. -/
def Scanner.fail (s : Scanner) : Scanner := { s with step := .error }

/-- The method `pushParseState`: more than `maxNestingDepth` open arrays and
objects are a syntax error. -/
def pushParseState (f : Frame) (next : Mode) (s : Scanner) : Scanner :=
  if (f :: s.parseState).length ≤ maxNestingDepth then
    { s with parseState := f :: s.parseState, step := next }
  else s.fail

/-- A complete value `v` is handed to the enclosing array or object on top of
`stack`, or becomes the top-level value. -/
def deliver (v : Value) (stack : List Frame) (value : Option Value) : Scanner :=
  match stack with
  | [] => ⟨.endTop, [], [], some v⟩
  | .arr done :: rest => ⟨.endValue, .arr (done ++ [v]) :: rest, [], value⟩
  | .objKey done :: rest =>
    match v with
    | .string k => ⟨.endValue, .objColon done k :: rest, [], value⟩
    | _ => ⟨.error, stack, [], value⟩
  | .objVal done k :: rest => ⟨.endValue, .objKey (done ++ [(k, v)]) :: rest, [], value⟩
  | .objColon _ _ :: _ => ⟨.error, stack, [], value⟩

/-- An array or object `v` is closed (`popParseState`), `stack` being what is
left of the stack; closing the top-level value ends the scan at once, as
`readValue` does on `scanEndObject` and `scanEndArray`. -/
def close (v : Value) (stack : List Frame) (value : Option Value) : Scanner :=
  match stack with
  | [] => ⟨.done, [], [], some v⟩
  | f :: fs => deliver v (f :: fs) value

/-- The state function `stateEndTop`: it answers `scanEnd` on every byte, which
ends the value in `readValue`.  The error it records for a byte that is not a
space is meant for the next call of `step`; `readValue` makes none, and the
next `reset` drops it. -/
def stateEndTop (s : Scanner) (_c : Byte) : Scanner :=
  { s with step := .done }

/-- The state function `stateEndValue`. -/
def stateEndValue (s : Scanner) (c : Byte) : Scanner :=
  match s.parseState with
  | [] => stateEndTop s c
  | f :: rest =>
    if isSpace c then { s with step := .endValue }
    else
      match f with
      | .objColon done k =>
        if c.val = 0x3A then { s with parseState := .objVal done k :: rest, step := .beginValue }
        else s.fail
      | .objKey done =>
        if c.val = 0x2C then { s with step := .beginString }
        else if c.val = 0x7D then close (.object done) rest s.value
        else s.fail
      | .arr done =>
        if c.val = 0x2C then { s with step := .beginValue }
        else if c.val = 0x5D then close (.array done) rest s.value
        else s.fail
      | .objVal _ _ => s.fail

/-- The state function `stateBeginValue`. -/
def stateBeginValue (s : Scanner) (c : Byte) : Scanner :=
  if isSpace c then s
  else if c.val = 0x7B then pushParseState (.objKey []) .beginStringOrEmpty s
  else if c.val = 0x5B then pushParseState (.arr []) .beginValueOrEmpty s
  else if c.val = 0x22 then { s with step := .inString, lit := [] }
  else if c.val = 0x2D then { s with step := .neg, lit := [c] }
  else if c.val = 0x30 then { s with step := .zero, lit := [c] }
  else if c.val = 0x74 then { s with step := .literal (ascii "rue") (.bool true) }
  else if c.val = 0x66 then { s with step := .literal (ascii "alse") (.bool false) }
  else if c.val = 0x6E then { s with step := .literal (ascii "ull") .null }
  else if 0x31 ≤ c.val ∧ c.val ≤ 0x39 then { s with step := .int, lit := [c] }
  else s.fail

/-- The state function `state0`, also the fall-through of `state1`. -/
def state0 (s : Scanner) (c : Byte) : Scanner :=
  if c.val = 0x2E then { s with step := .dot, lit := s.lit ++ [c] }
  else if c.val = 0x65 ∨ c.val = 0x45 then { s with step := .exp, lit := s.lit ++ [c] }
  else stateEndValue (deliver (.number s.lit) s.parseState s.value) c

/-- The state function `stateESign`. -/
def stateESign (s : Scanner) (c : Byte) : Scanner :=
  if isDigit c then { s with step := .exp0, lit := s.lit ++ [c] } else s.fail

/-- One step of the scanner on the byte `c`. -/
def step (s : Scanner) (c : Byte) : Scanner :=
  match s.step with
  | .beginValue => stateBeginValue s c
  | .beginValueOrEmpty =>
    if isSpace c then s
    else if c.val = 0x5D then stateEndValue s c
    else stateBeginValue s c
  | .beginString =>
    if isSpace c then s
    else if c.val = 0x22 then { s with step := .inString, lit := [] }
    else s.fail
  | .beginStringOrEmpty =>
    if isSpace c then s
    else if c.val = 0x7D then stateEndValue s c
    else if c.val = 0x22 then { s with step := .inString, lit := [] }
    else s.fail
  | .endValue => stateEndValue s c
  | .endTop => stateEndTop s c
  | .inString =>
    if c.val = 0x22 then deliver (.string s.lit) s.parseState s.value
    else if c.val = 0x5C then { s with step := .inStringEsc, lit := s.lit ++ [c] }
    else if c.val < 0x20 then s.fail
    else { s with lit := s.lit ++ [c] }
  | .inStringEsc =>
    if c.val = 0x62 ∨ c.val = 0x66 ∨ c.val = 0x6E ∨ c.val = 0x72 ∨ c.val = 0x74
        ∨ c.val = 0x5C ∨ c.val = 0x2F ∨ c.val = 0x22 then
      { s with step := .inString, lit := s.lit ++ [c] }
    else if c.val = 0x75 then { s with step := .inStringEscU 3, lit := s.lit ++ [c] }
    else s.fail
  | .inStringEscU more =>
    if isHex c then
      match more with
      | 0 => { s with step := .inString, lit := s.lit ++ [c] }
      | k + 1 => { s with step := .inStringEscU k, lit := s.lit ++ [c] }
    else s.fail
  | .neg =>
    if c.val = 0x30 then { s with step := .zero, lit := s.lit ++ [c] }
    else if 0x31 ≤ c.val ∧ c.val ≤ 0x39 then { s with step := .int, lit := s.lit ++ [c] }
    else s.fail
  | .zero => state0 s c
  | .int => if isDigit c then { s with lit := s.lit ++ [c] } else state0 s c
  | .dot => if isDigit c then { s with step := .dot0, lit := s.lit ++ [c] } else s.fail
  | .dot0 =>
    if isDigit c then { s with lit := s.lit ++ [c] }
    else if c.val = 0x65 ∨ c.val = 0x45 then { s with step := .exp, lit := s.lit ++ [c] }
    else stateEndValue (deliver (.number s.lit) s.parseState s.value) c
  | .exp =>
    if c.val = 0x2B ∨ c.val = 0x2D then { s with step := .expSign, lit := s.lit ++ [c] }
    else stateESign s c
  | .expSign => stateESign s c
  | .exp0 =>
    if isDigit c then { s with lit := s.lit ++ [c] }
    else stateEndValue (deliver (.number s.lit) s.parseState s.value) c
  | .literal rest v =>
    match rest with
    | [] => s.fail
    | [x] => if c = x then deliver v s.parseState s.value else s.fail
    | x :: y :: more => if c = x then { s with step := .literal (y :: more) v } else s.fail
  | .done => s
  | .error => s

/-- The scanner after the bytes of `input`, one step per byte. -/
def scan (s : Scanner) (input : List Byte) : Scanner := input.foldl step s

/-- The scanner after `reset`. -/
def Scanner.reset : Scanner := ⟨.beginValue, [], [], none⟩

/-- The errors `Decode` reports: end of input before any value (`io.EOF`),
end of input inside a value (`io.ErrUnexpectedEOF`), a `*SyntaxError`, an
`*UnmarshalTypeError`, and the error of reading from a file that could not be
opened (`os.ErrInvalid`). -/
inductive DecodeError where
  | EOF
  | ErrUnexpectedEOF
  | SyntaxError
  | UnmarshalTypeError
  | ErrInvalid
  deriving DecidableEq, Repr

/-- The method `(*Decoder).readValue` on a stream holding `input`: the first
JSON value of the stream.  At the end of the stream the scanner is stepped on a
space to complete a pending top-level number or literal. -/
def readValue (input : List Byte) : Except DecodeError Value :=
  let s := scan Scanner.reset input
  match s.step, s.value with
  | .done, some v => .ok v
  | .done, none => .error .SyntaxError
  | .error, _ => .error .SyntaxError
  | _, _ =>
    let s' := step s 0x20
    match s'.step, s'.value with
    | .done, some v => .ok v
    | _, _ => if input.all isSpace then .error .EOF else .error .ErrUnexpectedEOF

end json

/-! ## `encoding/json`: decoding into `[]Place` -/

namespace json

/-- The value of a hexadecimal digit. -/
def hexVal (c : Byte) : Option Nat :=
  if 0x30 ≤ c.val ∧ c.val ≤ 0x39 then some (c.val - 0x30)
  else if 0x61 ≤ c.val ∧ c.val ≤ 0x66 then some (c.val - 0x61 + 10)
  else if 0x41 ≤ c.val ∧ c.val ≤ 0x46 then some (c.val - 0x41 + 10)
  else none

/-- The function `getu4`: the code unit written by a leading `\uXXXX` escape,
`none` where Go returns -1. -/
def getu4 (s : List Byte) : Option Nat :=
  match s with
  | b0 :: b1 :: h1 :: h2 :: h3 :: h4 :: _ =>
    if b0.val = 0x5C ∧ b1.val = 0x75 then
      match hexVal h1, hexVal h2, hexVal h3, hexVal h4 with
      | some a, some b, some c, some d => some (((a * 16 + b) * 16 + c) * 16 + d)
      | _, _, _, _ => none
    else none
  | _ => none

/-- Go's `utf16.IsSurrogate`. -/
def isSurrogate (r : Nat) : Bool := decide (0xD800 ≤ r ∧ r < 0xE000)

/-- Go's `utf16.DecodeRune` on a first code unit and an optional second one:
the code point of a valid surrogate pair, `none` where Go returns U+FFFD. -/
def decodeSurrogates (r1 : Nat) (r2 : Option Nat) : Option Nat :=
  match r2 with
  | some r2 =>
    if 0xD800 ≤ r1 ∧ r1 < 0xDC00 ∧ 0xDC00 ≤ r2 ∧ r2 < 0xE000 then
      some ((r1 - 0xD800) * 1024 + (r2 - 0xDC00) + 0x10000)
    else none
  | none => none

/-- The first loop of `unquoteBytes`: the length of the longest prefix that
needs no rewriting (no backslash, quote, control character or invalid UTF-8). -/
def plainPrefix : Nat → List Byte → Nat
  | _, [] => 0
  | 0, _ :: _ => 0
  | fuel + 1, c :: rest =>
    if c.val = 0x5C ∨ c.val = 0x22 ∨ c.val < 0x20 then 0
    else if c.val < 0x80 then 1 + plainPrefix fuel rest
    else
      let d := utf8.DecodeRune (c :: rest)
      if d.1 = utf8.RuneError ∧ d.2 = 1 then 0
      else d.2 + plainPrefix fuel ((c :: rest).drop d.2)

/-- One iteration of the second loop of `unquoteBytes` at the byte `c`
followed by `rest`; `loop` rewrites what is left after the iteration.  Escapes
are replaced by what they denote and invalid UTF-8 by U+FFFD; `none` where Go
reports failure. -/
def unquoteStep (loop : List Byte → Option (List Byte)) (c : Byte) (rest : List Byte) :
    Option (List Byte) :=
  if c.val = 0x5C then
    match rest with
    | [] => none
    | e :: rest' =>
      if e.val = 0x22 ∨ e.val = 0x5C ∨ e.val = 0x2F ∨ e.val = 0x27 then
        (loop rest').map (fun t => e :: t)
      else if e.val = 0x62 then (loop rest').map (fun t => 0x08 :: t)
      else if e.val = 0x66 then (loop rest').map (fun t => 0x0C :: t)
      else if e.val = 0x6E then (loop rest').map (fun t => 0x0A :: t)
      else if e.val = 0x72 then (loop rest').map (fun t => 0x0D :: t)
      else if e.val = 0x74 then (loop rest').map (fun t => 0x09 :: t)
      else if e.val = 0x75 then
        match getu4 (c :: rest) with
        | none => none
        | some rr =>
          if isSurrogate rr then
            match decodeSurrogates rr (getu4 ((c :: rest).drop 6)) with
            | some dec => (loop ((c :: rest).drop 12)).map (fun t => utf8.EncodeRune dec ++ t)
            | none =>
              (loop ((c :: rest).drop 6)).map (fun t => utf8.EncodeRune utf8.RuneError ++ t)
          else (loop ((c :: rest).drop 6)).map (fun t => utf8.EncodeRune rr ++ t)
      else none
  else if c.val = 0x22 ∨ c.val < 0x20 then none
  else if c.val < 0x80 then (loop rest).map (fun t => c :: t)
  else
    (loop ((c :: rest).drop (utf8.DecodeRune (c :: rest)).2)).map
      (fun t => utf8.EncodeRune (utf8.DecodeRune (c :: rest)).1 ++ t)

/-- The second loop of `unquoteBytes`; `fuel` bounds the number of iterations. -/
def unquoteLoop : Nat → List Byte → Option (List Byte)
  | _, [] => some []
  | 0, _ :: _ => none
  | fuel + 1, c :: rest => unquoteStep (unquoteLoop fuel) c rest

/-- The function `unquoteBytes` on the text between the quotes of a string
literal: the string it denotes. -/
def unquoteBytes (s : List Byte) : Option GoString :=
  let r := plainPrefix s.length s
  (unquoteLoop s.length (s.drop r)).map (fun t => s.take r ++ t)

/-- The upper-case form of an ASCII byte. -/
def upper (c : Byte) : Byte := if 0x61 ≤ c.val ∧ c.val ≤ 0x7A then byte (c.val - 0x20) else c

/-- Whether `foldName key` equals `foldName name` for an ASCII field name
`name`: ASCII letters match without regard to case, U+017F matches `s` and
U+212A matches `k`; no other rune folds to an ASCII byte. -/
def equalFold : Nat → List Byte → List Byte → Bool
  | _, [], [] => true
  | _, [], _ :: _ => false
  | 0, _ :: _, _ => false
  | _ + 1, _ :: _, [] => false
  | fuel + 1, c :: rest, n :: ns =>
    if c.val < 0x80 then upper c = upper n && equalFold fuel rest ns
    else
      let d := utf8.DecodeRune (c :: rest)
      if (d.1 = 0x17F ∧ upper n = 0x53) ∨ (d.1 = 0x212A ∧ upper n = 0x4B) then
        equalFold fuel ((c :: rest).drop d.2) ns
      else false

/-- The field a key selects among the JSON names `names` of a struct: the one
with exactly this name, else the first whose name matches under case folding. -/
def findField (names : List GoString) (key : GoString) : Option Nat :=
  match names.indexOf? key with
  | some i => some i
  | none => (names.map (equalFold key.length key)).indexOf? true

/-- The first error saved (`saveError`). -/
def firstError (e1 e2 : Option DecodeError) : Option DecodeError :=
  match e1 with
  | some e => some e
  | none => e2

/-- Storing a decoded value into a `string` field: the new field and the
error saved.  `none` stands for the decoder's phase panic. -/
def storeString (old : GoString) (v : Value) : Option (GoString × Option DecodeError) :=
  match v with
  | .null => some (old, none)
  | .string lit =>
    match unquoteBytes lit with
    | some s => some (s, none)
    | none => none
  | _ => some (old, some .UnmarshalTypeError)

/-- Storing a decoded value into an `int` field. -/
def storeInt (old : Int) (v : Value) : Int × Option DecodeError :=
  match v with
  | .null => (old, none)
  | .number lit =>
    match strconv.ParseInt lit with
    | .ok n => (n, none)
    | .error _ => (old, some .UnmarshalTypeError)
  | _ => (old, some .UnmarshalTypeError)

/-- Decoding the elements of a JSON array into fresh elements of a slice. -/
def fillElems {α : Type} (f : Value → Option (α × Option DecodeError)) :
    List Value → Option (List α × Option DecodeError)
  | [] => some ([], none)
  | v :: vs =>
    match f v, fillElems f vs with
    | some (a, e), some (as, es) => some (a :: as, firstError e es)
    | _, _ => none

/-- Decoding one member of a JSON object into a `Review`. -/
def reviewMember (acc : Review × Option DecodeError) (m : List Byte × Value) :
    Option (Review × Option DecodeError) :=
  match unquoteBytes m.1 with
  | none => none
  | some key =>
    match findField [ascii "text", ascii "rating"] key with
    | some 0 =>
      match storeString acc.1.Text m.2 with
      | some (s, e) => some ({ acc.1 with Text := s }, firstError acc.2 e)
      | none => none
    | some 1 =>
      some ({ acc.1 with Rating := (storeInt acc.1.Rating m.2).1 },
        firstError acc.2 (storeInt acc.1.Rating m.2).2)
    | _ => some acc

/-- Decoding a JSON value into a fresh `Review`. -/
def fillReview (v : Value) : Option (Review × Option DecodeError) :=
  match v with
  | .null => some (⟨[], 0⟩, none)
  | .object members => members.foldlM reviewMember (⟨[], 0⟩, none)
  | _ => some (⟨[], 0⟩, some .UnmarshalTypeError)

/-- Decoding a JSON value into the field `Reviews` holding `old`.  An array
decoded into a slice that already has elements is outside the model (`none`):
Go then writes into the existing elements and into the spare capacity of the
slice. -/
def fillReviews (old : Slice Review) (v : Value) :
    Option (Slice Review × Option DecodeError) :=
  match v with
  | .null => some (none, none)
  | .array elems =>
    match old.elems with
    | [] => (fillElems fillReview elems).map (fun r => (some r.1, r.2))
    | _ :: _ => none
  | _ => some (old, some .UnmarshalTypeError)

/-- Decoding one member of a JSON object into a `Place`. -/
def placeMember (acc : Place × Option DecodeError) (m : List Byte × Value) :
    Option (Place × Option DecodeError) :=
  match unquoteBytes m.1 with
  | none => none
  | some key =>
    match findField [ascii "name", ascii "description", ascii "category", ascii "reviews"]
        key with
    | some 0 =>
      match storeString acc.1.Name m.2 with
      | some (s, e) => some ({ acc.1 with Name := s }, firstError acc.2 e)
      | none => none
    | some 1 =>
      match storeString acc.1.Description m.2 with
      | some (s, e) => some ({ acc.1 with Description := s }, firstError acc.2 e)
      | none => none
    | some 2 =>
      match storeString acc.1.Category m.2 with
      | some (s, e) => some ({ acc.1 with Category := s }, firstError acc.2 e)
      | none => none
    | some 3 =>
      match fillReviews acc.1.Reviews m.2 with
      | some (rs, e) => some ({ acc.1 with Reviews := rs }, firstError acc.2 e)
      | none => none
    | _ => some acc

/-- Decoding a JSON value into a fresh `Place`. -/
def fillPlace (v : Value) : Option (Place × Option DecodeError) :=
  match v with
  | .null => some (⟨[], [], [], none⟩, none)
  | .object members => members.foldlM placeMember (⟨[], [], [], none⟩, none)
  | _ => some (⟨[], [], [], none⟩, some .UnmarshalTypeError)

/-- The method `(*decodeState).unmarshal` for a target of type `*[]Place`
holding `target`: the slice afterwards and the error returned.  An array
decoded into a non-nil slice is outside the model (`none`). -/
def unmarshal (v : Value) (target : Slice Place) : Option (Slice Place × Option DecodeError) :=
  match v with
  | .null => some (none, none)
  | .array elems =>
    match target with
    | none => (fillElems fillPlace elems).map (fun r => (some r.1, r.2))
    | some _ => none
  | _ => some (target, some .UnmarshalTypeError)

/-- What `json.NewDecoder(r).Decode(&target)` does on a stream holding `input`:
the slice afterwards and the error returned.  A stream without a complete,
well-formed first value leaves the target as it was. -/
def Decode (input : List Byte) (target : Slice Place) :
    Option (Slice Place × Option DecodeError) :=
  match readValue input with
  | .error e => some (target, some e)
  | .ok v => unmarshal v target

end json

/-! ## The values the encoder writes, and the places it can represent -/

namespace json

/-- The JSON value written for a review, as the scanner delimits it. -/
def reviewValue (r : Review) : Value :=
  .object [(ascii "text", .string (escape r.Text)),
    (ascii "rating", .number (strconv.FormatInt r.Rating))]

/-- The JSON value written for a slice: `null` for the nil slice, else an array. -/
def sliceValue {α : Type} (val : α → Value) : Slice α → Value
  | none => .null
  | some xs => .array (xs.map val)

/-- The JSON value written for a place, as the scanner delimits it. -/
def placeValue (p : Place) : Value :=
  .object [(ascii "name", .string (escape p.Name)),
    (ascii "description", .string (escape p.Description)),
    (ascii "category", .string (escape p.Category)),
    (ascii "reviews", sliceValue reviewValue p.Reviews)]

end json

/-- A review whose text is valid UTF-8 and whose rating is a value of Go's
64-bit `int`. -/
def Review.WellFormed (r : Review) : Prop :=
  utf8.Valid r.Text = true ∧ -(2 ^ 63 : Int) ≤ r.Rating ∧ r.Rating < 2 ^ 63

/-- A place whose strings are valid UTF-8 and whose reviews are well formed. -/
def Place.WellFormed (p : Place) : Prop :=
  utf8.Valid p.Name = true ∧ utf8.Valid p.Description = true ∧ utf8.Valid p.Category = true
    ∧ ∀ r ∈ p.Reviews.elems, r.WellFormed

/-! ## fasthttp: the query arguments of a request

`c.Query(key)` is `c.app.getString(c.fasthttp.QueryArgs().Peek(key))`, and
`getString` converts the `[]byte` to a `string` without copying.  `QueryArgs`
parses the query string of the request with `Args.ParseBytes` on its first
call.  The `Args` belongs to the `RequestCtx`, which the server uses for one
request after the other; `ParseBytes` truncates the `key` and `value` buffer
of each argument slot to length 0 and appends to them, so that a value which
fits the capacity of the buffer is written over the value of the previous
request, in the same array. -/

namespace fasthttp

/-- The table `hex2intTable`: the value of a hexadecimal digit, and 16 for
every other byte. -/
def hex2int (c : Byte) : Nat :=
  if 0x30 ≤ c.val ∧ c.val ≤ 0x39 then c.val - 0x30
  else if 0x61 ≤ c.val ∧ c.val ≤ 0x66 then c.val - 0x61 + 10
  else if 0x41 ≤ c.val ∧ c.val ≤ 0x46 then c.val - 0x41 + 10
  else 16

/-- The capacity `runtime.growslice` gives the array it allocates for a
`[]byte`, from the capacity of the array that is full and the length needed.
It depends on the version of Go; `append` below takes the larger of it and the
length needed, so every function of this type stands for a possible runtime. -/
abbrev Growslice := Nat → Nat → Nat

/-- A `[]byte` that grows through `append`, starting at length 0 on the array
a buffer had before: its elements, its capacity, and `old`, which is `none`
while the slice is still on the array it started on and `some w` once `append`
has moved it to a new array, `w` being the elements written into the first
array by then. -/
structure Buf where
  bytes : List Byte
  cap : Nat
  old : Option (List Byte)
  deriving DecidableEq, Repr

/-- Go's `append(dst, src...)`: in place when the capacity suffices, into a
new array otherwise. -/
def append (grow : Growslice) (dst : Buf) (src : List Byte) : Buf :=
  if dst.bytes.length + src.length ≤ dst.cap then { dst with bytes := dst.bytes ++ src }
  else
    { bytes := dst.bytes ++ src
      cap := max (grow dst.cap (dst.bytes.length + src.length)) (dst.bytes.length + src.length)
      old := some (dst.old.getD dst.bytes) }

/-- The slow path of `decodeArgAppend`, from the first `%` or `+` on: what each
call of `append` appends.  `%` followed by two hexadecimal digits is the byte
they denote, `%` followed by two bytes that are not both hexadecimal digits is
kept, `%` with fewer than two bytes after it ends the loop with the rest
appended as it is, and `+` is a space. -/
def slowPath : List Byte → List (List Byte)
  | [] => []
  | c :: rest =>
    if c.val = 0x25 then
      match rest with
      | h1 :: h2 :: rest' =>
        if hex2int h1 = 16 ∨ hex2int h2 = 16 then [c] :: slowPath (h1 :: h2 :: rest')
        else [byte (hex2int h1 * 16 + hex2int h2)] :: slowPath rest'
      | _ => [c :: rest]
    else if c.val = 0x2B then [0x20] :: slowPath rest
    else [c] :: slowPath rest

/-- What the calls of `append` in `decodeArgAppend(dst, src)` append to `dst`,
in order: `src` in the fast path (no `%`, no `+`); otherwise the bytes before
the first `%` or `+`, then the chunks of the slow path. -/
def appends (src : List Byte) : List (List Byte) :=
  if src.all (fun c => decide (c.val ≠ 0x25 ∧ c.val ≠ 0x2B)) then [src]
  else
    src.takeWhile (fun c => decide (c.val ≠ 0x25 ∧ c.val ≠ 0x2B))
      :: slowPath (src.dropWhile (fun c => decide (c.val ≠ 0x25 ∧ c.val ≠ 0x2B)))

/-- The function `decodeArgAppend`. -/
def decodeArgAppend (grow : Growslice) (dst : Buf) (src : List Byte) : Buf :=
  (appends src).foldl (append grow) dst

/-- The method `(*argsScanner).next` on an input that is not empty: the key of
the first pair as written, its value as written (`none` when the pair has no
`=`), and the input after the `&` that ends the pair. -/
def next (b : List Byte) : (List Byte × Option (List Byte)) × List Byte :=
  let pair := b.takeWhile (fun c => decide (c.val ≠ 0x26))
  let rest := (b.dropWhile (fun c => decide (c.val ≠ 0x26))).drop 1
  match pair.dropWhile (fun c => decide (c.val ≠ 0x3D)) with
  | [] => ((pair, none), rest)
  | _ :: value => ((pair.takeWhile (fun c => decide (c.val ≠ 0x3D)), some value), rest)

/-- What parsing did to the array that the `value` buffer of the argument slot
`slot` had when parsing began: `bytes` were written at its start, and `moved`
tells whether the buffer has left it for a new array. -/
structure Overwrite where
  slot : Nat
  bytes : List Byte
  moved : Bool
  deriving DecidableEq, Repr

/-- The outcome of `ParseBytes`: the key and value of each argument of
`a.args`, in the order of the slots; the capacity of the `value` buffer of
each slot (0 beyond the end of the list); and what was written into the arrays
that the buffers had before. -/
structure Parsed where
  args : List (GoString × GoString)
  caps : List Nat
  writes : List Overwrite
  deriving DecidableEq, Repr

/-- The loop `for s.next(kv)` of `ParseBytes`.  `kv` is the slot after the
arguments kept so far; a pair whose key and value are both empty leaves `kv`
to the next pair.  A pair without `=` truncates the value (`kv.value[:0]`)
and writes nothing.  `fuel` bounds the number of pairs. -/
def parseLoop (grow : Growslice) : Nat → List Byte → Parsed → Parsed
  | 0, _, acc => acc
  | _ + 1, [], acc => acc
  | fuel + 1, c :: b, acc =>
    let scanned := next (c :: b)
    let key := (appends scanned.1.1).flatten
    match scanned.1.2 with
    | none =>
      parseLoop grow fuel scanned.2
        (if key = [] then acc else { acc with args := acc.args ++ [(key, [])] })
    | some raw =>
      let slot := acc.args.length
      let value := decodeArgAppend grow ⟨[], acc.caps.getD slot 0, none⟩ raw
      let acc1 : Parsed :=
        { acc with
          caps := putAt 0 acc.caps slot value.cap
          writes := acc.writes ++ [⟨slot, value.old.getD value.bytes, value.old.isSome⟩] }
      parseLoop grow fuel scanned.2
        (if key = [] ∧ value.bytes = [] then acc1
         else { acc1 with args := acc1.args ++ [(key, value.bytes)] })

/-- The method `(*Args).ParseBytes` on the query string `b`, `caps` being the
capacities of the `value` buffers that the argument slots have from earlier
requests. -/
def ParseBytes (grow : Growslice) (caps : List Nat) (b : List Byte) : Parsed :=
  parseLoop grow b.length b ⟨[], caps, []⟩

/-- The function `peekArgStr`: the slot and the value of the first argument
whose key is `key`. -/
def peekArgStr : List (GoString × GoString) → GoString → Option (Nat × GoString)
  | [], _ => none
  | kv :: rest, key =>
    if kv.1 = key then some (0, kv.2)
    else (peekArgStr rest key).map (fun r => (r.1 + 1, r.2))

end fasthttp

/-! ## The program state, requests and responses -/

/-- Where the bytes of a string that `c.Query` returned lie: at the start of
the array that the `value` buffer of the argument slot `slot` of the request
context `rctx` has. -/
structure BufRef where
  rctx : Nat
  slot : Nat
  deriving DecidableEq, Repr

/-- The process state: the global `currentUser`; the content of the file
`places.json` (`none` when the file does not exist); for each
`*fasthttp.RequestCtx` of the server, by number, the capacities of the `value`
buffers of its query argument slots (`queryArgs`); and for each place of
`currentUser.Places`, by index, the buffer in which the bytes of its
`Description` lie when the string was returned by `c.Query` and the buffer
still has the same array (`descriptionBuf`, `none` for every other string and
beyond the end of the list).  `currentUser` holds the bytes the strings have
now. -/
structure State where
  currentUser : User
  placesFile : Option (List Byte)
  queryArgs : List (List Nat)
  descriptionBuf : List (Option BufRef)
  deriving DecidableEq, Repr

/-- What a handler reads from `*fiber.Ctx`: the outcome of
`c.BodyParser(&place)` on a zero `Place` (`none` when it reports an error),
the route parameter `c.Params("id")`, the query string of the request URI
(the bytes between `?` and `#`), and the number of the `*fasthttp.RequestCtx`
that serves the request. -/
structure Ctx where
  body : Option Place
  id : GoString
  query : GoString
  requestCtx : Nat
  deriving DecidableEq, Repr

/-- A string as `c.Query` returns it: its bytes and the buffer they lie in
(`none` for the empty string of an absent argument). -/
structure QueryValue where
  bytes : GoString
  buf : Option BufRef
  deriving DecidableEq, Repr

/-- What a string of the bytes `d` reads after `w` has been written at the
start of the array in which it lies, from its first byte on. -/
def overwrite (w d : List Byte) : List Byte := w.take d.length ++ d.drop w.length

/-- The places after `w` has been written at the start of the array of the
buffer `b`: each place whose `Description` lies in that array reads the new
bytes; `refs` tells for each place where its `Description` lies. -/
def overwritePlaces (b : BufRef) (w : List Byte) :
    List Place → List (Option BufRef) → List Place
  | [], _ => []
  | p :: ps, [] => p :: ps
  | p :: ps, ref :: refs =>
    (if ref = some b then { p with Description := overwrite w p.Description } else p)
      :: overwritePlaces b w ps refs

/-- The state after fasthttp has written to the array of a `value` buffer of
the request context `rctx`: the descriptions lying in that array read the new
bytes, and when the buffer has moved to a new array they no longer lie in the
array of the buffer. -/
def State.overwrite (rctx : Nat) (w : fasthttp.Overwrite) (st : State) : State :=
  { st with
    currentUser := { st.currentUser with
      Places := st.currentUser.Places.map
        (fun ps => overwritePlaces ⟨rctx, w.slot⟩ w.bytes ps st.descriptionBuf) }
    descriptionBuf :=
      if w.moved then
        st.descriptionBuf.map (fun ref => if ref = some ⟨rctx, w.slot⟩ then none else ref)
      else st.descriptionBuf }

/-- The method `c.Query(key)` of fiber: the query string is parsed into the
argument buffers of the request context, which rewrites the stored strings
lying in them, and the value of the first argument named `key` is returned
without a copy. -/
def Ctx.Query (grow : fasthttp.Growslice) (c : Ctx) (key : GoString) (st : State) :
    QueryValue × State :=
  let parsed := fasthttp.ParseBytes grow (st.queryArgs.getD c.requestCtx []) c.query
  let st1 := parsed.writes.foldl (fun s w => s.overwrite c.requestCtx w) st
  let st2 := { st1 with queryArgs := putAt [] st1.queryArgs c.requestCtx parsed.caps }
  match fasthttp.peekArgStr parsed.args key with
  | none => (⟨[], none⟩, st2)
  | some (slot, value) => (⟨value, some ⟨c.requestCtx, slot⟩⟩, st2)

/-- The places that a state and a later state hold at the same index agree in
name, category, reviews and in the length of the description; they are equal
when the description did not lie in a buffer of the request context `rctx`. -/
def KeptBut (rctx : Nat) (st st' : State) : Prop :=
  (∀ j, st'.descriptionBuf.getD j none = st.descriptionBuf.getD j none
      ∨ st'.descriptionBuf.getD j none = none)
  ∧ ∀ j p, st.currentUser.Places.elems[j]? = some p →
      ∃ q, st'.currentUser.Places.elems[j]? = some q ∧ q.Name = p.Name
        ∧ q.Category = p.Category ∧ q.Reviews = p.Reviews
        ∧ q.Description.length = p.Description.length
        ∧ ((∀ slot, st.descriptionBuf.getD j none ≠ some ⟨rctx, slot⟩) → q = p)

/-- The payload a handler sends. -/
inductive Body where
  | error (msg : String)
  | message (msg : String)
  | places (ps : Slice Place)
  | text (s : String)
  deriving DecidableEq, Repr

/-- A response: status code and payload. -/
structure Response where
  status : Nat
  body : Body
  deriving DecidableEq, Repr

/-- The constant `fiber.StatusOK`. -/
def StatusOK : Nat := 200

/-- The constant `fiber.StatusBadRequest`. -/
def StatusBadRequest : Nat := 400

/-- The constant `fiber.StatusNotFound`. -/
def StatusNotFound : Nat := 404

/-- The constant `fiber.StatusConflict`. -/
def StatusConflict : Nat := 409

/-! ## The functions of `main.go` -/

/-- The function `saveData`: `os.Create` truncates `places.json` and the
encoder writes the whole of `user.Places` to it. -/
def saveData (user : User) (st : State) : State :=
  { st with placesFile := some (json.Encode user.Places) }

/-- The function `loadData`: the user after the call and the error `Decode`
returned (it is logged unless it is `EOF`).  When `places.json` does not exist
`os.Open` fails, the file handle is nil and reading from it fails with
`os.ErrInvalid`, so the user is left as it was.  `none` where `json.Decode` is
outside the model. -/
def loadData (user : User) (st : State) : Option (User × Option json.DecodeError) :=
  match st.placesFile with
  | none => some (user, some .ErrInvalid)
  | some content =>
    (json.Decode content user.Places).map (fun r => ({ user with Places := r.1 }, r.2))

/-- The function `init`: the state of the process once `loadData` has filled
the zero `User`, given the content of `places.json`. -/
def init (file : Option (List Byte)) : Option State :=
  (loadData ⟨[], none⟩ ⟨⟨[], none⟩, file, [], []⟩).map (fun r => ⟨r.1, file, [], []⟩)

/-- The outcome of `os.Open("places.json")`: the file is opened and holds
`content`; it does not exist (the error satisfies `os.IsNotExist` and the file
handle is nil); or opening fails for another reason. -/
inductive OpenResult where
  | opened (content : List Byte)
  | notExist
  | failed
  deriving DecidableEq, Repr

/-- How a call of `loadData` ends: the process exits through `log.Fatalf`; the
call returns, leaving `user`, with the error `err` of `Decode` and whether a
line was written to the log; or the input is outside the model of
`json.Decode`. -/
inductive LoadResult where
  | fatal
  | returned (user : User) (err : Option json.DecodeError) (logged : Bool)
  | outside
  deriving DecidableEq, Repr

/-- What `os.Open("places.json")` yields in a state of the model, where the
file is either absent or readable. -/
def openPlaces (st : State) : OpenResult :=
  match st.placesFile with
  | none => .notExist
  | some content => .opened content

/-- The function `loadData` on an outcome of `os.Open`, with the exit through
`log.Fatalf` and the log line made explicit.  An error of `os.Open` other than
absence is fatal.  On absence the nil file handle is read, which fails with
`os.ErrInvalid`.  The error of `Decode` is logged unless its text is `EOF`. -/
def loadDataFrom (user : User) (o : OpenResult) : LoadResult :=
  match o with
  | .failed => .fatal
  | .notExist => .returned user (some .ErrInvalid) true
  | .opened content =>
    match json.Decode content user.Places with
    | none => .outside
    | some r =>
      .returned { user with Places := r.1 } r.2
        (decide (r.2 ≠ none ∧ r.2 ≠ some json.DecodeError.EOF))

/-- The number a string of decimal digits denotes, `acc` being the number
denoted by the digits already read. -/
def digitsValueFrom (acc : Nat) (s : GoString) : Nat :=
  s.foldl (fun a c => a * 10 + (c.val - 0x30)) acc

/-- The number a string of decimal digits denotes. -/
def digitsValue (s : GoString) : Nat := digitsValueFrom 0 s

/-- The two errors of `parseID`. -/
inductive IDError where
  | format
  | convert
  deriving DecidableEq, Repr

/-- The function `parseID`.  `none` stands for the run-time panic of the slice
expression `s[:len(s)-1]` on an empty `s`. -/
def parseID (s : GoString) : Option (Except IDError Int) :=
  let r := fmt.Sscanf s
  if r.2 ≠ none ∨ r.1 ≠ 1 then some (.error .format)
  else
    match s with
    | [] => none
    | _ :: _ =>
      let num := s.take (s.length - 1)
      match strconv.Atoi num with
      | .error _ => some (.error .convert)
      | .ok parsedNum => some (.ok parsedNum)

/-- The handler `createPlace`.  The strings of the place appended are those
`BodyParser` produced; they are the place's own (the JSON decoder copies
them out of the body), so its `Description` lies in no argument buffer. -/
def createPlace (c : Ctx) (st : State) : Response × State :=
  match c.body with
  | none => (⟨StatusBadRequest, .error "ошибка парсинга тела"⟩, st)
  | some place =>
    if st.currentUser.Places.elems.any (fun existingPlace => existingPlace.Name = place.Name) then
      (⟨StatusConflict, .error "место с таким названием уже существует"⟩, st)
    else
      let user := { st.currentUser with Places := st.currentUser.Places.push place }
      (⟨StatusOK, .message "место успешно создано"⟩,
        saveData user { st with
          currentUser := user
          descriptionBuf := putAt none st.descriptionBuf st.currentUser.Places.len none })

/-- The handler `listPlaces`. -/
def listPlaces (_c : Ctx) (st : State) : Response × State :=
  (⟨StatusOK, .places st.currentUser.Places⟩, st)

/-- The handler `updatePlaceDescription`.  The assignment to
`currentUser.Places[index].Description` stores the string that `c.Query`
returned, bytes and buffer.  `none` stands for a run-time panic. -/
def updatePlaceDescription (grow : fasthttp.Growslice) (c : Ctx) (st : State) :
    Option (Response × State) :=
  match parseID c.id with
  | none => none
  | some (.error _) => some (⟨StatusBadRequest, .error "невозможно преобразовать ID"⟩, st)
  | some (.ok index) =>
    if index ≥ st.currentUser.Places.len ∨ index < 0 then
      some (⟨StatusNotFound, .error "место не найдено"⟩, st)
    else
      let description := (c.Query grow (ascii "description") st).1
      let st1 := (c.Query grow (ascii "description") st).2
      if description.bytes = [] then
        some (⟨StatusBadRequest, .error "описание не задано"⟩, st1)
      else
        match st1.currentUser.Places.elems[index.toNat]? with
        | none => none
        | some p =>
          let user := { st1.currentUser with
            Places := some (st1.currentUser.Places.elems.set index.toNat
              { p with Description := description.bytes }) }
          some (⟨StatusOK, .message "описание обновлено"⟩,
            saveData user { st1 with
              currentUser := user
              descriptionBuf := putAt none st1.descriptionBuf index.toNat description.buf })

/-- The handler `deletePlace`.  The places after `index` move down by one, each
with its strings.  `none` stands for a run-time panic. -/
def deletePlace (c : Ctx) (st : State) : Option (Response × State) :=
  match parseID c.id with
  | none => none
  | some (.error _) => some (⟨StatusBadRequest, .error "невозможно преобразовать ID"⟩, st)
  | some (.ok index) =>
    if index ≥ st.currentUser.Places.len ∨ index < 0 then
      some (⟨StatusNotFound, .error "место не найдено"⟩, st)
    else
      let user := { st.currentUser with
        Places := (st.currentUser.Places.upTo index.toNat).appendAll
          (st.currentUser.Places.since (index.toNat + 1)) }
      some (⟨StatusOK, .message "место удалено"⟩,
        saveData user { st with
          currentUser := user
          descriptionBuf := st.descriptionBuf.eraseIdx index.toNat })

/-- The routes registered by `setupRoutes`. -/
inductive Route where
  | postPlaces
  | getPlaces
  | putPlace
  | deletePlace
  | getRoot
  deriving DecidableEq, Repr

/-- The function `setupRoutes`: the handler each route is bound to.  `none`
stands for a run-time panic of the handler. -/
def setupRoutes (grow : fasthttp.Growslice) : Route → Ctx → State → Option (Response × State)
  | .postPlaces, c, st => some (createPlace c st)
  | .getPlaces, c, st => some (listPlaces c st)
  | .putPlace, c, st => updatePlaceDescription grow c st
  | .deletePlace, c, st => deletePlace c st
  | .getRoot, _, st => some (⟨StatusOK, .text "Добро пожаловать на мой сервис мест!"⟩, st)

/-- The state after serving a sequence of requests one after the other. -/
def serve (grow : fasthttp.Growslice) : State → List (Route × Ctx) → Option State
  | st, [] => some st
  | st, (route, c) :: rest =>
    match setupRoutes grow route c st with
    | none => none
    | some (_, st') => serve grow st' rest

/-- The names of the places of the registry are pairwise distinct. -/
def NamesUnique (st : State) : Prop := (st.currentUser.Places.elems.map Place.Name).Nodup

deriving instance DecidableEq for Except

/-! ## The scenarios of the specification -/

/-- The place `Cafe` of scenario A. -/
def cafe : Place := ⟨ascii "Cafe", ascii "nice", ascii "food", some []⟩

/-- The place `Park`. -/
def park : Place := ⟨ascii "Park", ascii "trees", ascii "outdoor", none⟩

/-- The state of `init` when `places.json` does not exist. -/
def emptyState : State := ⟨⟨[], none⟩, none, [], []⟩

/-- A state whose registry holds the given places, none of them with a
description returned by `c.Query`, and whose file holds their encoding. -/
def stateOf (ps : List Place) : State :=
  ⟨⟨[], some ps⟩, some (json.Encode (some ps)), [], []⟩

/-- A place with a non-ASCII name, characters that the encoder escapes, and
reviews. -/
def bistro : Place :=
  ⟨[0x43, 0x61, 0x66, 0xC3, 0xA9], ascii "a <b> & \"c\"\n", ascii "food",
    some [⟨ascii "great", 5⟩, ⟨[0xE2, 0x80, 0xA8], -3⟩]⟩

/-- A place whose description holds the byte `0xFF`, which is not valid UTF-8
(the query string `description=%FF` yields it). -/
def rawPlace : Place := ⟨ascii "Cafe", [0xFF], ascii "food", some []⟩

/-- A file holding a well-formed array whose only record has a number where
the description is expected. -/
def mistypedFile : List Byte := ascii "[\x7b\"name\":\"a\",\"description\":5\x7d]"

/-- A file that ends inside a record. -/
def truncatedFile : List Byte := ascii "[\x7b\"name\":\"a\""

/-- A file that is not JSON. -/
def malformedFile : List Byte := ascii "[\x7b]"

/-- A request carrying a place as its body. -/
def bodyCtx (p : Place) : Ctx := ⟨some p, [], [], 0⟩

/-- A request carrying a route parameter and a query string, served by the
request context 0. -/
def idCtx (id query : String) : Ctx := ⟨none, ascii id, ascii query, 0⟩

/-- The state after `PUT /places/10?description=green` on the registry
`[Cafe, Park]`: the description of `Park` lies in the buffer of the first
query argument of the request context 0, whose capacity is what the runtime
gave it. -/
def greenState (grow : fasthttp.Growslice) : State :=
  ⟨⟨[], some [cafe, { park with Description := ascii "green" }]⟩,
    some (json.Encode (some [cafe, { park with Description := ascii "green" }])),
    [[max (grow 0 5) 5]], [none, some ⟨0, 0⟩]⟩

/-- A runtime whose `append` allocates exactly the length needed. -/
def tight : fasthttp.Growslice := fun _ n => n

/-! # Properties -/

set_option maxRecDepth 100000

/-! ## Auxiliary facts about the query arguments -/

theorem overwritePlaces_map_name (b : BufRef) (w : List Byte) (ps : List Place)
    (refs : List (Option BufRef)) :
    (overwritePlaces b w ps refs).map Place.Name = ps.map Place.Name := by
  induction ps generalizing refs with
  | nil => rfl
  | cons p ps ih =>
    cases refs with
    | nil => rfl
    | cons ref refs =>
      simp only [overwritePlaces, List.map_cons, ih]
      split <;> rfl

theorem overwrite_frame (rctx : Nat) (w : fasthttp.Overwrite) (st : State) :
    (st.overwrite rctx w).placesFile = st.placesFile
    ∧ (st.overwrite rctx w).currentUser.Places.elems.map Place.Name
        = st.currentUser.Places.elems.map Place.Name := by
  refine ⟨rfl, ?_⟩
  unfold State.overwrite
  cases h : st.currentUser.Places with
  | none => rfl
  | some ps => exact overwritePlaces_map_name _ _ _ _

theorem overwrites_frame (rctx : Nat) (ws : List fasthttp.Overwrite) (st : State) :
    (ws.foldl (fun s w => s.overwrite rctx w) st).placesFile = st.placesFile
    ∧ (ws.foldl (fun s w => s.overwrite rctx w) st).currentUser.Places.elems.map Place.Name
        = st.currentUser.Places.elems.map Place.Name := by
  induction ws generalizing st with
  | nil => exact ⟨rfl, rfl⟩
  | cons w ws ih =>
    simp only [List.foldl_cons]
    obtain ⟨h1, h2⟩ := ih (st.overwrite rctx w)
    obtain ⟨h3, h4⟩ := overwrite_frame rctx w st
    exact ⟨h1.trans h3, h2.trans h4⟩

/-- The state after `c.Query`, whatever it returns. -/
theorem Query_state (grow : fasthttp.Growslice) (c : Ctx) (key : GoString) (st : State) :
    (c.Query grow key st).2 =
      { (fasthttp.ParseBytes grow (st.queryArgs.getD c.requestCtx []) c.query).writes.foldl
          (fun s w => s.overwrite c.requestCtx w) st with
        queryArgs := putAt []
          ((fasthttp.ParseBytes grow (st.queryArgs.getD c.requestCtx []) c.query).writes.foldl
            (fun s w => s.overwrite c.requestCtx w) st).queryArgs c.requestCtx
          (fasthttp.ParseBytes grow (st.queryArgs.getD c.requestCtx []) c.query).caps } := by
  unfold Ctx.Query
  simp only
  split <;> rfl

/-- A call of `c.Query` leaves the file, the number of places and their names as they were. -/
theorem Query_frame (grow : fasthttp.Growslice) (c : Ctx) (key : GoString) (st : State) :
    (c.Query grow key st).2.placesFile = st.placesFile
    ∧ (c.Query grow key st).2.currentUser.Places.elems.map Place.Name
        = st.currentUser.Places.elems.map Place.Name
    ∧ (c.Query grow key st).2.currentUser.Places.len = st.currentUser.Places.len := by
  rw [Query_state]
  obtain ⟨h1, h2⟩ := overwrites_frame c.requestCtx
    (fasthttp.ParseBytes grow (st.queryArgs.getD c.requestCtx []) c.query).writes st
  refine ⟨h1, h2, ?_⟩
  have := congrArg List.length h2
  simpa [Slice.len] using this

theorem parseLoop_cons (grow : fasthttp.Growslice) (fuel : Nat) (c : Byte) (b : List Byte)
    (acc : fasthttp.Parsed) (key raw rest : List Byte)
    (h : fasthttp.next (c :: b) = ((key, some raw), rest)) :
    fasthttp.parseLoop grow (fuel + 1) (c :: b) acc =
      fasthttp.parseLoop grow fuel rest
        (if (fasthttp.appends key).flatten = []
            ∧ (fasthttp.decodeArgAppend grow ⟨[], acc.caps.getD acc.args.length 0, none⟩
                raw).bytes = [] then
          { acc with
            caps := putAt 0 acc.caps acc.args.length
              (fasthttp.decodeArgAppend grow ⟨[], acc.caps.getD acc.args.length 0, none⟩ raw).cap
            writes := acc.writes ++
              [⟨acc.args.length,
                (fasthttp.decodeArgAppend grow ⟨[], acc.caps.getD acc.args.length 0, none⟩
                  raw).old.getD
                  (fasthttp.decodeArgAppend grow ⟨[], acc.caps.getD acc.args.length 0, none⟩
                    raw).bytes,
                (fasthttp.decodeArgAppend grow ⟨[], acc.caps.getD acc.args.length 0, none⟩
                  raw).old.isSome⟩] }
         else
          { args := acc.args ++ [((fasthttp.appends key).flatten,
              (fasthttp.decodeArgAppend grow ⟨[], acc.caps.getD acc.args.length 0, none⟩
                raw).bytes)]
            caps := putAt 0 acc.caps acc.args.length
              (fasthttp.decodeArgAppend grow ⟨[], acc.caps.getD acc.args.length 0, none⟩ raw).cap
            writes := acc.writes ++
              [⟨acc.args.length,
                (fasthttp.decodeArgAppend grow ⟨[], acc.caps.getD acc.args.length 0, none⟩
                  raw).old.getD
                  (fasthttp.decodeArgAppend grow ⟨[], acc.caps.getD acc.args.length 0, none⟩
                    raw).bytes,
                (fasthttp.decodeArgAppend grow ⟨[], acc.caps.getD acc.args.length 0, none⟩
                  raw).old.isSome⟩] }) := by
  simp only [fasthttp.parseLoop, h]

/-- A query string holding one pair, whose key and value are written without
`%` and `+`, parsed into fresh argument slots or into slots used before. -/
theorem ParseBytes_pair (grow : fasthttp.Growslice) (caps : List Nat) (c : Byte)
    (b key value : List Byte)
    (hnext : fasthttp.next (c :: b) = ((key, some value), []))
    (hkey : (fasthttp.appends key).flatten = key) (hk : key ≠ [])
    (hvalue : fasthttp.appends value = [value]) :
    fasthttp.ParseBytes grow caps (c :: b) =
      ⟨[(key, value)],
        putAt 0 caps 0 (fasthttp.append grow ⟨[], caps.getD 0 0, none⟩ value).cap,
        [⟨0, (fasthttp.append grow ⟨[], caps.getD 0 0, none⟩ value).old.getD value,
          (fasthttp.append grow ⟨[], caps.getD 0 0, none⟩ value).old.isSome⟩]⟩ := by
  have hb : (fasthttp.append grow ⟨[], caps.getD 0 0, none⟩ value).bytes = value := by
    unfold fasthttp.append
    split <;> rfl
  unfold fasthttp.ParseBytes
  rw [List.length_cons, parseLoop_cons grow _ c b _ key value [] hnext]
  simp only [hkey, hk, false_and, if_false, fasthttp.decodeArgAppend, hvalue, List.foldl_cons,
    List.foldl_nil, List.length_nil, List.nil_append, hb]
  cases b.length <;> rfl

/-- Appending to an empty buffer whose capacity suffices writes in place. -/
theorem append_fits (grow : fasthttp.Growslice) (cap : Nat) (value : List Byte)
    (h : value.length ≤ cap) :
    fasthttp.append grow ⟨[], cap, none⟩ value = ⟨value, cap, none⟩ := by
  unfold fasthttp.append
  simp only [List.length_nil, Nat.zero_add, h, if_true, List.nil_append]

/-- Appending to an empty buffer without capacity allocates an array. -/
theorem append_fresh (grow : fasthttp.Growslice) (value : List Byte) (h : 0 < value.length) :
    fasthttp.append grow ⟨[], 0, none⟩ value
      = ⟨value, max (grow 0 value.length) value.length, some []⟩ := by
  unfold fasthttp.append
  have : ¬ value.length ≤ 0 := by omega
  simp only [List.length_nil, Nat.zero_add, this, if_false, List.nil_append, Option.getD_none]

theorem Query_green (grow : fasthttp.Growslice) :
    (idCtx "10" "description=green").Query grow (ascii "description") (stateOf [cafe, park])
      = (⟨ascii "green", some ⟨0, 0⟩⟩,
          { stateOf [cafe, park] with queryArgs := [[max (grow 0 5) 5]] }) := by
  have hp := ParseBytes_pair grow [] 0x64 (ascii "escription=green") (ascii "description")
    (ascii "green") (by decide) (by decide) (by decide) (by decide)
  have hq : (idCtx "10" "description=green").query = 0x64 :: ascii "escription=green" := by
    decide
  have h0 : (stateOf [cafe, park]).queryArgs.getD (idCtx "10" "description=green").requestCtx []
      = [] := by decide
  have hfresh := append_fresh grow (ascii "green") (by decide)
  have h5 : (ascii "green").length = 5 := by decide
  rw [h5] at hfresh
  have hcaps : List.getD ([] : List Nat) 0 0 = 0 := rfl
  rw [hcaps, hfresh] at hp
  have hput : putAt 0 [] 0 (max (grow 0 5) 5) = [max (grow 0 5) 5] := by
    unfold putAt
    have : ¬ (List.getD ([] : List Nat) 0 0 = max (grow 0 5) 5) := by
      simp only [List.getD_nil]; omega
    rw [if_neg this]; rfl
  simp only [hput, Option.getD_some, Option.isSome_some] at hp
  unfold Ctx.Query
  simp only [h0, hq, hp, List.foldl_cons, List.foldl_nil]
  have hw : State.overwrite (idCtx "10" "description=green").requestCtx ⟨0, [], true⟩
      (stateOf [cafe, park]) = stateOf [cafe, park] := by decide
  have hpeek : fasthttp.peekArgStr [(ascii "description", ascii "green")] (ascii "description")
      = some (0, ascii "green") := by decide
  rw [hw, hpeek]
  have hput2 : putAt [] (stateOf [cafe, park]).queryArgs
      (idCtx "10" "description=green").requestCtx [max (grow 0 5) 5] = [[max (grow 0 5) 5]] := by
    unfold putAt
    have : ¬ (List.getD (stateOf [cafe, park]).queryArgs
        (idCtx "10" "description=green").requestCtx [] = [max (grow 0 5) 5]) := by
      rw [h0]; simp
    rw [if_neg this]; rfl
  simp only [hput2]
  rfl

theorem Query_quiet (grow : fasthttp.Growslice) :
    (idCtx "00" "description=quiet").Query grow (ascii "description") (greenState grow)
      = (⟨ascii "quiet", some ⟨0, 0⟩⟩,
          { greenState grow with
            currentUser := ⟨[], some [cafe, { park with Description := ascii "quiet" }]⟩ }) := by
  have hp := ParseBytes_pair grow [max (grow 0 5) 5] 0x64 (ascii "escription=quiet")
    (ascii "description") (ascii "quiet") (by decide) (by decide) (by decide) (by decide)
  have hq : (idCtx "00" "description=quiet").query = 0x64 :: ascii "escription=quiet" := by
    decide
  have h0 : (greenState grow).queryArgs.getD (idCtx "00" "description=quiet").requestCtx []
      = [max (grow 0 5) 5] := rfl
  have hcaps : List.getD [max (grow 0 5) 5] 0 0 = max (grow 0 5) 5 := rfl
  have hfits := append_fits grow (max (grow 0 5) 5) (ascii "quiet")
    (by have : (ascii "quiet").length = 5 := by decide
        omega)
  rw [hcaps, hfits] at hp
  have hput : putAt 0 [max (grow 0 5) 5] 0 (max (grow 0 5) 5) = [max (grow 0 5) 5] := by
    exact if_pos rfl
  simp only [hput, Option.getD_none, Option.isSome_none] at hp
  unfold Ctx.Query
  simp only [h0, hq, hp, List.foldl_cons, List.foldl_nil]
  have hpeek : fasthttp.peekArgStr [(ascii "description", ascii "quiet")] (ascii "description")
      = some (0, ascii "quiet") := by decide
  rw [hpeek]
  have hput2 : ∀ st : State, st.queryArgs = [[max (grow 0 5) 5]] →
      putAt [] st.queryArgs (idCtx "00" "description=quiet").requestCtx [max (grow 0 5) 5]
        = [[max (grow 0 5) 5]] := by
    intro st hst
    rw [hst]
    exact if_pos rfl
  rw [hput2 _ rfl]
  rfl

theorem Query_x (grow : fasthttp.Growslice) :
    (idCtx "10" "x=quiet").Query grow (ascii "description") (greenState grow)
      = (⟨[], none⟩,
          { greenState grow with
            currentUser := ⟨[], some [cafe, { park with Description := ascii "quiet" }]⟩ }) := by
  have hp := ParseBytes_pair grow [max (grow 0 5) 5] 0x78 (ascii "=quiet")
    (ascii "x") (ascii "quiet") (by decide) (by decide) (by decide) (by decide)
  have hq : (idCtx "10" "x=quiet").query = 0x78 :: ascii "=quiet" := by
    decide
  have h0 : (greenState grow).queryArgs.getD (idCtx "10" "x=quiet").requestCtx []
      = [max (grow 0 5) 5] := rfl
  have hcaps : List.getD [max (grow 0 5) 5] 0 0 = max (grow 0 5) 5 := rfl
  have hfits := append_fits grow (max (grow 0 5) 5) (ascii "quiet")
    (by have : (ascii "quiet").length = 5 := by decide
        omega)
  rw [hcaps, hfits] at hp
  have hput : putAt 0 [max (grow 0 5) 5] 0 (max (grow 0 5) 5) = [max (grow 0 5) 5] := by
    exact if_pos rfl
  simp only [hput, Option.getD_none, Option.isSome_none] at hp
  unfold Ctx.Query
  simp only [h0, hq, hp, List.foldl_cons, List.foldl_nil]
  have hpeek : fasthttp.peekArgStr [(ascii "x", ascii "quiet")] (ascii "description")
      = none := by decide
  rw [hpeek]
  have hput2 : ∀ st : State, st.queryArgs = [[max (grow 0 5) 5]] →
      putAt [] st.queryArgs (idCtx "10" "x=quiet").requestCtx [max (grow 0 5) 5]
        = [[max (grow 0 5) 5]] := by
    intro st hst
    rw [hst]
    exact if_pos rfl
  rw [hput2 _ rfl]
  rfl

namespace fasthttp

theorem next_length (c : Byte) (b : List Byte) : (next (c :: b)).2.length ≤ b.length := by
  have h : ∀ l : List Byte,
      ((l.dropWhile (fun c => decide (c.val ≠ 0x26))).drop 1).length ≤ l.length - 1 := by
    intro l
    induction l with
    | nil => simp
    | cons a l ih =>
      simp only [List.dropWhile_cons]
      split
      · simp only [List.length_cons, Nat.add_sub_cancel]
        have := ih
        omega
      · simp
  have h2 := h (c :: b)
  simp only [List.length_cons, Nat.add_sub_cancel] at h2
  unfold next
  simp only
  split <;> exact h2

/-- The loop of `ParseBytes` reads one pair per round, so as many rounds as the
query string has bytes parse all of it: more rounds change nothing. -/
theorem parseLoop_fuel (grow : Growslice) (fuel1 fuel2 : Nat) (b : List Byte) (acc : Parsed)
    (h1 : b.length ≤ fuel1) (h2 : b.length ≤ fuel2) :
    parseLoop grow fuel1 b acc = parseLoop grow fuel2 b acc := by
  induction fuel1 generalizing fuel2 b acc with
  | zero =>
    have hb : b = [] := List.length_eq_zero.1 (by omega)
    subst hb
    cases fuel2 <;> rfl
  | succ n ih =>
    cases b with
    | nil => cases fuel2 <;> rfl
    | cons c b =>
      cases fuel2 with
      | zero => simp at h2
      | succ m =>
        have hl := next_length c b
        simp only [List.length_cons] at h1 h2
        simp only [parseLoop]
        split
        · exact ih m _ _ (by omega) (by omega)
        · exact ih m _ _ (by omega) (by omega)

end fasthttp

/-- Writing at the start of the array leaves the length of a string lying in it. -/
theorem overwrite_length (w d : List Byte) : (overwrite w d).length = d.length := by
  simp only [overwrite, List.length_append, List.length_take, List.length_drop]
  omega

theorem overwritePlaces_getElem? (b : BufRef) (w : List Byte) (ps : List Place)
    (refs : List (Option BufRef)) (j : Nat) :
    (overwritePlaces b w ps refs)[j]? = (ps[j]?).map (fun p =>
      if refs.getD j none = some b then { p with Description := overwrite w p.Description }
      else p) := by
  induction ps generalizing refs j with
  | nil => simp [overwritePlaces]
  | cons p ps ih =>
    cases refs with
    | nil =>
      simp only [overwritePlaces, List.getD_nil]
      cases (p :: ps)[j]? <;> simp
    | cons ref refs =>
      cases j with
      | zero => simp [overwritePlaces]
      | succ j => simp [overwritePlaces, ih]

theorem KeptBut.refl (rctx : Nat) (st : State) : KeptBut rctx st st :=
  ⟨fun _ => Or.inl rfl, fun _ p hp => ⟨p, hp, rfl, rfl, rfl, rfl, fun _ => rfl⟩⟩

theorem KeptBut.trans {rctx : Nat} {a b c : State} (h1 : KeptBut rctx a b)
    (h2 : KeptBut rctx b c) : KeptBut rctx a c := by
  refine ⟨fun j => ?_, fun j p hp => ?_⟩
  · rcases h2.1 j with h | h
    · rw [h]; exact h1.1 j
    · exact Or.inr h
  · obtain ⟨q, hq, n1, c1, r1, l1, e1⟩ := h1.2 j p hp
    obtain ⟨q', hq', n2, c2, r2, l2, e2⟩ := h2.2 j q hq
    refine ⟨q', hq', n2.trans n1, c2.trans c1, r2.trans r1, l2.trans l1, fun hne => ?_⟩
    have hb : ∀ slot, b.descriptionBuf.getD j none ≠ some ⟨rctx, slot⟩ := by
      intro slot
      rcases h1.1 j with h | h
      · rw [h]; exact hne slot
      · rw [h]; exact fun hh => Option.noConfusion hh
    rw [e2 hb, e1 hne]

theorem getD_map_none (f : Option BufRef → Option BufRef) (hf : f none = none)
    (l : List (Option BufRef)) (j : Nat) : (l.map f).getD j none = f (l.getD j none) := by
  induction l generalizing j with
  | nil => simp [hf]
  | cons a l ih =>
    cases j with
    | zero => simp
    | succ j => simpa using ih j

theorem overwrite_keptBut (rctx : Nat) (w : fasthttp.Overwrite) (st : State) :
    KeptBut rctx st (st.overwrite rctx w) := by
  refine ⟨fun j => ?_, fun j p hp => ?_⟩
  · unfold State.overwrite
    simp only
    split
    · rw [getD_map_none _ (by simp)]
      split
      · exact Or.inr rfl
      · exact Or.inl rfl
    · exact Or.inl rfl
  · unfold State.overwrite
    simp only
    cases hps : st.currentUser.Places with
    | none => rw [hps] at hp; simp [Slice.elems] at hp
    | some ps =>
      rw [hps] at hp
      simp only [Slice.elems] at hp
      simp only [Option.map_some', Slice.elems, overwritePlaces_getElem?, hp]
      by_cases hj : st.descriptionBuf.getD j none = some ⟨rctx, w.slot⟩
      · refine ⟨{ p with Description := overwrite w.bytes p.Description }, by rw [if_pos hj],
          rfl, rfl, rfl, overwrite_length _ _, fun hne => ?_⟩
        exact absurd hj (hne w.slot)
      · exact ⟨p, by rw [if_neg hj], rfl, rfl, rfl, rfl, fun _ => rfl⟩

theorem overwrites_keptBut (rctx : Nat) (ws : List fasthttp.Overwrite) (st : State) :
    KeptBut rctx st (ws.foldl (fun s w => s.overwrite rctx w) st) := by
  induction ws generalizing st with
  | nil => exact KeptBut.refl rctx st
  | cons w ws ih =>
    simp only [List.foldl_cons]
    exact (overwrite_keptBut rctx w st).trans (ih _)

/-- What a call of `c.Query` leaves of the registry: every place keeps its
index, name, category, reviews and the length of its description, and keeps its
description unless it lies in a buffer of the request context that serves the
request. -/
theorem Query_keptBut (grow : fasthttp.Growslice) (c : Ctx) (key : GoString) (st : State) :
    KeptBut c.requestCtx st (c.Query grow key st).2 := by
  rw [Query_state]
  exact overwrites_keptBut c.requestCtx _ st

/-! ## Auxiliary facts about the handlers -/

theorem parseID_isSome (s : GoString) : ∃ r, parseID s = some r := by
  unfold parseID
  cases s with
  | nil => exact ⟨.error .format, rfl⟩
  | cons b rest =>
    simp only
    split
    · exact ⟨_, rfl⟩
    · split <;> exact ⟨_, rfl⟩

theorem appendAll_upTo_since {α : Type} (xs : List α) (i j : Nat) :
    Slice.appendAll (Slice.upTo (some xs) i) (Slice.since (some xs) j)
      = some (xs.take i ++ xs.drop j) := by
  simp only [Slice.upTo, Slice.since, Slice.appendAll, Slice.elems, Option.map]
  cases h : xs.drop j with
  | nil => simp
  | cons y ys => simp

theorem createPlace_eq_of_fresh (c : Ctx) (st : State) (p : Place) (hb : c.body = some p)
    (hfresh : ∀ q ∈ st.currentUser.Places.elems, q.Name ≠ p.Name) :
    createPlace c st = (⟨StatusOK, .message "место успешно создано"⟩,
      { st with
        currentUser := { st.currentUser with
          Places := some (st.currentUser.Places.elems ++ [p]) }
        placesFile := some (json.Encode (some (st.currentUser.Places.elems ++ [p])))
        descriptionBuf := putAt none st.descriptionBuf st.currentUser.Places.len none }) := by
  have hany : st.currentUser.Places.elems.any
      (fun existingPlace => decide (existingPlace.Name = p.Name)) = false := by
    rw [List.any_eq_false]
    intro q hq
    simpa using hfresh q hq
  unfold createPlace
  rw [hb]
  simp only [hany, Bool.false_eq_true, if_false, saveData, Slice.push]

theorem createPlace_eq_of_dup (c : Ctx) (st : State) (p : Place) (hb : c.body = some p)
    (hdup : ∃ q ∈ st.currentUser.Places.elems, q.Name = p.Name) :
    createPlace c st
      = (⟨StatusConflict, .error "место с таким названием уже существует"⟩, st) := by
  have hany : st.currentUser.Places.elems.any
      (fun existingPlace => decide (existingPlace.Name = p.Name)) = true := by
    rw [List.any_eq_true]
    obtain ⟨q, hq, hn⟩ := hdup
    exact ⟨q, hq, by simpa using hn⟩
  unfold createPlace
  rw [hb]
  simp only [hany, if_true]

theorem createPlace_cases (c : Ctx) (st : State) :
    createPlace c st = (⟨StatusBadRequest, .error "ошибка парсинга тела"⟩, st)
    ∨ createPlace c st
        = (⟨StatusConflict, .error "место с таким названием уже существует"⟩, st)
    ∨ ∃ p, c.body = some p ∧ (∀ q ∈ st.currentUser.Places.elems, q.Name ≠ p.Name) ∧
      createPlace c st = (⟨StatusOK, .message "место успешно создано"⟩,
        { st with
          currentUser := { st.currentUser with
            Places := some (st.currentUser.Places.elems ++ [p]) }
          placesFile := some (json.Encode (some (st.currentUser.Places.elems ++ [p])))
          descriptionBuf := putAt none st.descriptionBuf st.currentUser.Places.len none }) := by
  cases hb : c.body with
  | none => left; unfold createPlace; rw [hb]
  | some p =>
    by_cases hdup : ∃ q ∈ st.currentUser.Places.elems, q.Name = p.Name
    · exact Or.inr (Or.inl (createPlace_eq_of_dup c st p hb hdup))
    · have hfresh : ∀ q ∈ st.currentUser.Places.elems, q.Name ≠ p.Name :=
        fun q hq hn => hdup ⟨q, hq, hn⟩
      exact Or.inr (Or.inr ⟨p, rfl, hfresh, createPlace_eq_of_fresh c st p hb hfresh⟩)

theorem deletePlace_eq_of_inRange (c : Ctx) (st : State) (i : Int)
    (hid : parseID c.id = some (.ok i)) (h0 : 0 ≤ i) (hlt : i < st.currentUser.Places.len) :
    deletePlace c st = some (⟨StatusOK, .message "место удалено"⟩,
      { st with
        currentUser := { st.currentUser with
          Places := some (st.currentUser.Places.elems.take i.toNat
            ++ st.currentUser.Places.elems.drop (i.toNat + 1)) }
        placesFile := some (json.Encode (some (st.currentUser.Places.elems.take i.toNat
            ++ st.currentUser.Places.elems.drop (i.toNat + 1))))
        descriptionBuf := st.descriptionBuf.eraseIdx i.toNat }) := by
  unfold deletePlace
  rw [hid]
  have hc : ¬ (i ≥ (st.currentUser.Places.len : Int) ∨ i < 0) := by omega
  simp only [hc, if_false, saveData]
  cases hp : st.currentUser.Places with
  | none => rw [hp] at hlt; simp [Slice.len, Slice.elems] at hlt; omega
  | some xs => rw [appendAll_upTo_since]; rfl

/-- With an index within range, `updatePlaceDescription` reads the query and
then answers 400 or stores the description. -/
theorem updatePlaceDescription_eq_of_inRange (grow : fasthttp.Growslice) (c : Ctx) (st : State)
    (i : Int) (hid : parseID c.id = some (.ok i)) (h0 : 0 ≤ i)
    (hlt : i < st.currentUser.Places.len) :
    ((c.Query grow (ascii "description") st).1.bytes = [] ∧
      updatePlaceDescription grow c st = some (⟨StatusBadRequest, .error "описание не задано"⟩,
        (c.Query grow (ascii "description") st).2))
    ∨ ((c.Query grow (ascii "description") st).1.bytes ≠ [] ∧
      ∃ p, (c.Query grow (ascii "description") st).2.currentUser.Places.elems[i.toNat]? = some p ∧
      updatePlaceDescription grow c st = some (⟨StatusOK, .message "описание обновлено"⟩,
        { (c.Query grow (ascii "description") st).2 with
          currentUser := { (c.Query grow (ascii "description") st).2.currentUser with
            Places := some ((c.Query grow (ascii "description") st).2.currentUser.Places.elems.set
              i.toNat { p with Description := (c.Query grow (ascii "description") st).1.bytes }) }
          placesFile := some (json.Encode (some
            ((c.Query grow (ascii "description") st).2.currentUser.Places.elems.set
              i.toNat { p with Description := (c.Query grow (ascii "description") st).1.bytes })))
          descriptionBuf := putAt none (c.Query grow (ascii "description") st).2.descriptionBuf
            i.toNat (c.Query grow (ascii "description") st).1.buf })) := by
  have hlen := (Query_frame grow c (ascii "description") st).2.2
  have hlt2 : i.toNat < (c.Query grow (ascii "description") st).2.currentUser.Places.elems.length := by
    simp only [Slice.len] at hlt hlen; omega
  have hc : ¬ (i ≥ (st.currentUser.Places.len : Int) ∨ i < 0) := by omega
  by_cases hd : (c.Query grow (ascii "description") st).1.bytes = []
  · left
    refine ⟨hd, ?_⟩
    unfold updatePlaceDescription
    rw [hid]
    simp only [hc, if_false, hd, if_true]
  · right
    refine ⟨hd, _, List.getElem?_eq_getElem hlt2, ?_⟩
    unfold updatePlaceDescription
    rw [hid]
    simp only [hc, if_false, hd, saveData, List.getElem?_eq_getElem hlt2]

theorem notFound_of_outOfRange (grow : fasthttp.Growslice) (c : Ctx) (st : State) (id : Int)
    (hid : parseID c.id = some (.ok id)) (hout : id < 0 ∨ id ≥ st.currentUser.Places.len) :
    updatePlaceDescription grow c st = some (⟨StatusNotFound, .error "место не найдено"⟩, st)
    ∧ deletePlace c st = some (⟨StatusNotFound, .error "место не найдено"⟩, st) := by
  have hc : id ≥ (st.currentUser.Places.len : Int) ∨ id < 0 := by omega
  constructor
  · unfold updatePlaceDescription
    rw [hid]
    simp only [hc, if_true]
  · unfold deletePlace
    rw [hid]
    simp only [hc, if_true]

/-- The three ways `updatePlaceDescription` ends: an answer other than 200
before the query is read, with the state as it was; the answer 400 after the
query has been read; the answer 200 with the description stored. -/
theorem updatePlaceDescription_cases (grow : fasthttp.Growslice) (c : Ctx) (st : State) :
    (∃ r, r.status ≠ StatusOK ∧ updatePlaceDescription grow c st = some (r, st))
    ∨ updatePlaceDescription grow c st = some (⟨StatusBadRequest, .error "описание не задано"⟩,
        (c.Query grow (ascii "description") st).2)
    ∨ ∃ i p, (c.Query grow (ascii "description") st).2.currentUser.Places.elems[i]? = some p ∧
        updatePlaceDescription grow c st = some (⟨StatusOK, .message "описание обновлено"⟩,
          { (c.Query grow (ascii "description") st).2 with
            currentUser := { (c.Query grow (ascii "description") st).2.currentUser with
              Places := some ((c.Query grow (ascii "description") st).2.currentUser.Places.elems.set
                i { p with Description := (c.Query grow (ascii "description") st).1.bytes }) }
            placesFile := some (json.Encode (some
              ((c.Query grow (ascii "description") st).2.currentUser.Places.elems.set
                i { p with Description := (c.Query grow (ascii "description") st).1.bytes })))
            descriptionBuf := putAt none (c.Query grow (ascii "description") st).2.descriptionBuf
              i (c.Query grow (ascii "description") st).1.buf }) := by
  obtain ⟨r, hr⟩ := parseID_isSome c.id
  cases r with
  | error e =>
    left
    refine ⟨⟨StatusBadRequest, .error "невозможно преобразовать ID"⟩, by decide, ?_⟩
    unfold updatePlaceDescription
    rw [hr]
  | ok index =>
    by_cases hc : index < 0 ∨ index ≥ st.currentUser.Places.len
    · exact Or.inl ⟨_, by decide, (notFound_of_outOfRange grow c st index hr hc).1⟩
    · rcases updatePlaceDescription_eq_of_inRange grow c st index hr (by omega) (by omega) with
        ⟨_, h⟩ | ⟨_, p, hp, h⟩
      · exact Or.inr (Or.inl h)
      · exact Or.inr (Or.inr ⟨index.toNat, p, hp, h⟩)

theorem deletePlace_cases (c : Ctx) (st : State) :
    (∃ r, r.status ≠ StatusOK ∧ deletePlace c st = some (r, st))
    ∨ ∃ i, deletePlace c st = some (⟨StatusOK, .message "место удалено"⟩,
        { st with
          currentUser := { st.currentUser with
            Places := some (st.currentUser.Places.elems.take i
              ++ st.currentUser.Places.elems.drop (i + 1)) }
          placesFile := some (json.Encode (some (st.currentUser.Places.elems.take i
              ++ st.currentUser.Places.elems.drop (i + 1))))
          descriptionBuf := st.descriptionBuf.eraseIdx i }) := by
  obtain ⟨r, hr⟩ := parseID_isSome c.id
  cases r with
  | error e =>
    left
    refine ⟨⟨StatusBadRequest, .error "невозможно преобразовать ID"⟩, by decide, ?_⟩
    unfold deletePlace
    rw [hr]
  | ok index =>
    by_cases hc : index < 0 ∨ index ≥ st.currentUser.Places.len
    · exact Or.inl ⟨_, by decide, (notFound_of_outOfRange (fun _ n => n) c st index hr hc).2⟩
    · exact Or.inr ⟨index.toNat,
        deletePlace_eq_of_inRange c st index hr (by omega) (by omega)⟩

theorem elems_some {α : Type} (xs : List α) : Slice.elems (some xs) = xs := rfl

/-- The first request of the scenarios on stored descriptions: on the registry
`[Cafe, Park]`, `PUT /places/10?description=green` answers 200 and leaves
`greenState`. -/
theorem updatePlaceDescription_green (grow : fasthttp.Growslice) :
    updatePlaceDescription grow (idCtx "10" "description=green") (stateOf [cafe, park])
      = some (⟨StatusOK, .message "описание обновлено"⟩, greenState grow) := by
  rcases updatePlaceDescription_eq_of_inRange grow (idCtx "10" "description=green")
      (stateOf [cafe, park]) 1 (by decide) (by decide) (by decide) with ⟨h, _⟩ | ⟨_, p, hp, h⟩
  · rw [Query_green] at h
    exact absurd h (List.cons_ne_nil _ _)
  · rw [h]
    rw [Query_green] at hp ⊢
    have hp' : p = park := by
      have : (some park : Option Place) = some p := hp
      exact (Option.some.inj this).symm
    subst hp'
    rfl

/-- The second request of the scenario without a description: in `greenState`,
`PUT /places/10?x=quiet` answers 400 and the description of `Park` reads
`quiet`, while the file is as it was. -/
theorem updatePlaceDescription_x (grow : fasthttp.Growslice) :
    updatePlaceDescription grow (idCtx "10" "x=quiet") (greenState grow)
      = some (⟨StatusBadRequest, .error "описание не задано"⟩,
          { greenState grow with
            currentUser := ⟨[], some [cafe, { park with Description := ascii "quiet" }]⟩ }) := by
  rcases updatePlaceDescription_eq_of_inRange grow (idCtx "10" "x=quiet")
      (greenState grow) 1 (by decide) (by decide)
      (by show (1 : Int) < ((2 : Nat) : Int); decide) with ⟨_, h⟩ | ⟨h, _⟩
  · rw [h, Query_x]
  · rw [Query_x] at h
    exact absurd rfl h

/-- What holds of the frame of `updatePlaceDescription`: with an index `i`
within range and a description that is not empty, the answer is 200, the place
`i` has the description of the request and keeps its name, category and
reviews, and every other place keeps its index, name, category, reviews and the
length of its description.  Its description itself is kept when it does not lie
in a buffer of the request context that serves the request, as is the case for
every place that was loaded from the file or created. -/
theorem updatePlaceDescription_frame (grow : fasthttp.Growslice) (c : Ctx) (st : State) (i : Int)
    (hid : parseID c.id = some (.ok i)) (h0 : 0 ≤ i) (hlt : i < st.currentUser.Places.len)
    (hd : (c.Query grow (ascii "description") st).1.bytes ≠ []) :
    ∃ r st', updatePlaceDescription grow c st = some (r, st') ∧ r.status = StatusOK
      ∧ st'.currentUser.Places.len = st.currentUser.Places.len
      ∧ (∃ p q, st.currentUser.Places.elems[i.toNat]? = some p
          ∧ st'.currentUser.Places.elems[i.toNat]? = some q
          ∧ q.Description = (c.Query grow (ascii "description") st).1.bytes
          ∧ q.Name = p.Name ∧ q.Category = p.Category ∧ q.Reviews = p.Reviews)
      ∧ (∀ j p, j ≠ i.toNat → st.currentUser.Places.elems[j]? = some p →
          ∃ q, st'.currentUser.Places.elems[j]? = some q ∧ q.Name = p.Name
            ∧ q.Category = p.Category ∧ q.Reviews = p.Reviews
            ∧ q.Description.length = p.Description.length
            ∧ ((∀ slot, st.descriptionBuf.getD j none ≠ some ⟨c.requestCtx, slot⟩) → q = p)) := by
  have hk := Query_keptBut grow c (ascii "description") st
  have hlen := (Query_frame grow c (ascii "description") st).2.2
  have hlt2 : i.toNat < st.currentUser.Places.elems.length := by
    simp only [Slice.len] at hlt; omega
  rcases updatePlaceDescription_eq_of_inRange grow c st i hid h0 hlt with ⟨h, _⟩ | ⟨_, p1, hp1, h⟩
  · exact absurd h hd
  · have hlt3 : i.toNat
        < (c.Query grow (ascii "description") st).2.currentUser.Places.elems.length :=
      (List.getElem?_eq_some_iff.1 hp1).1
    refine ⟨_, _, h, rfl, ?_, ?_, ?_⟩
    · simp only [Slice.len, elems_some, List.length_set]
      simpa [Slice.len] using hlen
    · obtain ⟨q, hq, n1, c1, r1, _, _⟩ :=
        hk.2 i.toNat _ (List.getElem?_eq_getElem hlt2)
      have hqp : q = p1 := Option.some.inj (hq.symm.trans hp1)
      subst hqp
      refine ⟨st.currentUser.Places.elems[i.toNat],
        { q with Description := (c.Query grow (ascii "description") st).1.bytes },
        List.getElem?_eq_getElem hlt2, ?_, rfl, n1, c1, r1⟩
      simp only [elems_some]
      rw [List.getElem?_set_self hlt3]
    · intro j p hj hp
      obtain ⟨q, hq, hrest⟩ := hk.2 j p hp
      refine ⟨q, ?_, hrest⟩
      simp only [elems_some]
      rw [List.getElem?_set_ne (Ne.symm hj)]
      exact hq

/-- Scenario C on a registry none of whose descriptions came from a query: with
`Cafe` and `Park` registered, `PUT /places/10?description=green+space` answers
200, gives `Park` the description `green space` and leaves `Cafe` as it was. -/
theorem updatePlaceDescription_scenarioC :
    updatePlaceDescription tight (idCtx "10" "description=green+space") (stateOf [cafe, park])
      = some (⟨StatusOK, .message "описание обновлено"⟩,
          ⟨⟨[], some [cafe, { park with Description := ascii "green space" }]⟩,
            some (json.Encode (some [cafe, { park with Description := ascii "green space" }])),
            [[11]], [none, some ⟨0, 0⟩]⟩) := by
  decide

/-! ## The claims about the registry operations -/

/-- C1: creating a place whose name no existing place has answers 200 and
appends it: the new collection is the old one followed by the candidate, its
length is one more, every earlier place keeps its index, and the candidate sits
at the last index. -/
theorem C1_createPlace_appends (c : Ctx) (st : State) (p : Place) (hb : c.body = some p)
    (hfresh : ∀ q ∈ st.currentUser.Places.elems, q.Name ≠ p.Name) :
    (createPlace c st).1.status = StatusOK
    ∧ (createPlace c st).2.currentUser.Places = some (st.currentUser.Places.elems ++ [p])
    ∧ (createPlace c st).2.currentUser.Places.len = st.currentUser.Places.len + 1
    ∧ (∀ j, j < st.currentUser.Places.len →
        (createPlace c st).2.currentUser.Places.elems[j]? = st.currentUser.Places.elems[j]?)
    ∧ (createPlace c st).2.currentUser.Places.elems[
        (createPlace c st).2.currentUser.Places.len - 1]? = some p := by
  rw [createPlace_eq_of_fresh c st p hb hfresh]
  refine ⟨rfl, rfl, by simp [Slice.len, Slice.elems], ?_, by simp [Slice.len, Slice.elems]⟩
  intro j hj
  exact List.getElem?_append_left hj

/-- Scenario A: on the empty registry, creating `Cafe` answers 200 and the
registry becomes the one-element list holding `Cafe`. -/
theorem C1_createPlace_appends_witness :
    (bodyCtx cafe).body = some cafe
    ∧ (∀ q ∈ emptyState.currentUser.Places.elems, q.Name ≠ cafe.Name)
    ∧ (createPlace (bodyCtx cafe) emptyState).1.status = StatusOK
    ∧ (createPlace (bodyCtx cafe) emptyState).2.currentUser.Places = some ([] ++ [cafe])
    ∧ (listPlaces (bodyCtx cafe) (createPlace (bodyCtx cafe) emptyState).2).1.body
        = .places (some [cafe]) :=
  have h := C1_createPlace_appends (bodyCtx cafe) emptyState cafe rfl
    (fun q hq => absurd hq (List.not_mem_nil q))
  ⟨rfl, fun q hq => absurd hq (List.not_mem_nil q), h.1, h.2.1,
    congrArg Body.places h.2.1⟩

/-- C2: creating a place whose name equals (byte for byte) the name of an
existing place answers 409 and leaves the whole state, registry and file,
as it was. -/
theorem C2_createPlace_conflict (c : Ctx) (st : State) (p : Place) (hb : c.body = some p)
    (hdup : ∃ q ∈ st.currentUser.Places.elems, q.Name = p.Name) :
    (createPlace c st).1.status = StatusConflict ∧ (createPlace c st).2 = st := by
  rw [createPlace_eq_of_dup c st p hb hdup]
  exact ⟨rfl, rfl⟩

/-- Scenario B: with `Cafe` and `Park` registered, creating `Cafe` again
answers 409 and the registry still has two places. -/
theorem C2_createPlace_conflict_witness :
    (bodyCtx cafe).body = some cafe
    ∧ (∃ q ∈ (stateOf [cafe, park]).currentUser.Places.elems, q.Name = cafe.Name)
    ∧ (createPlace (bodyCtx cafe) (stateOf [cafe, park])).1.status = StatusConflict
    ∧ (createPlace (bodyCtx cafe) (stateOf [cafe, park])).2 = stateOf [cafe, park] :=
  have hdup : ∃ q ∈ (stateOf [cafe, park]).currentUser.Places.elems, q.Name = cafe.Name :=
    ⟨cafe, List.mem_cons_self _ _, rfl⟩
  have h := C2_createPlace_conflict (bodyCtx cafe) (stateOf [cafe, park]) cafe rfl hdup
  ⟨rfl, hdup, h.1, h.2⟩

/-- C3: when the id parses to an index `i` with `0 ≤ i < len(ps)`, `deletePlace`
answers 200 and the new collection is `ps[:i] ++ ps[i+1:]`: one element shorter,
equal to `ps` below `i`, and shifted by one from `i` on. -/
theorem C3_deletePlace_removes (c : Ctx) (st : State) (i : Int)
    (hid : parseID c.id = some (.ok i)) (h0 : 0 ≤ i) (hlt : i < st.currentUser.Places.len) :
    ∃ r st', deletePlace c st = some (r, st') ∧ r.status = StatusOK
      ∧ st'.currentUser.Places = some (st.currentUser.Places.elems.take i.toNat
          ++ st.currentUser.Places.elems.drop (i.toNat + 1))
      ∧ st'.currentUser.Places.len = st.currentUser.Places.len - 1
      ∧ (∀ j, j < i.toNat →
          st'.currentUser.Places.elems[j]? = st.currentUser.Places.elems[j]?)
      ∧ (∀ j, i.toNat ≤ j →
          st'.currentUser.Places.elems[j]? = st.currentUser.Places.elems[j + 1]?) := by
  have hlt2 : i.toNat < st.currentUser.Places.elems.length := by
    simp only [Slice.len] at hlt; omega
  refine ⟨_, _, deletePlace_eq_of_inRange c st i hid h0 hlt, rfl, rfl, ?_, ?_, ?_⟩
  · simp only [Slice.len, elems_some, List.length_append, List.length_take, List.length_drop]
    omega
  · intro j hj
    simp only [elems_some]
    rw [List.getElem?_append_left (by simp only [List.length_take]; omega)]
    exact List.getElem?_take_of_lt hj
  · intro j hj
    simp only [elems_some]
    rw [List.getElem?_append_right (by simp only [List.length_take]; omega)]
    simp only [List.length_take, List.getElem?_drop]
    congr 1
    omega

/-- Scenario D: with `Cafe` and `Park` registered, deleting index 0 leaves
`Park` alone, now at index 0. -/
theorem C3_deletePlace_removes_witness :
    parseID (idCtx "00" "").id = some (.ok 0) ∧ (0 : Int) ≤ 0
    ∧ (0 : Int) < (stateOf [cafe, park]).currentUser.Places.len
    ∧ ∃ r st', deletePlace (idCtx "00" "") (stateOf [cafe, park]) = some (r, st')
      ∧ r.status = StatusOK ∧ st'.currentUser.Places = some [park] :=
  have h := C3_deletePlace_removes (idCtx "00" "") (stateOf [cafe, park]) 0
    (by decide) (by decide) (by decide)
  ⟨by decide, by decide, by decide,
    h.choose, h.choose_spec.choose, h.choose_spec.choose_spec.1,
    h.choose_spec.choose_spec.2.1, h.choose_spec.choose_spec.2.2.1⟩

/-- C4 (the code departs from it): the string that `c.Query` returns is stored
without a copy, and the next request that reads its query writes into the same
buffer.  On the registry `[Cafe, Park]`, `PUT /places/10?description=green`
answers 200 and gives `Park` the description `green`.  In the state it leaves,
the id `00` parses to the index 0, which is within range, and the description
`quiet` is not empty; `PUT /places/00?description=quiet` answers 200, `Cafe`
has the description `quiet`, and the description of `Park`, at the index 1,
now reads `quiet` as well.  This holds whatever capacity the runtime gives
the buffer. -/
theorem C4_updatePlaceDescription_rewrites_other_place (grow : fasthttp.Growslice) :
    updatePlaceDescription grow (idCtx "10" "description=green") (stateOf [cafe, park])
      = some (⟨StatusOK, .message "описание обновлено"⟩, greenState grow)
    ∧ (greenState grow).currentUser.Places
        = some [cafe, { park with Description := ascii "green" }]
    ∧ parseID (idCtx "00" "description=quiet").id = some (.ok 0)
    ∧ (0 : Int) < (greenState grow).currentUser.Places.len
    ∧ ((idCtx "00" "description=quiet").Query grow (ascii "description")
        (greenState grow)).1.bytes = ascii "quiet"
    ∧ ∃ st', updatePlaceDescription grow (idCtx "00" "description=quiet") (greenState grow)
          = some (⟨StatusOK, .message "описание обновлено"⟩, st')
        ∧ st'.currentUser.Places = some [{ cafe with Description := ascii "quiet" },
            { park with Description := ascii "quiet" }]
        ∧ st'.currentUser.Places.elems[1]? ≠ (greenState grow).currentUser.Places.elems[1]? := by
  refine ⟨updatePlaceDescription_green grow, rfl, by decide,
    by show (0 : Int) < ((2 : Nat) : Int); decide, by rw [Query_quiet], ?_⟩
  rcases updatePlaceDescription_eq_of_inRange grow (idCtx "00" "description=quiet")
      (greenState grow) 0 (by decide) (by decide)
      (by show (0 : Int) < ((2 : Nat) : Int); decide) with ⟨h, _⟩ | ⟨_, p, hp, h⟩
  · rw [Query_quiet] at h
    exact absurd h (List.cons_ne_nil _ _)
  · rw [Query_quiet] at hp h
    have hp' : p = cafe := by
      have : (some cafe : Option Place) = some p := hp
      exact (Option.some.inj this).symm
    subst hp'
    refine ⟨_, h, rfl, ?_⟩
    show (some { park with Description := ascii "quiet" } : Option Place)
      ≠ some { park with Description := ascii "green" }
    decide

/-- C5: when the id parses to an integer below 0 or at least `len(ps)`, both
`updatePlaceDescription` (whatever the description, the empty one included) and
`deletePlace` answer 404 and leave the whole state, registry and file, as it
was: the range check precedes the call of `c.Query`, so the query string is
not parsed. -/
theorem C5_outOfRange_notFound (grow : fasthttp.Growslice) (c : Ctx) (st : State) (id : Int)
    (hid : parseID c.id = some (.ok id)) (hout : id < 0 ∨ id ≥ st.currentUser.Places.len) :
    (∃ r, updatePlaceDescription grow c st = some (r, st) ∧ r.status = StatusNotFound)
    ∧ (∃ r, deletePlace c st = some (r, st) ∧ r.status = StatusNotFound) :=
  ⟨⟨_, (notFound_of_outOfRange grow c st id hid hout).1, rfl⟩,
    ⟨_, (notFound_of_outOfRange grow c st id hid hout).2, rfl⟩⟩

/-- Scenario E: with only `Cafe` registered, deleting index 5 answers 404 and
the state is unchanged. -/
theorem C5_outOfRange_notFound_witness :
    parseID (idCtx "50" "").id = some (.ok 5)
    ∧ ((5 : Int) < 0 ∨ (5 : Int) ≥ (stateOf [cafe]).currentUser.Places.len)
    ∧ (∃ r, updatePlaceDescription tight (idCtx "50" "") (stateOf [cafe])
          = some (r, stateOf [cafe]) ∧ r.status = StatusNotFound)
    ∧ (∃ r, deletePlace (idCtx "50" "") (stateOf [cafe]) = some (r, stateOf [cafe])
          ∧ r.status = StatusNotFound) :=
  ⟨by decide, by decide,
    C5_outOfRange_notFound tight (idCtx "50" "") (stateOf [cafe]) 5 (by decide) (by decide)⟩

theorem set_eq_self_of_getElem? {α : Type} (l : List α) (i : Nat) (a : α)
    (h : l[i]? = some a) : l.set i a = l := by
  induction l generalizing i with
  | nil => rfl
  | cons x xs ih =>
    cases i with
    | zero => simp at h; simp [h]
    | succ n => simp at h; simp [ih n h]

/-- Each handler leaves name uniqueness intact, and never panics. -/
theorem setupRoutes_namesUnique (grow : fasthttp.Growslice) (route : Route) (c : Ctx)
    (st : State) (h : NamesUnique st) :
    ∃ r st', setupRoutes grow route c st = some (r, st') ∧ NamesUnique st' := by
  cases route with
  | postPlaces =>
    refine ⟨(createPlace c st).1, (createPlace c st).2, rfl, ?_⟩
    rcases createPlace_cases c st with h1 | h1 | ⟨p, _, hfresh, h1⟩
    · rw [h1]; exact h
    · rw [h1]; exact h
    · rw [h1]
      simp only [NamesUnique, elems_some, List.map_append, List.map_cons, List.map_nil]
      refine List.Nodup.append h (List.nodup_singleton _) ?_
      intro n hn hn'
      rw [List.mem_singleton] at hn'
      obtain ⟨q, hq, rfl⟩ := List.mem_map.1 hn
      exact hfresh q hq hn'
  | getPlaces => exact ⟨_, _, rfl, h⟩
  | putPlace =>
    have hq : NamesUnique (c.Query grow (ascii "description") st).2 := by
      unfold NamesUnique
      rw [(Query_frame grow c (ascii "description") st).2.1]
      exact h
    rcases updatePlaceDescription_cases grow c st with ⟨r, _, h1⟩ | h1 | ⟨i, p, hp, h1⟩
    · exact ⟨_, _, h1, h⟩
    · exact ⟨_, _, h1, hq⟩
    · refine ⟨_, _, h1, ?_⟩
      simp only [NamesUnique, elems_some, List.map_set]
      have hpn : ((c.Query grow (ascii "description") st).2.currentUser.Places.elems.map
          Place.Name)[i]? = some p.Name := by
        rw [List.getElem?_map, hp]; rfl
      rw [set_eq_self_of_getElem? _ _ _ hpn]
      exact hq
  | deletePlace =>
    rcases deletePlace_cases c st with ⟨r, _, h1⟩ | ⟨i, h1⟩
    · exact ⟨_, _, h1, h⟩
    · refine ⟨_, _, h1, ?_⟩
      simp only [NamesUnique, elems_some]
      rw [← List.eraseIdx_eq_take_drop_succ]
      exact h.sublist ((List.eraseIdx_sublist _ _).map _)
  | getRoot => exact ⟨_, _, rfl, h⟩

/-- C7: from a registry whose names are pairwise distinct, every finite
sequence of requests to the registered routes (whatever their bodies, ids and
query strings, whichever request contexts serve them and whatever capacities
the runtime allocates) is served without a panic and ends in a registry whose
names are pairwise distinct. -/
theorem C7_names_stay_unique (grow : fasthttp.Growslice) (st : State)
    (reqs : List (Route × Ctx)) (h : NamesUnique st) :
    ∃ st', serve grow st reqs = some st' ∧ NamesUnique st' := by
  induction reqs generalizing st with
  | nil => exact ⟨st, rfl, h⟩
  | cons rc rest ih =>
    obtain ⟨route, c⟩ := rc
    obtain ⟨r, st1, h1, hu⟩ := setupRoutes_namesUnique grow route c st h
    obtain ⟨st2, h2, hu2⟩ := ih st1 hu
    refine ⟨st2, ?_, hu2⟩
    simp only [serve, h1]
    exact h2

/-- From the empty registry: two creations of `Cafe`, a creation of `Park`, an
update, a deletion and a listing end in a registry with distinct names. -/
theorem C7_names_stay_unique_witness :
    NamesUnique emptyState
    ∧ ∃ st', serve tight emptyState [(.postPlaces, bodyCtx cafe), (.postPlaces, bodyCtx cafe),
        (.postPlaces, bodyCtx park), (.putPlace, idCtx "10" "description=green+space"),
        (.deletePlace, idCtx "00" ""), (.getPlaces, idCtx "" "")] = some st'
      ∧ NamesUnique st' :=
  ⟨List.nodup_nil, C7_names_stay_unique tight emptyState _ List.nodup_nil⟩

/-- C9 (the code departs from it): `c.Query` is called before the description
is checked, and parsing the query writes into the buffers in which stored
descriptions lie.  In `greenState`, the state that
`PUT /places/10?description=green` leaves on the registry `[Cafe, Park]`, the
id `10` parses to the index 1, which is within range, and the query `x=quiet`
has no description; `PUT /places/10?x=quiet` answers 400, yet the description
of `Park` reads `quiet` afterwards: the registry is not the one before the
call.  The file is not written. -/
theorem C9_updatePlaceDescription_empty_rewrites (grow : fasthttp.Growslice) :
    updatePlaceDescription grow (idCtx "10" "description=green") (stateOf [cafe, park])
      = some (⟨StatusOK, .message "описание обновлено"⟩, greenState grow)
    ∧ parseID (idCtx "10" "x=quiet").id = some (.ok 1) ∧ (0 : Int) ≤ 1
    ∧ (1 : Int) < (greenState grow).currentUser.Places.len
    ∧ ((idCtx "10" "x=quiet").Query grow (ascii "description") (greenState grow)).1.bytes = []
    ∧ ∃ r st', updatePlaceDescription grow (idCtx "10" "x=quiet") (greenState grow)
          = some (r, st')
        ∧ r.status = StatusBadRequest
        ∧ (greenState grow).currentUser.Places
            = some [cafe, { park with Description := ascii "green" }]
        ∧ st'.currentUser.Places = some [cafe, { park with Description := ascii "quiet" }]
        ∧ st' ≠ greenState grow
        ∧ st'.placesFile = (greenState grow).placesFile := by
  refine ⟨updatePlaceDescription_green grow, by decide, by decide,
    by show (1 : Int) < ((2 : Nat) : Int); decide, by rw [Query_x], _, _,
    updatePlaceDescription_x grow, rfl, rfl, rfl, ?_, rfl⟩
  intro h
  have h2 : (some [cafe, { park with Description := ascii "quiet" }] : Slice Place)
      = some [cafe, { park with Description := ascii "green" }] :=
    congrArg (fun s : State => s.currentUser.Places) h
  exact absurd h2 (by decide)

/-- After an answer 200 of `createPlace`, `updatePlaceDescription` or
`deletePlace` the file holds the encoding of the whole new registry, whatever
it held before.  `createPlace` and `deletePlace` leave the state as it was on
every other answer, and `listPlaces` always; `updatePlaceDescription` leaves
the file as it was on every other answer. -/
theorem file_after_handler (grow : fasthttp.Growslice) (c : Ctx) (st : State) :
    (((createPlace c st).1.status = StatusOK →
        (createPlace c st).2.placesFile
          = some (json.Encode (createPlace c st).2.currentUser.Places))
      ∧ ((createPlace c st).1.status ≠ StatusOK → (createPlace c st).2 = st))
    ∧ (∃ r st', updatePlaceDescription grow c st = some (r, st')
        ∧ (r.status = StatusOK → st'.placesFile = some (json.Encode st'.currentUser.Places))
        ∧ (r.status ≠ StatusOK → st'.placesFile = st.placesFile))
    ∧ (∃ r st', deletePlace c st = some (r, st')
        ∧ (r.status = StatusOK → st'.placesFile = some (json.Encode st'.currentUser.Places))
        ∧ (r.status ≠ StatusOK → st' = st))
    ∧ (listPlaces c st).2 = st := by
  refine ⟨?_, ?_, ?_, rfl⟩
  · rcases createPlace_cases c st with h1 | h1 | ⟨p, _, _, h1⟩
    · rw [h1]
      exact ⟨fun h => absurd h (by decide : ¬ StatusBadRequest = StatusOK), fun _ => rfl⟩
    · rw [h1]
      exact ⟨fun h => absurd h (by decide : ¬ StatusConflict = StatusOK), fun _ => rfl⟩
    · rw [h1]; exact ⟨fun _ => rfl, fun h => absurd rfl h⟩
  · rcases updatePlaceDescription_cases grow c st with ⟨r, hr, h1⟩ | h1 | ⟨i, p, _, h1⟩
    · exact ⟨_, _, h1, fun h => absurd h hr, fun _ => rfl⟩
    · exact ⟨_, _, h1, fun h => absurd h (by decide : ¬ StatusBadRequest = StatusOK),
        fun _ => (Query_frame grow c (ascii "description") st).1⟩
    · exact ⟨_, _, h1, fun _ => rfl, fun h => absurd rfl h⟩
  · rcases deletePlace_cases c st with ⟨r, hr, h1⟩ | ⟨i, h1⟩
    · exact ⟨_, _, h1, fun h => absurd h hr, fun _ => rfl⟩
    · exact ⟨_, _, h1, fun _ => rfl, fun h => absurd rfl h⟩

/-- C10 (the code departs from it): a call of `updatePlaceDescription` that
fails can change the registry and leave the file behind.  In `greenState`, the
state that `PUT /places/10?description=green` leaves on the registry
`[Cafe, Park]`, the file holds the encoding of the registry.
`PUT /places/10?x=quiet` answers 400; afterwards the registry is another one
(the description of `Park` reads `quiet`), the file is the same, and so the
file no longer holds the encoding of the registry: decoding it gives the
description `green`. -/
theorem C10_file_not_tracking_after_failure (grow : fasthttp.Growslice) :
    updatePlaceDescription grow (idCtx "10" "description=green") (stateOf [cafe, park])
      = some (⟨StatusOK, .message "описание обновлено"⟩, greenState grow)
    ∧ (greenState grow).placesFile
        = some (json.Encode (greenState grow).currentUser.Places)
    ∧ ∃ r st', updatePlaceDescription grow (idCtx "10" "x=quiet") (greenState grow)
          = some (r, st')
        ∧ r.status = StatusBadRequest
        ∧ st'.currentUser.Places ≠ (greenState grow).currentUser.Places
        ∧ st'.placesFile = (greenState grow).placesFile
        ∧ st'.placesFile ≠ some (json.Encode st'.currentUser.Places)
        ∧ (∃ file, st'.placesFile = some file
            ∧ json.Decode file none
                = some (some [cafe, { park with Description := ascii "green" }], none)
            ∧ st'.currentUser.Places
                = some [cafe, { park with Description := ascii "quiet" }]) := by
  have hne : (some [cafe, { park with Description := ascii "quiet" }] : Slice Place)
      ≠ some [cafe, { park with Description := ascii "green" }] := by decide
  have hfile : (some (json.Encode (some [cafe, { park with Description := ascii "green" }])))
      ≠ some (json.Encode (some [cafe, { park with Description := ascii "quiet" }])) := by
    decide
  have hdec : json.Decode (json.Encode (some [cafe, { park with Description := ascii "green" }]))
      none = some (some [cafe, { park with Description := ascii "green" }], none) := by
    decide
  exact ⟨updatePlaceDescription_green grow, rfl, _, _, updatePlaceDescription_x grow, rfl,
    hne, rfl, hfile, _, rfl, hdec, rfl⟩

/-! ## Facts about UTF-8 -/

theorem byte_eq_of_val {n : Nat} {b : Byte} (h : n = b.val) : byte n = b := by
  apply Fin.ext
  simp only [byte]
  omega

namespace utf8

theorem between_iff (lo hi : Nat) (b : Byte) : between lo hi b = true ↔ lo ≤ b.val ∧ b.val ≤ hi := by
  simp [between]

/-- A rune decoded without error is re-encoded to the bytes it was read from. -/
theorem EncodeRune_DecodeRune (b : Byte) (rest : List Byte)
    (h : ¬ ((DecodeRune (b :: rest)).1 = RuneError ∧ (DecodeRune (b :: rest)).2 = 1)) :
    EncodeRune (DecodeRune (b :: rest)).1 = (b :: rest).take (DecodeRune (b :: rest)).2 := by
  by_cases h1 : b.val < 0x80
  · simp only [DecodeRune, h1, if_true, EncodeRune, List.take_succ_cons, List.take_zero]
    rw [if_pos (by omega), byte_eq_of_val rfl]
  by_cases h2 : b.val < 0xC2
  · simp [DecodeRune, h1, h2] at h
  by_cases h3 : b.val < 0xE0
  · cases rest with
    | nil => simp [DecodeRune, h1, h2, h3] at h
    | cons b1 t =>
      by_cases hb : between 0x80 0xBF b1 = true
      · simp only [DecodeRune, h1, h2, h3, hb, if_true, if_false, EncodeRune, MaxRune,
          List.take_succ_cons, List.take_zero]
        rw [between_iff] at hb
        rw [if_neg (by omega), if_pos (by omega)]
        rw [byte_eq_of_val (b := b) (by omega), byte_eq_of_val (b := b1) (by omega)]
      · simp [DecodeRune, h1, h2, h3, hb] at h
  by_cases h4 : b.val < 0xF0
  · rcases rest with _ | ⟨b1, _ | ⟨b2, t⟩⟩
    · simp [DecodeRune, h1, h2, h3, h4] at h
    · simp [DecodeRune, h1, h2, h3, h4] at h
    · by_cases hb : (between (if b.val = 0xE0 then 0xA0 else 0x80)
              (if b.val = 0xED then 0x9F else 0xBF) b1 && between 0x80 0xBF b2) = true
      · simp only [DecodeRune, h1, h2, h3, h4, hb, if_true, if_false, EncodeRune, MaxRune,
          List.take_succ_cons, List.take_zero]
        rw [Bool.and_eq_true, between_iff, between_iff] at hb
        obtain ⟨⟨hlo, hhi⟩, hb2, hb2'⟩ := hb
        have hlo' : 0x80 ≤ b1.val ∧ (b.val = 0xE0 → 0xA0 ≤ b1.val) := by
          split_ifs at hlo <;> omega
        have hhi' : b1.val ≤ 0xBF ∧ (b.val = 0xED → b1.val ≤ 0x9F) := by
          split_ifs at hhi <;> omega
        rw [if_neg (by omega), if_neg (by omega), if_neg (by omega), if_pos (by omega)]
        rw [byte_eq_of_val (b := b) (by omega), byte_eq_of_val (b := b1) (by omega),
          byte_eq_of_val (b := b2) (by omega)]
      · simp [DecodeRune, h1, h2, h3, h4, hb] at h
  by_cases h5 : b.val < 0xF5
  · rcases rest with _ | ⟨b1, _ | ⟨b2, _ | ⟨b3, t⟩⟩⟩
    · simp [DecodeRune, h1, h2, h3, h4, h5] at h
    · simp [DecodeRune, h1, h2, h3, h4, h5] at h
    · simp [DecodeRune, h1, h2, h3, h4, h5] at h
    · by_cases hb : (between (if b.val = 0xF0 then 0x90 else 0x80)
              (if b.val = 0xF4 then 0x8F else 0xBF) b1 && between 0x80 0xBF b2
            && between 0x80 0xBF b3) = true
      · simp only [DecodeRune, h1, h2, h3, h4, h5, hb, if_true, if_false, EncodeRune, MaxRune,
          List.take_succ_cons, List.take_zero]
        rw [Bool.and_eq_true, Bool.and_eq_true, between_iff, between_iff, between_iff] at hb
        obtain ⟨⟨⟨hlo, hhi⟩, hb2, hb2'⟩, hb3, hb3'⟩ := hb
        have hlo' : 0x80 ≤ b1.val ∧ (b.val = 0xF0 → 0x90 ≤ b1.val) := by
          split_ifs at hlo <;> omega
        have hhi' : b1.val ≤ 0xBF ∧ (b.val = 0xF4 → b1.val ≤ 0x8F) := by
          split_ifs at hhi <;> omega
        rw [if_neg (by omega), if_neg (by omega), if_neg (by omega), if_neg (by omega)]
        rw [byte_eq_of_val (b := b) (by omega), byte_eq_of_val (b := b1) (by omega),
          byte_eq_of_val (b := b2) (by omega), byte_eq_of_val (b := b3) (by omega)]
      · simp [DecodeRune, h1, h2, h3, h4, h5, hb] at h
  · simp [DecodeRune, h1, h2, h3, h4, h5] at h


/-- The shape of a successful decoding of a rune that does not start with an
ASCII byte: its width `k` is between 2 and 4, the input has at least `k`
bytes, the first `k` bytes are not ASCII, and the result depends on these
bytes only. -/
theorem DecodeRune_multibyte (b : Byte) (rest : List Byte) (hb : ¬ b.val < 0x80)
    (h : ¬ ((DecodeRune (b :: rest)).1 = RuneError ∧ (DecodeRune (b :: rest)).2 = 1)) :
    2 ≤ (DecodeRune (b :: rest)).2
    ∧ (DecodeRune (b :: rest)).2 ≤ (b :: rest).length
    ∧ (∀ x ∈ (b :: rest).take (DecodeRune (b :: rest)).2, 0x80 ≤ x.val)
    ∧ (∀ tail, DecodeRune ((b :: rest).take (DecodeRune (b :: rest)).2 ++ tail)
        = DecodeRune (b :: rest)) := by
  by_cases h2 : b.val < 0xC2
  · simp [DecodeRune, hb, h2] at h
  by_cases h3 : b.val < 0xE0
  · cases rest with
    | nil => simp [DecodeRune, hb, h2, h3] at h
    | cons b1 t =>
      by_cases hc : between 0x80 0xBF b1 = true
      · simp only [DecodeRune, hb, h2, h3, hc, if_true, if_false, List.take_succ_cons,
          List.take_zero, List.length_cons, List.cons_append, List.nil_append]
        rw [between_iff] at hc
        refine ⟨le_refl _, by omega, ?_, fun _ => trivial⟩
        intro x hx
        simp only [List.mem_cons, List.mem_nil_iff, or_false] at hx
        rcases hx with rfl | rfl <;> omega
      · simp [DecodeRune, hb, h2, h3, hc] at h
  by_cases h4 : b.val < 0xF0
  · rcases rest with _ | ⟨b1, _ | ⟨b2, t⟩⟩
    · simp [DecodeRune, hb, h2, h3, h4] at h
    · simp [DecodeRune, hb, h2, h3, h4] at h
    · by_cases hc : (between (if b.val = 0xE0 then 0xA0 else 0x80)
              (if b.val = 0xED then 0x9F else 0xBF) b1 && between 0x80 0xBF b2) = true
      · simp only [DecodeRune, hb, h2, h3, h4, hc, if_true, if_false, List.take_succ_cons,
          List.take_zero, List.length_cons, List.cons_append, List.nil_append]
        rw [Bool.and_eq_true, between_iff, between_iff] at hc
        obtain ⟨⟨hlo, hhi⟩, hb2, hb2'⟩ := hc
        have hlo' : 0x80 ≤ b1.val := by split_ifs at hlo <;> omega
        refine ⟨by omega, by omega, ?_, fun _ => trivial⟩
        intro x hx
        simp only [List.mem_cons, List.mem_nil_iff, or_false] at hx
        rcases hx with rfl | rfl | rfl <;> omega
      · simp [DecodeRune, hb, h2, h3, h4, hc] at h
  by_cases h5 : b.val < 0xF5
  · rcases rest with _ | ⟨b1, _ | ⟨b2, _ | ⟨b3, t⟩⟩⟩
    · simp [DecodeRune, hb, h2, h3, h4, h5] at h
    · simp [DecodeRune, hb, h2, h3, h4, h5] at h
    · simp [DecodeRune, hb, h2, h3, h4, h5] at h
    · by_cases hc : (between (if b.val = 0xF0 then 0x90 else 0x80)
              (if b.val = 0xF4 then 0x8F else 0xBF) b1 && between 0x80 0xBF b2
            && between 0x80 0xBF b3) = true
      · simp only [DecodeRune, hb, h2, h3, h4, h5, hc, if_true, if_false, List.take_succ_cons,
          List.take_zero, List.length_cons, List.cons_append, List.nil_append]
        rw [Bool.and_eq_true, Bool.and_eq_true, between_iff, between_iff, between_iff] at hc
        obtain ⟨⟨⟨hlo, hhi⟩, hb2, hb2'⟩, hb3, hb3'⟩ := hc
        have hlo' : 0x80 ≤ b1.val := by split_ifs at hlo <;> omega
        refine ⟨by omega, by omega, ?_, fun _ => trivial⟩
        intro x hx
        simp only [List.mem_cons, List.mem_nil_iff, or_false] at hx
        rcases hx with rfl | rfl | rfl | rfl <;> omega
      · simp [DecodeRune, hb, h2, h3, h4, h5, hc] at h
  · simp [DecodeRune, hb, h2, h3, h4, h5] at h

end utf8

/-! ## Scanning what the encoder writes -/

namespace json

theorem scan_nil (s : Scanner) : scan s [] = s := rfl

theorem scan_cons (s : Scanner) (c : Byte) (cs : List Byte) :
    scan s (c :: cs) = scan (step s c) cs := rfl

theorem scan_append (s : Scanner) (xs ys : List Byte) :
    scan s (xs ++ ys) = scan (scan s xs) ys := by
  simp [scan, List.foldl_append]

/-- Inside a string literal, bytes other than the quote, the backslash and the
control characters are appended to the text of the literal. -/
theorem scan_plain (K : List Frame) (v : Option Value) (xs lit : List Byte)
    (h : ∀ x ∈ xs, 0x20 ≤ x.val ∧ x.val ≠ 0x22 ∧ x.val ≠ 0x5C) :
    scan ⟨.inString, K, lit, v⟩ xs = ⟨.inString, K, lit ++ xs, v⟩ := by
  induction xs generalizing lit with
  | nil => simp [scan_nil]
  | cons x xs ih =>
    have hx := h x (List.mem_cons_self _ _)
    rw [scan_cons]
    have : step ⟨.inString, K, lit, v⟩ x = ⟨.inString, K, lit ++ [x], v⟩ := by
      simp only [step]
      rw [if_neg (by omega), if_neg (by omega), if_neg (by omega)]
    rw [this, ih _ (fun y hy => h y (List.mem_cons_of_mem _ hy))]
    simp

theorem isHex_hex (n : Nat) (h : n < 16) : isHex (hex n) = true := by
  simp only [isHex, hex, byte, decide_eq_true_eq]
  split <;> simp only <;> omega

/-- Inside a string literal, a six-byte `\u` escape is appended to the text of
the literal. -/
theorem scan_escapeU (K : List Frame) (v : Option Value) (lit : List Byte) (a b c d : Byte)
    (ha : isHex a = true) (hb : isHex b = true) (hc : isHex c = true) (hd : isHex d = true) :
    scan ⟨.inString, K, lit, v⟩ [0x5C, 0x75, a, b, c, d]
      = ⟨.inString, K, lit ++ [0x5C, 0x75, a, b, c, d], v⟩ := by
  simp +decide [scan_cons, scan_nil, step, ha, hb, hc, hd]

/-- Inside a string literal, the escape of an ASCII byte is appended to the
text of the literal. -/
theorem scan_escapeByte (K : List Frame) (v : Option Value) (lit : List Byte) (b : Byte) :
    scan ⟨.inString, K, lit, v⟩ (escapeByte b) = ⟨.inString, K, lit ++ escapeByte b, v⟩ := by
  unfold escapeByte
  split
  · next h =>
    rcases h with h | h
    · simp +decide [scan_cons, scan_nil, step, h]
    · simp +decide [scan_cons, scan_nil, step, h]
  · split
    · simp +decide [scan_cons, scan_nil, step]
    · split
      · simp +decide [scan_cons, scan_nil, step]
      · split
        · simp +decide [scan_cons, scan_nil, step]
        · split
          · simp +decide [scan_cons, scan_nil, step]
          · split
            · simp +decide [scan_cons, scan_nil, step]
            · exact scan_escapeU K v lit _ _ _ _ (by decide) (by decide)
                (isHex_hex _ (by omega)) (isHex_hex _ (by omega))

/-- Inside a string literal, the escaped form of any string is appended to the
text of the literal. -/
theorem scan_escapeAux (K : List Frame) (v : Option Value) (fuel : Nat) (src lit : List Byte) :
    scan ⟨.inString, K, lit, v⟩ (escapeAux fuel src)
      = ⟨.inString, K, lit ++ escapeAux fuel src, v⟩ := by
  induction fuel generalizing src lit with
  | zero => cases src <;> simp [escapeAux, scan_nil]
  | succ fuel ih =>
    cases src with
    | nil => simp [escapeAux, scan_nil]
    | cons b rest =>
      simp only [escapeAux]
      split
      · next hb =>
        split
        · next hs =>
          have hs' : 0x20 ≤ b.val ∧ b.val ≠ 0x22 ∧ b.val ≠ 0x5C := by
            simp only [htmlSafe, decide_eq_true_eq] at hs; omega
          rw [show b :: escapeAux fuel rest = [b] ++ escapeAux fuel rest from rfl, scan_append,
            scan_plain K v [b] lit (by simpa using hs'), ih]
          simp
        · rw [scan_append, scan_escapeByte, ih]
          simp
      · next hb =>
        split
        · rw [scan_append, scan_escapeU K v lit _ _ _ _ (by decide) (by decide) (by decide)
            (by decide), ih]
          simp
        · next he =>
          have hm := utf8.DecodeRune_multibyte b rest hb he
          split
          · rw [scan_append, scan_escapeU K v lit _ _ _ _ (by decide) (by decide) (by decide)
              (isHex_hex _ (by omega)), ih]
            simp
          · rw [scan_append, scan_plain K v _ lit (fun x hx => by
              have := hm.2.2.1 x hx; omega), ih]
            simp

/-- A string literal is scanned into the value carrying the text between its
quotes, from every state in which a string may begin. -/
theorem scan_appendString (m : Mode) (K : List Frame) (v : Option Value) (lit src : List Byte)
    (hm : m = .beginValue ∨ m = .beginValueOrEmpty ∨ m = .beginString
      ∨ m = .beginStringOrEmpty) :
    scan ⟨m, K, lit, v⟩ (appendString src) = deliver (.string (escape src)) K v := by
  unfold appendString escape
  rw [List.cons_append, scan_cons]
  have h1 : step ⟨m, K, lit, v⟩ 0x22 = ⟨.inString, K, [], v⟩ := by
    rcases hm with rfl | rfl | rfl | rfl <;> rfl
  rw [h1, scan_append, scan_escapeAux, scan_cons, scan_nil]
  rfl

end json

/-! ## Unquoting what the encoder writes -/

namespace utf8

theorem DecodeRune_ascii (b : Byte) (rest : List Byte) (hb : b.val < 0x80) :
    DecodeRune (b :: rest) = (b.val, 1) := by
  simp only [DecodeRune, hb, if_true]

theorem validAux_cons (fuel : Nat) (b : Byte) (rest : List Byte) :
    validAux (fuel + 1) (b :: rest) = true ↔
      ¬ ((DecodeRune (b :: rest)).1 = RuneError ∧ (DecodeRune (b :: rest)).2 = 1)
      ∧ validAux fuel ((b :: rest).drop (DecodeRune (b :: rest)).2) = true := by
  simp only [validAux]
  split
  · next h => simp [h]
  · next h => simp [h]

theorem validAux_ascii (fuel : Nat) (b : Byte) (rest : List Byte) (hb : b.val < 0x80)
    (h : validAux (fuel + 1) (b :: rest) = true) : validAux fuel rest = true := by
  have := ((validAux_cons fuel b rest).1 h).2
  rw [DecodeRune_ascii b rest hb] at this
  simpa using this

end utf8

namespace json

theorem hexVal_hex (n : Nat) (h : n < 16) : hexVal (hex n) = some n := by
  simp only [hexVal, hex, byte]
  split
  · next h1 =>
    rw [if_pos (by simp only; omega)]
    congr 1
    simp only
    omega
  · next h1 =>
    rw [if_neg (by simp only; omega), if_pos (by simp only; omega)]
    congr 1
    simp only
    omega

theorem escapeByte_eq (b : Byte) : ∃ e tail, escapeByte b = 0x5C :: e :: tail := by
  unfold escapeByte
  split_ifs <;> exact ⟨_, _, rfl⟩

end json
namespace json

theorem unquoteLoop_plain (f : Nat) (c : Byte) (rest : List Byte)
    (h : c.val ≠ 0x5C ∧ c.val ≠ 0x22 ∧ 0x20 ≤ c.val ∧ c.val < 0x80) :
    unquoteLoop (f + 1) (c :: rest) = (unquoteLoop f rest).map (fun t => c :: t) := by
  rw [unquoteLoop, unquoteStep.eq_def]
  rw [if_neg (by omega), if_neg (by omega), if_pos (by omega)]

theorem unquoteLoop_rune (f : Nat) (c : Byte) (rest : List Byte) (h : 0x80 ≤ c.val) :
    unquoteLoop (f + 1) (c :: rest)
      = (unquoteLoop f ((c :: rest).drop (utf8.DecodeRune (c :: rest)).2)).map
          (fun t => utf8.EncodeRune (utf8.DecodeRune (c :: rest)).1 ++ t) := by
  rw [unquoteLoop, unquoteStep.eq_def]
  rw [if_neg (by omega), if_neg (by omega), if_neg (by omega)]

theorem unquoteLoop_escU (f : Nat) (a b c d : Byte) (rest : List Byte) (rr : Nat)
    (hg : getu4 (0x5C :: 0x75 :: a :: b :: c :: d :: rest) = some rr)
    (hs : isSurrogate rr = false) :
    unquoteLoop (f + 1) (0x5C :: 0x75 :: a :: b :: c :: d :: rest)
      = (unquoteLoop f rest).map (fun t => utf8.EncodeRune rr ++ t) := by
  rw [unquoteLoop, unquoteStep.eq_def]
  rw [if_pos (by decide)]
  dsimp only
  rw [if_neg (by decide), if_neg (by decide), if_neg (by decide), if_neg (by decide),
    if_neg (by decide), if_neg (by decide), if_pos (by decide)]
  simp only [hg, hs, Bool.false_eq_true, if_false, List.drop_succ_cons, List.drop_zero]

end json

namespace json

theorem unquoteLoop_escQuote (f : Nat) (e : Byte) (rest : List Byte)
    (h : e.val = 0x22 ∨ e.val = 0x5C) :
    unquoteLoop (f + 1) (0x5C :: e :: rest) = (unquoteLoop f rest).map (fun t => e :: t) := by
  rw [unquoteLoop, unquoteStep.eq_def]
  rw [if_pos (by decide)]
  dsimp only
  rw [if_pos (by omega)]

/-- Unquoting the escape of an ASCII byte yields the byte. -/
theorem unquoteLoop_escapeByte (b : Byte) (hb : b.val < 0x80) (tail : List Byte) (f : Nat) :
    unquoteLoop (f + 1) (escapeByte b ++ tail) = (unquoteLoop f tail).map (fun t => b :: t) := by
  unfold escapeByte
  split
  · next h => exact unquoteLoop_escQuote f b tail (by omega)
  · next h1 =>
    split
    · next h =>
      have : b = 0x08 := Fin.ext h
      subst this
      rfl
    · split
      · next h =>
        have : b = 0x0C := Fin.ext h
        subst this
        rfl
      · split
        · next h =>
          have : b = 0x0A := Fin.ext h
          subst this
          rfl
        · split
          · next h =>
            have : b = 0x0D := Fin.ext h
            subst this
            rfl
          · split
            · next h =>
              have : b = 0x09 := Fin.ext h
              subst this
              rfl
            · have hg : getu4 (0x5C :: 0x75 :: 0x30 :: 0x30 :: hex (b.val / 16)
                  :: hex (b.val % 16) :: tail) = some b.val := by
                simp only [getu4]
                rw [if_pos (by decide), hexVal_hex _ (by omega), hexVal_hex _ (by omega)]
                have h0 : hexVal 0x30 = some 0 := by decide
                rw [h0]
                simp only
                congr 1
                omega
              have he : utf8.EncodeRune b.val = [b] := by
                simp only [utf8.EncodeRune]
                rw [if_pos (by omega), byte_eq_of_val rfl]
              have hs : isSurrogate b.val = false := by
                simp only [isSurrogate, decide_eq_false_iff_not]
                omega
              rw [List.cons_append, List.cons_append, List.cons_append, List.cons_append,
                List.cons_append, List.cons_append, List.nil_append,
                unquoteLoop_escU f _ _ _ _ tail b.val hg hs, he]
              rfl

/-- Unquoting the escaped form of a valid UTF-8 string yields the string. -/
theorem unquoteLoop_escapeAux (fuel : Nat) (src : List Byte) (f : Nat)
    (hv : utf8.validAux fuel src = true) (hf : (escapeAux fuel src).length ≤ f) :
    unquoteLoop f (escapeAux fuel src) = some src := by
  induction fuel generalizing src f with
  | zero =>
    cases src with
    | nil => cases f <;> rfl
    | cons b rest => simp [utf8.validAux] at hv
  | succ fuel ih =>
    cases src with
    | nil => cases f <;> rfl
    | cons b rest =>
      simp only [escapeAux] at hf ⊢
      split at hf
      · next hb =>
        have hv' := utf8.validAux_ascii fuel b rest hb hv
        split at hf
        · next hs =>
          have hs' : 0x20 ≤ b.val ∧ b.val ≠ 0x22 ∧ b.val ≠ 0x5C := by
            simp only [htmlSafe, decide_eq_true_eq] at hs; omega
          rw [if_pos hb, if_pos hs]
          cases f with
          | zero => simp at hf
          | succ f =>
            rw [unquoteLoop_plain f b _ (by omega), ih rest f hv' (by simpa using hf)]
            rfl
        · next hs =>
          rw [if_pos hb, if_neg hs]
          obtain ⟨e, tl, he⟩ := escapeByte_eq b
          cases f with
          | zero => rw [he] at hf; simp at hf
          | succ f =>
            rw [unquoteLoop_escapeByte b hb _ f, ih rest f hv' (by
              rw [he] at hf; simp at hf ⊢; omega)]
            rfl
      · next hb =>
        obtain ⟨hne, hv'⟩ := (utf8.validAux_cons fuel b rest).1 hv
        have hm := utf8.DecodeRune_multibyte b rest hb hne
        have henc := utf8.EncodeRune_DecodeRune b rest hne
        rw [if_neg hb, if_neg hne]
        rw [if_neg hne] at hf
        split at hf
        · next h28 =>
          rw [if_pos h28]
          have hg : getu4 (0x5C :: 0x75 :: 0x32 :: 0x30 :: 0x32
              :: hex ((utf8.DecodeRune (b :: rest)).1 % 16)
              :: escapeAux fuel ((b :: rest).drop (utf8.DecodeRune (b :: rest)).2))
              = some (utf8.DecodeRune (b :: rest)).1 := by
            rcases h28 with h | h <;> rw [h] <;> rfl
          have hs : isSurrogate (utf8.DecodeRune (b :: rest)).1 = false := by
            rcases h28 with h | h <;> rw [h] <;> rfl
          cases f with
          | zero => simp at hf
          | succ f =>
            rw [List.cons_append, List.cons_append, List.cons_append, List.cons_append,
              List.cons_append, List.cons_append, List.nil_append,
              unquoteLoop_escU f _ _ _ _ _ _ hg hs, ih _ f hv' (by simp at hf ⊢; omega), henc]
            simp
        · next h28 =>
          rw [if_neg h28]
          have hlen : ((b :: rest).take (utf8.DecodeRune (b :: rest)).2).length
              = (utf8.DecodeRune (b :: rest)).2 := by
            rw [List.length_take]; omega
          obtain ⟨tk, htk⟩ : ∃ tk, (b :: rest).take (utf8.DecodeRune (b :: rest)).2 = b :: tk := by
            cases hd : (utf8.DecodeRune (b :: rest)).2 with
            | zero => omega
            | succ k => exact ⟨_, rfl⟩
          have hdec := hm.2.2.2 (escapeAux fuel ((b :: rest).drop (utf8.DecodeRune (b :: rest)).2))
          have hdrop : ((b :: rest).take (utf8.DecodeRune (b :: rest)).2
              ++ escapeAux fuel ((b :: rest).drop (utf8.DecodeRune (b :: rest)).2)).drop
                (utf8.DecodeRune (b :: rest)).2
              = escapeAux fuel ((b :: rest).drop (utf8.DecodeRune (b :: rest)).2) := by
            rw [List.drop_append_of_le_length (by omega), List.drop_of_length_le (by omega)]
            rfl
          cases f with
          | zero => rw [htk] at hf; simp at hf
          | succ f =>
            rw [htk, List.cons_append] at hdec hdrop ⊢
            rw [unquoteLoop_rune f b _ (by omega), hdec, hdrop, ih _ f hv' (by
              rw [htk] at hf; simp at hf ⊢; omega), henc]
            simp


theorem plainPrefix_backslash (fP : Nat) (t : List Byte) : plainPrefix fP (0x5C :: t) = 0 := by
  cases fP with
  | zero => rfl
  | succ n => rw [plainPrefix, if_pos (by decide)]

theorem plainPrefix_plain (fP : Nat) (c : Byte) (t : List Byte)
    (h : c.val ≠ 0x5C ∧ c.val ≠ 0x22 ∧ 0x20 ≤ c.val ∧ c.val < 0x80) :
    plainPrefix (fP + 1) (c :: t) = 1 + plainPrefix fP t := by
  rw [plainPrefix, if_neg (by omega), if_pos (by omega)]

theorem plainPrefix_rune (fP : Nat) (c : Byte) (t : List Byte) (h : 0x80 ≤ c.val)
    (hne : ¬ ((utf8.DecodeRune (c :: t)).1 = utf8.RuneError ∧ (utf8.DecodeRune (c :: t)).2 = 1)) :
    plainPrefix (fP + 1) (c :: t) = (utf8.DecodeRune (c :: t)).2
      + plainPrefix fP ((c :: t).drop (utf8.DecodeRune (c :: t)).2) := by
  rw [plainPrefix, if_neg (by omega), if_neg (by omega)]
  simp only
  rw [if_neg hne]

/-- The two loops of `unquoteBytes` together give back a valid UTF-8 string
from its escaped form. -/
theorem unquote_escapeAux (fuel : Nat) (src : List Byte) (fP fU : Nat)
    (hv : utf8.validAux fuel src = true) (hP : (escapeAux fuel src).length ≤ fP)
    (hU : (escapeAux fuel src).length ≤ fU) :
    (unquoteLoop fU ((escapeAux fuel src).drop (plainPrefix fP (escapeAux fuel src)))).map
        (fun t => (escapeAux fuel src).take (plainPrefix fP (escapeAux fuel src)) ++ t)
      = some src := by
  induction fuel generalizing src fP fU with
  | zero =>
    cases src with
    | nil => cases fP <;> cases fU <;> rfl
    | cons b rest => simp [utf8.validAux] at hv
  | succ fuel ih =>
    cases src with
    | nil => cases fP <;> cases fU <;> rfl
    | cons b rest =>
      have hloop := unquoteLoop_escapeAux (fuel + 1) (b :: rest) fU hv hU
      have hzero : ∀ t, escapeAux (fuel + 1) (b :: rest) = 0x5C :: t →
          (unquoteLoop fU ((escapeAux (fuel + 1) (b :: rest)).drop
              (plainPrefix fP (escapeAux (fuel + 1) (b :: rest))))).map
            (fun t => (escapeAux (fuel + 1) (b :: rest)).take
              (plainPrefix fP (escapeAux (fuel + 1) (b :: rest))) ++ t)
          = some (b :: rest) := by
        intro t ht
        rw [ht, plainPrefix_backslash, ← ht, List.drop_zero, List.take_zero, hloop]
        rfl
      by_cases hb : b.val < 0x80
      · have hv' := utf8.validAux_ascii fuel b rest hb hv
        by_cases hs : htmlSafe b = true
        · have hs' : 0x20 ≤ b.val ∧ b.val ≠ 0x22 ∧ b.val ≠ 0x5C := by
            simp only [htmlSafe, decide_eq_true_eq] at hs; omega
          have hE : escapeAux (fuel + 1) (b :: rest) = b :: escapeAux fuel rest := by
            simp only [escapeAux]
            rw [if_pos hb, if_pos hs]
          rw [hE] at hP hU ⊢
          cases fP with
          | zero => simp at hP
          | succ fP =>
            rw [plainPrefix_plain fP b _ (by omega), Nat.add_comm 1, List.drop_succ_cons,
              List.take_succ_cons]
            have := ih rest fP fU hv' (by simpa using hP) (by simp at hU; omega)
            rw [Option.map_eq_some'] at this ⊢
            obtain ⟨t, ht, hrest⟩ := this
            exact ⟨t, ht, by rw [List.cons_append, hrest]⟩
        · obtain ⟨e, tl, he⟩ := escapeByte_eq b
          apply hzero (e :: tl ++ escapeAux fuel rest)
          simp only [escapeAux]
          rw [if_pos hb, if_neg hs, he]
          rfl
      · obtain ⟨hne, hv'⟩ := (utf8.validAux_cons fuel b rest).1 hv
        have hm := utf8.DecodeRune_multibyte b rest hb hne
        by_cases h28 : (utf8.DecodeRune (b :: rest)).1 = 0x2028
            ∨ (utf8.DecodeRune (b :: rest)).1 = 0x2029
        · apply hzero
          simp only [escapeAux]
          rw [if_neg hb, if_neg hne, if_pos h28]
          rfl
        · have hE : escapeAux (fuel + 1) (b :: rest)
              = (b :: rest).take (utf8.DecodeRune (b :: rest)).2
                ++ escapeAux fuel ((b :: rest).drop (utf8.DecodeRune (b :: rest)).2) := by
            simp only [escapeAux]
            rw [if_neg hb, if_neg hne, if_neg h28]
          have hlen : ((b :: rest).take (utf8.DecodeRune (b :: rest)).2).length
              = (utf8.DecodeRune (b :: rest)).2 := by
            rw [List.length_take]; omega
          obtain ⟨tk, htk⟩ : ∃ tk, (b :: rest).take (utf8.DecodeRune (b :: rest)).2 = b :: tk := by
            cases hd : (utf8.DecodeRune (b :: rest)).2 with
            | zero => omega
            | succ k => exact ⟨_, rfl⟩
          have hdec := hm.2.2.2 (escapeAux fuel ((b :: rest).drop (utf8.DecodeRune (b :: rest)).2))
          have hdrop : ∀ p, ((b :: rest).take (utf8.DecodeRune (b :: rest)).2
              ++ escapeAux fuel ((b :: rest).drop (utf8.DecodeRune (b :: rest)).2)).drop
                ((utf8.DecodeRune (b :: rest)).2 + p)
              = (escapeAux fuel ((b :: rest).drop (utf8.DecodeRune (b :: rest)).2)).drop p := by
            intro p
            have h := @List.drop_append Byte ((b :: rest).take (utf8.DecodeRune (b :: rest)).2)
              (escapeAux fuel ((b :: rest).drop (utf8.DecodeRune (b :: rest)).2)) p
            rw [hlen] at h
            exact h
          have htake : ∀ p, ((b :: rest).take (utf8.DecodeRune (b :: rest)).2
              ++ escapeAux fuel ((b :: rest).drop (utf8.DecodeRune (b :: rest)).2)).take
                ((utf8.DecodeRune (b :: rest)).2 + p)
              = (b :: rest).take (utf8.DecodeRune (b :: rest)).2
                ++ (escapeAux fuel ((b :: rest).drop (utf8.DecodeRune (b :: rest)).2)).take p := by
            intro p
            have h := @List.take_append Byte ((b :: rest).take (utf8.DecodeRune (b :: rest)).2)
              (escapeAux fuel ((b :: rest).drop (utf8.DecodeRune (b :: rest)).2)) p
            rw [hlen] at h
            exact h
          rw [hE] at hP hU ⊢
          cases fP with
          | zero => rw [htk] at hP; simp at hP
          | succ fP =>
            have hpp : plainPrefix (fP + 1) ((b :: rest).take (utf8.DecodeRune (b :: rest)).2
                ++ escapeAux fuel ((b :: rest).drop (utf8.DecodeRune (b :: rest)).2))
                = (utf8.DecodeRune (b :: rest)).2 + plainPrefix fP
                    (escapeAux fuel ((b :: rest).drop (utf8.DecodeRune (b :: rest)).2)) := by
              have h0 := hdrop 0
              rw [Nat.add_zero, List.drop_zero] at h0
              rw [htk, List.cons_append] at hdec h0 ⊢
              rw [plainPrefix_rune fP b _ (by omega) (by rw [hdec]; exact hne), hdec, h0]
            rw [hpp, hdrop, htake]
            have := ih _ fP fU hv' (by rw [List.length_append, hlen] at hP; omega)
              (by rw [List.length_append, hlen] at hU; omega)
            rw [Option.map_eq_some'] at this ⊢
            obtain ⟨t, ht, hrest⟩ := this
            refine ⟨t, ht, ?_⟩
            rw [List.append_assoc, hrest, List.take_append_drop]

/-- The decoder's `unquoteBytes` gives back a valid UTF-8 string from the
text the encoder writes between the quotes. -/
theorem unquoteBytes_escape (src : GoString) (hv : utf8.Valid src = true) :
    unquoteBytes (escape src) = some src :=
  unquote_escapeAux src.length src _ _ hv (le_refl _) (le_refl _)

end json

/-! ## Decimal integers -/

namespace strconv

theorem parseUintLoop_append (acc : Nat) (xs ys : List Byte) :
    parseUintLoop acc (xs ++ ys)
      = match parseUintLoop acc xs with
        | .ok a => parseUintLoop a ys
        | .error e => .error e := by
  induction xs generalizing acc with
  | nil => rfl
  | cons x xs ih =>
    simp only [List.cons_append, parseUintLoop]
    split
    · split
      · rfl
      · split
        · rfl
        · exact ih _
    · rfl

theorem parseUintLoop_digit (acc d : Nat) (hd : d < 10) (h : acc * 10 + d < 2 ^ 64) :
    parseUintLoop acc [byte (0x30 + d)] = .ok (acc * 10 + d) := by
  have hv : (byte (0x30 + d)).val = 0x30 + d := by simp only [byte]; omega
  simp only [parseUintLoop, hv]
  rw [if_pos (by omega), if_neg (by omega), if_neg (by omega)]
  congr 1
  omega

/-- Parsing the decimal digits of `n` gives `n`. -/
theorem parseUintLoop_digitsRev (fuel n : Nat) (hf : n < fuel) (hn : n < 2 ^ 64) :
    parseUintLoop 0 (digitsRev fuel n).reverse = .ok n := by
  induction fuel generalizing n with
  | zero => omega
  | succ fuel ih =>
    simp only [digitsRev]
    split
    · next h =>
      have := parseUintLoop_digit 0 n h (by omega)
      simpa using this
    · next h =>
      rw [List.reverse_cons, parseUintLoop_append, ih (n / 10) (by omega) (by omega)]
      simp only
      rw [parseUintLoop_digit (n / 10) (n % 10) (by omega) (by omega)]
      congr 1
      omega

/-- The shape of the decimal text of `n`: a first digit, which is `0` only for
`n = 0` and then stands alone, followed by digits. -/
theorem digitsRev_shape (fuel n : Nat) (hf : n < fuel) :
    ∃ d ds, (digitsRev fuel n).reverse = d :: ds
      ∧ (∀ x ∈ ds, 0x30 ≤ x.val ∧ x.val ≤ 0x39)
      ∧ (n = 0 → d.val = 0x30 ∧ ds = [])
      ∧ (n ≠ 0 → 0x31 ≤ d.val ∧ d.val ≤ 0x39) := by
  induction fuel generalizing n with
  | zero => omega
  | succ fuel ih =>
    simp only [digitsRev]
    split
    · next h =>
      refine ⟨byte (0x30 + n), [], rfl, by simp, ?_, ?_⟩
      · intro h0; subst h0; exact ⟨rfl, rfl⟩
      · intro h0; simp only [byte]; omega
    · next h =>
      obtain ⟨d, ds, hrev, hds, _, hnz⟩ := ih (n / 10) (by omega)
      refine ⟨d, ds ++ [byte (0x30 + n % 10)], ?_, ?_, ?_, ?_⟩
      · rw [List.reverse_cons, hrev]; rfl
      · intro x hx
        rw [List.mem_append] at hx
        rcases hx with hx | hx
        · exact hds x hx
        · rw [List.mem_singleton] at hx
          subst hx
          simp only [byte]; omega
      · intro h0; omega
      · intro _; exact hnz (by omega)

theorem FormatUint_shape (n : Nat) :
    ∃ d ds, FormatUint n = d :: ds
      ∧ (∀ x ∈ ds, 0x30 ≤ x.val ∧ x.val ≤ 0x39)
      ∧ (n = 0 → d.val = 0x30 ∧ ds = [])
      ∧ (n ≠ 0 → 0x31 ≤ d.val ∧ d.val ≤ 0x39) :=
  digitsRev_shape (n + 1) n (by omega)

theorem ParseUint_FormatUint (n : Nat) (hn : n < 2 ^ 64) : ParseUint (FormatUint n) = .ok n := by
  obtain ⟨d, ds, h, _⟩ := FormatUint_shape n
  have := parseUintLoop_digitsRev (n + 1) n (by omega) hn
  unfold ParseUint
  unfold FormatUint at h ⊢
  rw [h] at this ⊢
  exact this

/-- Parsing the decimal text of a 64-bit integer gives the integer. -/
theorem ParseInt_FormatInt (i : Int) (hlo : -(2 ^ 63 : Int) ≤ i) (hhi : i < 2 ^ 63) :
    ParseInt (FormatInt i) = .ok i := by
  unfold FormatInt
  split
  · next hneg =>
    have hp := ParseUint_FormatUint i.natAbs (by omega)
    simp only [ParseInt]
    rw [if_pos (by decide)]
    simp only [hp]
    have hneg' : decide ((0x2D : Byte).val = 0x2D) = true := by decide
    rw [hneg']
    rw [if_neg (by simp), if_neg (by simp only [true_and]; omega), if_pos rfl]
    congr 1
    omega
  · next hneg =>
    obtain ⟨d, ds, h, _, h0, hnz⟩ := FormatUint_shape i.natAbs
    have hp := ParseUint_FormatUint i.natAbs (by omega)
    have hd : 0x30 ≤ d.val ∧ d.val ≤ 0x39 := by
      by_cases hz : i.natAbs = 0
      · have := (h0 hz).1; omega
      · have := hnz hz; omega
    rw [h] at hp ⊢
    simp only [ParseInt]
    rw [if_neg (by omega)]
    simp only [hp]
    have hneg' : decide (d.val = 0x2D) = false := by
      simp only [decide_eq_false_iff_not]; omega
    rw [hneg']
    rw [if_neg (by simp only [Bool.false_eq_true, not_false_eq_true, true_and]; omega),
      if_neg (by simp), if_neg (by simp)]
    congr 1
    omega

end strconv

/-! ## Scanning numbers, keys and brackets -/

namespace json

/-- Digits extend the integer part of a number. -/
theorem scan_digits (K : List Frame) (v : Option Value) (ds lit : List Byte)
    (h : ∀ x ∈ ds, 0x30 ≤ x.val ∧ x.val ≤ 0x39) :
    scan ⟨.int, K, lit, v⟩ ds = ⟨.int, K, lit ++ ds, v⟩ := by
  induction ds generalizing lit with
  | nil => simp [scan_nil]
  | cons x xs ih =>
    have hx := h x (List.mem_cons_self _ _)
    rw [scan_cons]
    have : step ⟨.int, K, lit, v⟩ x = ⟨.int, K, lit ++ [x], v⟩ := by
      simp only [step, isDigit]
      rw [if_pos (by simpa using hx)]
    rw [this, ih _ (fun y hy => h y (List.mem_cons_of_mem _ hy))]
    simp

theorem stateBeginValue_digit (K : List Frame) (v : Option Value) (lit : List Byte) (d : Byte)
    (hd : 0x31 ≤ d.val ∧ d.val ≤ 0x39) :
    step ⟨.beginValue, K, lit, v⟩ d = ⟨.int, K, [d], v⟩ := by
  have hsp : isSpace d = false := by
    simp only [isSpace, decide_eq_false_iff_not]; omega
  simp only [step, stateBeginValue, hsp, Bool.false_eq_true, if_false]
  rw [if_neg (by omega), if_neg (by omega), if_neg (by omega), if_neg (by omega),
    if_neg (by omega), if_neg (by omega), if_neg (by omega), if_neg (by omega),
    if_pos (by omega)]

/-- The decimal text of an integer is scanned as a number: the scanner is left
inside the number, holding its text. -/
theorem scan_FormatInt (K : List Frame) (v : Option Value) (lit : List Byte) (i : Int) :
    scan ⟨.beginValue, K, lit, v⟩ (strconv.FormatInt i)
      = ⟨if i = 0 then .zero else .int, K, strconv.FormatInt i, v⟩ := by
  obtain ⟨d, ds, h, hds, h0, hnz⟩ := strconv.FormatUint_shape i.natAbs
  unfold strconv.FormatInt
  split
  · next hneg =>
    have hd := hnz (by omega)
    rw [if_neg (by omega), h, scan_cons, scan_cons]
    have h1 : step ⟨.beginValue, K, lit, v⟩ 0x2D = ⟨.neg, K, [0x2D], v⟩ := rfl
    have h2 : step ⟨.neg, K, [0x2D], v⟩ d = ⟨.int, K, [0x2D, d], v⟩ := by
      simp only [step]
      rw [if_neg (by omega), if_pos (by omega)]
      rfl
    rw [h1, h2, scan_digits K v ds _ hds]
    rfl
  · next hneg =>
    by_cases hz : i = 0
    · subst hz
      rfl
    · have hd := hnz (by omega)
      rw [if_neg hz, h, scan_cons, stateBeginValue_digit K v lit d hd, scan_digits K v ds _ hds]
      rfl

/-- A closing brace after a number that is the value of an object member ends
the number, the member and the object. -/
theorem step_number_closeObject (m : Mode) (hm : m = .zero ∨ m = .int)
    (done : List (List Byte × Value)) (k : List Byte) (K : List Frame) (v : Option Value)
    (lit : List Byte) :
    step ⟨m, .objVal done k :: K, lit, v⟩ 0x7D
      = close (.object (done ++ [(k, .number lit)])) K v := by
  rcases hm with rfl | rfl <;> rfl

/-- An object key and the colon after it. -/
theorem scan_key (m : Mode) (hm : m = .beginString ∨ m = .beginStringOrEmpty)
    (done : List (List Byte × Value)) (key : List Byte) (K : List Frame) (v : Option Value)
    (lit : List Byte) :
    scan ⟨m, .objKey done :: K, lit, v⟩ (appendString key ++ [0x3A])
      = ⟨.beginValue, .objVal done (escape key) :: K, [], v⟩ := by
  rw [scan_append, scan_appendString m _ v lit key (by tauto)]
  rfl

/-- The opening brace of an object. -/
theorem step_openObject (m : Mode) (hm : m = .beginValue ∨ m = .beginValueOrEmpty)
    (K : List Frame) (hK : K.length < maxNestingDepth) (v : Option Value) (lit : List Byte) :
    step ⟨m, K, lit, v⟩ 0x7B = ⟨.beginStringOrEmpty, .objKey [] :: K, lit, v⟩ := by
  have h : step ⟨m, K, lit, v⟩ 0x7B
      = pushParseState (.objKey []) .beginStringOrEmpty ⟨m, K, lit, v⟩ := by
    rcases hm with rfl | rfl <;> rfl
  rw [h, pushParseState, if_pos (by simp only [List.length_cons]; omega)]

/-- The opening bracket of an array. -/
theorem step_openArray (m : Mode) (hm : m = .beginValue ∨ m = .beginValueOrEmpty)
    (K : List Frame) (hK : K.length < maxNestingDepth) (v : Option Value) (lit : List Byte) :
    step ⟨m, K, lit, v⟩ 0x5B = ⟨.beginValueOrEmpty, .arr [] :: K, lit, v⟩ := by
  have h : step ⟨m, K, lit, v⟩ 0x5B
      = pushParseState (.arr []) .beginValueOrEmpty ⟨m, K, lit, v⟩ := by
    rcases hm with rfl | rfl <;> rfl
  rw [h, pushParseState, if_pos (by simp only [List.length_cons]; omega)]

end json

/-! ## Scanning reviews, places and slices -/

namespace json

theorem encodeReview_eq (r : Review) :
    encodeReview r = [0x7B] ++ ((appendString (ascii "text") ++ [0x3A])
      ++ (appendString r.Text ++ ([0x2C] ++ ((appendString (ascii "rating") ++ [0x3A])
      ++ (strconv.FormatInt r.Rating ++ [0x7D]))))) := by
  have h1 : ascii "\x7b\"text\":" = [0x7B] ++ (appendString (ascii "text") ++ [0x3A]) := by
    decide
  have h2 : ascii ",\"rating\":" = [0x2C] ++ (appendString (ascii "rating") ++ [0x3A]) := by
    decide
  have h3 : ascii "\x7d" = [0x7D] := by decide
  simp only [encodeReview, h1, h2, h3, List.append_assoc]

/-- The text written for a review is scanned into `reviewValue`. -/
theorem scan_encodeReview (r : Review) (m : Mode)
    (hm : m = .beginValue ∨ m = .beginValueOrEmpty) (K : List Frame)
    (hK : K.length < maxNestingDepth) (lit : List Byte) (v : Option Value) :
    scan ⟨m, K, lit, v⟩ (encodeReview r) = close (reviewValue r) K v := by
  have hk1 : escape (ascii "text") = ascii "text" := by decide
  have hk2 : escape (ascii "rating") = ascii "rating" := by decide
  rw [encodeReview_eq, scan_append, scan_cons, scan_nil, step_openObject m hm K hK,
    scan_append, scan_key _ (Or.inr rfl), hk1,
    scan_append, scan_appendString _ _ _ _ _ (Or.inl rfl)]
  have hd : deliver (.string (escape r.Text)) (.objVal [] (ascii "text") :: K) v
      = ⟨.endValue, .objKey [(ascii "text", .string (escape r.Text))] :: K, [], v⟩ := rfl
  rw [hd, scan_append, scan_cons, scan_nil]
  have hc : step ⟨.endValue, .objKey [(ascii "text", .string (escape r.Text))] :: K, [], v⟩ 0x2C
      = ⟨.beginString, .objKey [(ascii "text", .string (escape r.Text))] :: K, [], v⟩ := rfl
  rw [hc, scan_append, scan_key _ (Or.inl rfl), hk2, scan_append, scan_FormatInt, scan_cons,
    scan_nil, step_number_closeObject _ (by split <;> simp)]
  rfl


theorem intercalate_cons_cons {α : Type} (sep a b : List α) (l : List (List α)) :
    List.intercalate sep (a :: b :: l) = a ++ (sep ++ List.intercalate sep (b :: l)) := by
  simp [List.intercalate, List.intersperse]

theorem intercalate_singleton {α : Type} (sep a : List α) :
    List.intercalate sep [a] = a := by
  simp [List.intercalate, List.intersperse]

/-- The elements of a non-empty array and its closing bracket, each element
being scanned into its value. -/
theorem scan_elements {α : Type} (enc : α → List Byte) (val : α → Value) (K : List Frame)
    (helem : ∀ x m done lit v, (m = .beginValue ∨ m = .beginValueOrEmpty) →
      scan ⟨m, .arr done :: K, lit, v⟩ (enc x) = close (val x) (.arr done :: K) v)
    (x : α) (xs : List α) (m : Mode) (hm : m = .beginValue ∨ m = .beginValueOrEmpty)
    (done : List Value) (lit : List Byte) (v : Option Value) :
    scan ⟨m, .arr done :: K, lit, v⟩ (List.intercalate [0x2C] ((x :: xs).map enc) ++ [0x5D])
      = close (.array (done ++ (x :: xs).map val)) K v := by
  induction xs generalizing x m done lit with
  | nil =>
    rw [List.map_cons, List.map_nil, intercalate_singleton, scan_append, helem x m done lit v hm,
      scan_cons, scan_nil]
    rfl
  | cons y ys ih =>
    rw [List.map_cons, List.map_cons, intercalate_cons_cons, List.append_assoc,
      List.append_assoc, scan_append, helem x m done lit v hm, scan_append, scan_cons, scan_nil]
    have hc : step (close (val x) (.arr done :: K) v) 0x2C
        = ⟨.beginValue, .arr (done ++ [val x]) :: K, [], v⟩ := rfl
    rw [hc, ← List.map_cons, ih y .beginValue (Or.inl rfl)]
    simp

/-- The text written for a slice is scanned into `sliceValue`, given that the
text written for each element is scanned into its value. -/
theorem scan_encodeSlice {α : Type} (enc : α → List Byte) (val : α → Value)
    (depth : Nat)
    (helem : ∀ x m K lit v, (m = .beginValue ∨ m = .beginValueOrEmpty) →
      K.length + depth < maxNestingDepth → scan ⟨m, K, lit, v⟩ (enc x) = close (val x) K v)
    (s : Slice α) (m : Mode) (hm : m = .beginValue ∨ m = .beginValueOrEmpty) (K : List Frame)
    (hK : K.length + 1 + depth < maxNestingDepth) (lit : List Byte) (v : Option Value) :
    scan ⟨m, K, lit, v⟩ (encodeSlice enc s)
      = match s with
        | none => deliver .null K v
        | some xs => close (.array (xs.map val)) K v := by
  cases s with
  | none =>
    have : encodeSlice enc (none : Slice α) = [0x6E, 0x75, 0x6C, 0x6C] := rfl
    rw [this]
    rcases hm with rfl | rfl <;> rfl
  | some xs =>
    simp only [encodeSlice]
    rw [List.cons_append, scan_cons, step_openArray m hm K (by omega)]
    cases xs with
    | nil => rfl
    | cons x xs =>
      have := scan_elements enc val K (fun x m done lit v hm' =>
        helem x m (.arr done :: K) lit v hm' (by simp only [List.length_cons]; omega))
        x xs .beginValueOrEmpty (Or.inr rfl) [] lit v
      rw [this]
      rfl

theorem encodePlace_eq (p : Place) :
    encodePlace p = [0x7B] ++ ((appendString (ascii "name") ++ [0x3A])
      ++ (appendString p.Name ++ ([0x2C] ++ ((appendString (ascii "description") ++ [0x3A])
      ++ (appendString p.Description ++ ([0x2C] ++ ((appendString (ascii "category") ++ [0x3A])
      ++ (appendString p.Category ++ ([0x2C] ++ ((appendString (ascii "reviews") ++ [0x3A])
      ++ (encodeSlice encodeReview p.Reviews ++ [0x7D]))))))))))) := by
  have h1 : ascii "\x7b\"name\":" = [0x7B] ++ (appendString (ascii "name") ++ [0x3A]) := by
    decide
  have h2 : ascii ",\"description\":"
      = [0x2C] ++ (appendString (ascii "description") ++ [0x3A]) := by decide
  have h3 : ascii ",\"category\":" = [0x2C] ++ (appendString (ascii "category") ++ [0x3A]) := by
    decide
  have h4 : ascii ",\"reviews\":" = [0x2C] ++ (appendString (ascii "reviews") ++ [0x3A]) := by
    decide
  have h5 : ascii "\x7d" = [0x7D] := by decide
  simp only [encodePlace, h1, h2, h3, h4, h5, List.append_assoc]

/-- A string member of an object followed by a comma: the member is recorded
and the scanner expects the next key. -/
theorem scan_stringMember (done : List (List Byte × Value)) (k : List Byte) (K : List Frame)
    (lit src : List Byte) (v : Option Value) :
    scan ⟨.beginValue, .objVal done k :: K, lit, v⟩ (appendString src ++ [0x2C])
      = ⟨.beginString, .objKey (done ++ [(k, .string (escape src))]) :: K, [], v⟩ := by
  rw [scan_append, scan_appendString _ _ _ _ _ (Or.inl rfl)]
  rfl

/-- The text written for a place is scanned into `placeValue`. -/
theorem scan_encodePlace (p : Place) (m : Mode)
    (hm : m = .beginValue ∨ m = .beginValueOrEmpty) (K : List Frame)
    (hK : K.length + 3 < maxNestingDepth) (lit : List Byte) (v : Option Value) :
    scan ⟨m, K, lit, v⟩ (encodePlace p) = close (placeValue p) K v := by
  have hk1 : escape (ascii "name") = ascii "name" := by decide
  have hk2 : escape (ascii "description") = ascii "description" := by decide
  have hk3 : escape (ascii "category") = ascii "category" := by decide
  have hk4 : escape (ascii "reviews") = ascii "reviews" := by decide
  rw [encodePlace_eq, scan_append, scan_cons, scan_nil, step_openObject m hm K (by omega),
    scan_append, scan_key _ (Or.inr rfl), hk1,
    ← List.append_assoc (appendString p.Name), scan_append, scan_stringMember,
    scan_append, scan_key _ (Or.inl rfl), hk2,
    ← List.append_assoc (appendString p.Description), scan_append, scan_stringMember,
    scan_append, scan_key _ (Or.inl rfl), hk3,
    ← List.append_assoc (appendString p.Category), scan_append, scan_stringMember,
    scan_append, scan_key _ (Or.inl rfl), hk4, scan_append,
    scan_encodeSlice encodeReview reviewValue 0
      (fun x m K lit v hm' hK' => scan_encodeReview x m hm' K hK' lit v) p.Reviews .beginValue
      (Or.inl rfl) _ (by simp only [List.length_cons]; omega)]
  obtain ⟨n, d, c, rs⟩ := p
  cases rs <;> rfl

end json

/-! ## Decoding what the encoder writes -/

namespace json

/-- The first value of the stream the encoder writes is the value of the
slice. -/
theorem readValue_Encode (ps : Slice Place) :
    readValue (Encode ps) = .ok (sliceValue placeValue ps) := by
  have h := scan_encodeSlice encodePlace placeValue 3
    (fun x m K lit v hm hK => scan_encodePlace x m hm K hK lit v) ps .beginValue (Or.inl rfl) []
    (by decide) [] none
  have hs : scan Scanner.reset (Encode ps)
      = ⟨.done, [], [], some (sliceValue placeValue ps)⟩ := by
    unfold Encode Marshal
    rw [scan_append]
    show scan (scan ⟨.beginValue, [], [], none⟩ (encodeSlice encodePlace ps)) [0x0A] = _
    rw [h]
    cases ps <;> rfl
  simp only [readValue, hs]

theorem fillElems_map {α : Type} (f : Value → Option (α × Option DecodeError))
    (val : α → Value) (xs : List α) (h : ∀ x ∈ xs, f (val x) = some (x, none)) :
    fillElems f (xs.map val) = some (xs, none) := by
  induction xs with
  | nil => rfl
  | cons x xs ih =>
    simp only [List.map_cons, fillElems]
    rw [h x (List.mem_cons_self _ _), ih (fun y hy => h y (List.mem_cons_of_mem _ hy))]
    rfl

/-- Decoding the value written for a well-formed review gives the review. -/
theorem fillReview_reviewValue (r : Review) (h : r.WellFormed) :
    fillReview (reviewValue r) = some (r, none) := by
  obtain ⟨ht, hlo, hhi⟩ := h
  have hk1 : unquoteBytes (ascii "text") = some (ascii "text") := by decide
  have hk2 : unquoteBytes (ascii "rating") = some (ascii "rating") := by decide
  have hf1 : findField [ascii "text", ascii "rating"] (ascii "text") = some 0 := by decide
  have hf2 : findField [ascii "text", ascii "rating"] (ascii "rating") = some 1 := by decide
  simp only [fillReview, reviewValue, List.foldlM, reviewMember, hk1, hk2, hf1, hf2, storeString,
    storeInt, unquoteBytes_escape _ ht, strconv.ParseInt_FormatInt _ hlo hhi, firstError,
    bind, Option.bind, pure]

/-- Decoding the value written for the reviews of a place gives the reviews. -/
theorem fillReviews_sliceValue (rs : Slice Review) (h : ∀ r ∈ rs.elems, r.WellFormed) :
    fillReviews none (sliceValue reviewValue rs) = some (rs, none) := by
  cases rs with
  | none => rfl
  | some xs =>
    simp only [fillReviews, sliceValue, Slice.elems]
    rw [fillElems_map fillReview reviewValue xs (fun r hr => fillReview_reviewValue r (h r hr))]
    rfl

/-- Decoding the value written for a well-formed place gives the place. -/
theorem fillPlace_placeValue (p : Place) (h : p.WellFormed) :
    fillPlace (placeValue p) = some (p, none) := by
  obtain ⟨hn, hd, hc, hr⟩ := h
  have hk1 : unquoteBytes (ascii "name") = some (ascii "name") := by decide
  have hk2 : unquoteBytes (ascii "description") = some (ascii "description") := by decide
  have hk3 : unquoteBytes (ascii "category") = some (ascii "category") := by decide
  have hk4 : unquoteBytes (ascii "reviews") = some (ascii "reviews") := by decide
  have hf1 : findField [ascii "name", ascii "description", ascii "category", ascii "reviews"]
      (ascii "name") = some 0 := by decide
  have hf2 : findField [ascii "name", ascii "description", ascii "category", ascii "reviews"]
      (ascii "description") = some 1 := by decide
  have hf3 : findField [ascii "name", ascii "description", ascii "category", ascii "reviews"]
      (ascii "category") = some 2 := by decide
  have hf4 : findField [ascii "name", ascii "description", ascii "category", ascii "reviews"]
      (ascii "reviews") = some 3 := by decide
  simp only [fillPlace, placeValue, List.foldlM, placeMember, hk1, hk2, hk3, hk4, hf1, hf2, hf3,
    hf4, storeString, unquoteBytes_escape _ hn, unquoteBytes_escape _ hd,
    unquoteBytes_escape _ hc, fillReviews_sliceValue _ hr, firstError, bind, Option.bind, pure]

/-- Decoding what the encoder writes for well-formed places into a nil slice
gives the places back, without an error. -/
theorem Decode_Encode (ps : Slice Place) (h : ∀ p ∈ ps.elems, p.WellFormed) :
    Decode (Encode ps) none = some (ps, none) := by
  simp only [Decode, readValue_Encode]
  cases ps with
  | none => rfl
  | some xs =>
    simp only [unmarshal, sliceValue]
    rw [fillElems_map fillPlace placeValue xs (fun p hp => fillPlace_placeValue p (h p hp))]
    rfl

end json

/-! ## The claim about the codec -/

/-- C8 as stated fails: the place `rawPlace`, whose description is the single
byte `0xFF`, is saved and loaded back with the description `EF BF BD` (the
encoding of U+FFFD), so the loaded sequence differs from the saved one. -/
theorem C8_roundtrip_counterexample :
    loadData ⟨[], none⟩ (saveData ⟨[], some [rawPlace]⟩ emptyState)
      = some (⟨[], some [{ rawPlace with Description := [0xEF, 0xBF, 0xBD] }]⟩, none)
    ∧ (some [{ rawPlace with Description := [0xEF, 0xBF, 0xBD] }] : Slice Place)
      ≠ some [rawPlace] := by
  decide

/-- C8, amended: for every slice of places whose strings are valid UTF-8 (and
whose ratings are 64-bit integers), what `saveData` writes is decoded by
`loadData` into an empty registry as the same slice, every field of every
place and review equal, and without an error; the decoder and the encoder
compose to the identity on such slices. -/
theorem C8_roundtrip_valid_utf8 (ps : Slice Place) (h : ∀ p ∈ ps.elems, p.WellFormed)
    (name : GoString) (st : State) :
    json.Decode (json.Encode ps) none = some (ps, none)
    ∧ loadData ⟨[], none⟩ (saveData ⟨name, ps⟩ st) = some (⟨[], ps⟩, none) := by
  have hd := json.Decode_Encode ps h
  refine ⟨hd, ?_⟩
  simp only [loadData, saveData, hd]
  rfl

/-- The places `bistro` and `cafe` are saved and loaded back unchanged. -/
theorem C8_roundtrip_valid_utf8_witness :
    (∀ p ∈ Slice.elems (some [bistro, cafe]), p.WellFormed)
    ∧ json.Decode (json.Encode (some [bistro, cafe])) none = some (some [bistro, cafe], none)
    ∧ loadData ⟨[], none⟩ (saveData ⟨[], some [bistro, cafe]⟩ emptyState)
      = some (⟨[], some [bistro, cafe]⟩, none) :=
  have hw : ∀ p ∈ Slice.elems (some [bistro, cafe]), p.WellFormed := by
    intro p hp
    simp only [Slice.elems, List.mem_cons, List.mem_nil_iff, or_false] at hp
    rcases hp with rfl | rfl
    · refine ⟨by decide, by decide, by decide, ?_⟩
      intro r hr
      simp only [bistro, Slice.elems, List.mem_cons, List.mem_nil_iff, or_false] at hr
      rcases hr with rfl | rfl
      · exact ⟨by decide, by decide, by decide⟩
      · exact ⟨by decide, by decide, by decide⟩
    · refine ⟨by decide, by decide, by decide, ?_⟩
      intro r hr
      simp [cafe, Slice.elems] at hr
  ⟨hw, C8_roundtrip_valid_utf8 (some [bistro, cafe]) hw [] emptyState⟩

/-! ## The claim about the parsing of ids -/

namespace strconv

theorem ParseInt_bound (s : GoString) (k : Int) (h : ParseInt s = .ok k) :
    -(2 ^ 63 : Int) ≤ k ∧ k < 2 ^ 63 := by
  unfold ParseInt at h
  cases s with
  | nil => simp at h
  | cons c rest =>
    simp only at h
    split at h
    · simp at h
    · next un hu =>
      split at h
      · simp at h
      · next h1 =>
        split at h
        · simp at h
        · next h2 =>
          simp only [Except.ok.injEq] at h
          subst h
          by_cases hneg : c.val = 0x2D
          · simp only [hneg, decide_True, true_and, not_true_eq_false, false_and,
              not_false_eq_true, gt_iff_lt, not_lt, if_true] at h1 h2 ⊢
            omega
          · simp only [hneg, decide_False, Bool.false_eq_true, not_false_eq_true, true_and,
              ge_iff_le, not_le, false_and, if_false] at h1 h2 ⊢
            omega

theorem digitsRev_fuel (f g n : Nat) (hf : n < f) (hg : n < g) :
    digitsRev f n = digitsRev g n := by
  induction f generalizing g n with
  | zero => omega
  | succ f ih =>
    cases g with
    | zero => omega
    | succ g =>
      simp only [digitsRev]
      split
      · rfl
      · rw [ih g (n / 10) (by omega) (by omega)]

/-- Dropping the last digit of the decimal text of `n ≥ 10` leaves the decimal
text of `n / 10`. -/
theorem FormatUint_dropLast (n : Nat) (hn : 10 ≤ n) :
    (FormatUint n).take ((FormatUint n).length - 1) = FormatUint (n / 10) := by
  unfold FormatUint
  rw [digitsRev, if_neg (by omega), List.reverse_cons, List.length_append, List.length_singleton,
    Nat.add_sub_cancel, List.take_left',
    digitsRev_fuel n (n / 10 + 1) (n / 10) (by omega) (by omega)]
  rfl

theorem FormatUint_small (n : Nat) (hn : n < 10) : FormatUint n = [byte (0x30 + n)] := by
  unfold FormatUint
  rw [digitsRev, if_pos hn]
  rfl

end strconv

/-- On the decimal literal of a natural number `n`, `parseID` never returns
`n`. -/
theorem parseID_ne_self (n : Nat) : parseID (strconv.FormatUint n) ≠ some (.ok (n : Int)) := by
  unfold parseID
  simp only
  split
  · simp
  · by_cases hn : n < 10
    · rw [strconv.FormatUint_small n hn]
      simp [strconv.Atoi, strconv.ParseInt]
    · obtain ⟨d, ds, h, _⟩ := strconv.FormatUint_shape n
      have hd := strconv.FormatUint_dropLast n (by omega)
      rw [h] at hd ⊢
      simp only [hd]
      cases hp : strconv.Atoi (strconv.FormatUint (n / 10)) with
      | error e => simp
      | ok k =>
        simp only [ne_eq, Option.some.injEq, Except.ok.injEq]
        intro hk
        have hb := strconv.ParseInt_bound _ k hp
        by_cases hbig : n < 2 ^ 63
        · have := strconv.ParseInt_FormatInt (n / 10 : Nat) (by omega) (by omega)
          have hf : strconv.FormatInt ((n / 10 : Nat) : Int) = strconv.FormatUint (n / 10) := by
            unfold strconv.FormatInt
            rw [if_neg (by omega)]
            rfl
          rw [hf] at this
          unfold strconv.Atoi at hp
          rw [this] at hp
          simp only [Except.ok.injEq] at hp
          omega
        · omega

/-- C6 (the code departs from it): `parseID` drops the last character of the
path segment before converting.  On the decimal literal of a natural number
`n` it never returns `n`: the literal `12` yields 1 and the literal `7` yields
an error. -/
theorem C6_parseID_drops_last_character :
    (∀ n : Nat, parseID (strconv.FormatUint n) ≠ some (.ok (n : Int)))
    ∧ parseID (ascii "12") = some (.ok 1)
    ∧ parseID (ascii "7") = some (.error .convert) :=
  ⟨parseID_ne_self, by decide, by decide⟩

namespace json

/-! ## The errors of the decoding phase -/

theorem firstError_type (e1 e2 : Option DecodeError)
    (h1 : ∀ x, e1 = some x → x = .UnmarshalTypeError)
    (h2 : ∀ x, e2 = some x → x = .UnmarshalTypeError) :
    ∀ x, firstError e1 e2 = some x → x = .UnmarshalTypeError := by
  intro x hx
  cases e1 with
  | none => exact h2 x hx
  | some e => exact h1 x hx

theorem storeString_type (old : GoString) (v : Value) (s : GoString) (e : Option DecodeError)
    (h : storeString old v = some (s, e)) : ∀ x, e = some x → x = .UnmarshalTypeError := by
  intro x hx
  subst hx
  cases v with
  | string lit =>
    simp only [storeString] at h
    split at h <;> simp at h
  | null => simp [storeString] at h
  | bool b => simp [storeString] at h; exact h.2.symm
  | number lit => simp [storeString] at h; exact h.2.symm
  | array es => simp [storeString] at h; exact h.2.symm
  | object ms => simp [storeString] at h; exact h.2.symm

theorem storeInt_type (old : Int) (v : Value) :
    ∀ x, (storeInt old v).2 = some x → x = .UnmarshalTypeError := by
  intro x hx
  cases v with
  | number lit =>
    simp only [storeInt] at hx
    split at hx <;> simp at hx
    exact hx.symm
  | null => simp [storeInt] at hx
  | bool b => simp [storeInt] at hx; exact hx.symm
  | string lit => simp [storeInt] at hx; exact hx.symm
  | array es => simp [storeInt] at hx; exact hx.symm
  | object ms => simp [storeInt] at hx; exact hx.symm

theorem foldlM_invariant {α β : Type} (f : β → α → Option β) (P : β → Prop)
    (hf : ∀ b a b', f b a = some b' → P b → P b') (l : List α) (b r : β)
    (h : List.foldlM f b l = some r) (hb : P b) : P r := by
  induction l generalizing b with
  | nil =>
    simp only [List.foldlM, pure, Option.some.injEq] at h
    exact h ▸ hb
  | cons a l ih =>
    simp only [List.foldlM, bind, Option.bind] at h
    cases hfa : f b a with
    | none => simp [hfa] at h
    | some b' =>
      rw [hfa] at h
      exact ih b' h (hf b a b' hfa hb)

theorem fillElems_type {α : Type} (f : Value → Option (α × Option DecodeError))
    (hf : ∀ v a e, f v = some (a, e) → ∀ x, e = some x → x = .UnmarshalTypeError)
    (vs : List Value) (xs : List α) (e : Option DecodeError)
    (h : fillElems f vs = some (xs, e)) : ∀ x, e = some x → x = .UnmarshalTypeError := by
  induction vs generalizing xs e with
  | nil =>
    simp only [fillElems, Option.some.injEq, Prod.mk.injEq] at h
    intro x hx
    rw [← h.2] at hx
    cases hx
  | cons v vs ih =>
    simp only [fillElems] at h
    cases hv : f v with
    | none => simp [hv] at h
    | some r =>
      obtain ⟨a, ea⟩ := r
      cases hvs : fillElems f vs with
      | none => simp [hv, hvs] at h
      | some rs =>
        obtain ⟨as, es⟩ := rs
        simp only [hv, hvs, Option.some.injEq, Prod.mk.injEq] at h
        rw [← h.2]
        exact firstError_type ea es (hf v a ea hv) (ih as es hvs)

theorem reviewMember_type (acc acc' : Review × Option DecodeError) (m : List Byte × Value)
    (h : reviewMember acc m = some acc')
    (hacc : ∀ x, acc.2 = some x → x = .UnmarshalTypeError) :
    ∀ x, acc'.2 = some x → x = .UnmarshalTypeError := by
  unfold reviewMember at h
  split at h
  · simp at h
  · split at h
    · split at h
      · next s e hs =>
        simp only [Option.some.injEq] at h
        rw [← h]
        exact firstError_type _ _ hacc (storeString_type _ _ _ _ hs)
      · simp at h
    · simp only [Option.some.injEq] at h
      rw [← h]
      exact firstError_type _ _ hacc (storeInt_type _ _)
    · simp only [Option.some.injEq] at h
      rw [← h]
      exact hacc

theorem fillReview_type (v : Value) (r : Review) (e : Option DecodeError)
    (h : fillReview v = some (r, e)) : ∀ x, e = some x → x = .UnmarshalTypeError := by
  cases v with
  | object ms =>
    simp only [fillReview] at h
    exact foldlM_invariant reviewMember (fun acc => ∀ x, acc.2 = some x → x = .UnmarshalTypeError)
      (fun b a b' => reviewMember_type b b' a) ms _ _ h (by intro x hx; cases hx)
  | null => simp [fillReview] at h; intro x hx; rw [← h.2] at hx; cases hx
  | bool b => simp [fillReview] at h; intro x hx; rw [← h.2] at hx; cases hx; rfl
  | number lit => simp [fillReview] at h; intro x hx; rw [← h.2] at hx; cases hx; rfl
  | string lit => simp [fillReview] at h; intro x hx; rw [← h.2] at hx; cases hx; rfl
  | array es => simp [fillReview] at h; intro x hx; rw [← h.2] at hx; cases hx; rfl

theorem fillReviews_type (old : Slice Review) (v : Value) (rs : Slice Review)
    (e : Option DecodeError) (h : fillReviews old v = some (rs, e)) :
    ∀ x, e = some x → x = .UnmarshalTypeError := by
  cases v with
  | array es =>
    simp only [fillReviews] at h
    split at h
    · cases hf : fillElems fillReview es with
      | none => simp [hf] at h
      | some r =>
        simp only [hf, Option.map, Option.some.injEq, Prod.mk.injEq] at h
        rw [← h.2]
        exact fillElems_type fillReview fillReview_type es r.1 r.2 hf
    · simp at h
  | null => simp [fillReviews] at h; intro x hx; rw [← h.2] at hx; cases hx
  | bool b => simp [fillReviews] at h; intro x hx; rw [← h.2] at hx; cases hx; rfl
  | number lit => simp [fillReviews] at h; intro x hx; rw [← h.2] at hx; cases hx; rfl
  | string lit => simp [fillReviews] at h; intro x hx; rw [← h.2] at hx; cases hx; rfl
  | object ms => simp [fillReviews] at h; intro x hx; rw [← h.2] at hx; cases hx; rfl

theorem placeMember_type (acc acc' : Place × Option DecodeError) (m : List Byte × Value)
    (h : placeMember acc m = some acc')
    (hacc : ∀ x, acc.2 = some x → x = .UnmarshalTypeError) :
    ∀ x, acc'.2 = some x → x = .UnmarshalTypeError := by
  unfold placeMember at h
  split at h
  · simp at h
  · split at h
    · split at h
      · next s e hs =>
        simp only [Option.some.injEq] at h
        rw [← h]
        exact firstError_type _ _ hacc (storeString_type _ _ _ _ hs)
      · simp at h
    · split at h
      · next s e hs =>
        simp only [Option.some.injEq] at h
        rw [← h]
        exact firstError_type _ _ hacc (storeString_type _ _ _ _ hs)
      · simp at h
    · split at h
      · next s e hs =>
        simp only [Option.some.injEq] at h
        rw [← h]
        exact firstError_type _ _ hacc (storeString_type _ _ _ _ hs)
      · simp at h
    · split at h
      · next s e hs =>
        simp only [Option.some.injEq] at h
        rw [← h]
        exact firstError_type _ _ hacc (fillReviews_type _ _ _ _ hs)
      · simp at h
    · simp only [Option.some.injEq] at h
      rw [← h]
      exact hacc

theorem fillPlace_type (v : Value) (p : Place) (e : Option DecodeError)
    (h : fillPlace v = some (p, e)) : ∀ x, e = some x → x = .UnmarshalTypeError := by
  cases v with
  | object ms =>
    simp only [fillPlace] at h
    exact foldlM_invariant placeMember (fun acc => ∀ x, acc.2 = some x → x = .UnmarshalTypeError)
      (fun b a b' => placeMember_type b b' a) ms _ _ h (by intro x hx; cases hx)
  | null => simp [fillPlace] at h; intro x hx; rw [← h.2] at hx; cases hx
  | bool b => simp [fillPlace] at h; intro x hx; rw [← h.2] at hx; cases hx; rfl
  | number lit => simp [fillPlace] at h; intro x hx; rw [← h.2] at hx; cases hx; rfl
  | string lit => simp [fillPlace] at h; intro x hx; rw [← h.2] at hx; cases hx; rfl
  | array es => simp [fillPlace] at h; intro x hx; rw [← h.2] at hx; cases hx; rfl

/-- The decoding phase reports type mismatches only. -/
theorem unmarshal_type (v : Value) (target ps : Slice Place) (e : Option DecodeError)
    (h : unmarshal v target = some (ps, e)) : ∀ x, e = some x → x = .UnmarshalTypeError := by
  cases v with
  | array es =>
    simp only [unmarshal] at h
    split at h
    · cases hf : fillElems fillPlace es with
      | none => simp [hf] at h
      | some r =>
        simp only [hf, Option.map, Option.some.injEq, Prod.mk.injEq] at h
        rw [← h.2]
        exact fillElems_type fillPlace fillPlace_type es r.1 r.2 hf
    · simp at h
  | null => simp [unmarshal] at h; intro x hx; rw [← h.2] at hx; cases hx
  | bool b => simp [unmarshal] at h; intro x hx; rw [← h.2] at hx; cases hx; rfl
  | number lit => simp [unmarshal] at h; intro x hx; rw [← h.2] at hx; cases hx; rfl
  | string lit => simp [unmarshal] at h; intro x hx; rw [← h.2] at hx; cases hx; rfl
  | object ms => simp [unmarshal] at h; intro x hx; rw [← h.2] at hx; cases hx; rfl

end json

/-! ## The claims about loading and listing -/

theorem readValue_nil : json.readValue [] = .error .EOF := rfl

theorem loadData_eq_loadDataFrom (user : User) (st : State) :
    loadData user st
      = match loadDataFrom user (openPlaces st) with
        | .returned u e _ => some (u, e)
        | _ => none := by
  unfold loadData openPlaces loadDataFrom
  cases st.placesFile with
  | none => rfl
  | some content =>
    simp only
    cases json.Decode content user.Places <;> rfl

/-- C11: when `places.json` is absent, and when it is present with zero bytes,
`loadData` returns instead of exiting through `log.Fatalf` and leaves the user
as it was, so an empty registry stays empty.  On absence the read of the nil
file handle fails and the error is logged; on zero bytes `Decode` reports `EOF`
and nothing is logged. -/
theorem C11_load_without_data (user : User) :
    loadDataFrom user .notExist = .returned user (some .ErrInvalid) true
    ∧ loadDataFrom user (.opened []) = .returned user (some .EOF) false
    ∧ loadDataFrom ⟨[], none⟩ (openPlaces ⟨⟨[], none⟩, none, [], []⟩)
        = .returned ⟨[], none⟩ (some .ErrInvalid) true
    ∧ init none = some ⟨⟨[], none⟩, none, [], []⟩
    ∧ init (some []) = some ⟨⟨[], none⟩, some [], [], []⟩ := by
  refine ⟨rfl, ?_, rfl, rfl, by decide⟩
  simp only [loadDataFrom, json.Decode, readValue_nil]
  rfl

/-- C13: `listPlaces` answers 200 with the whole slice of places, every place
at its index, and leaves the state, registry and file, as it was. -/
theorem C13_listPlaces_pure (grow : fasthttp.Growslice) (c : Ctx) (st : State) :
    (listPlaces c st).1 = ⟨StatusOK, .places st.currentUser.Places⟩
    ∧ (∃ ps, (listPlaces c st).1.body = .places ps
        ∧ ps.len = st.currentUser.Places.len
        ∧ ∀ j : Nat, ps.elems[j]? = st.currentUser.Places.elems[j]?)
    ∧ (listPlaces c st).2 = st
    ∧ setupRoutes grow .getPlaces c st
        = some (⟨StatusOK, .places st.currentUser.Places⟩, st) :=
  ⟨rfl, ⟨st.currentUser.Places, rfl, rfl, fun _ => rfl⟩, rfl, rfl⟩

/-! ## The claim about undecodable data -/

/-- A stream whose first value cannot be read leaves any user as it was. -/
theorem loadDataFrom_of_readValue_error (user : User) (content : List Byte)
    (e : json.DecodeError) (h : json.readValue content = .error e) :
    loadDataFrom user (.opened content)
      = .returned user (some e) (decide (e ≠ json.DecodeError.EOF)) := by
  simp only [loadDataFrom, json.Decode, h]
  simp

/-- C12 as stated fails: on `mistypedFile`, a well-formed array whose record has
a number as description, `Decode` reports a type mismatch, the error is
logged, and the registry holds the record with the fields that could be
decoded. -/
theorem C12_load_mistyped_counterexample :
    loadDataFrom ⟨[], none⟩ (.opened mistypedFile)
      = .returned ⟨[], some [⟨ascii "a", [], [], none⟩]⟩ (some .UnmarshalTypeError) true
    ∧ (some json.DecodeError.UnmarshalTypeError ≠ some json.DecodeError.EOF)
    ∧ Slice.len (some [(⟨ascii "a", [], [], none⟩ : Place)]) ≠ 0 := by
  decide

/-- C12, amended: when `loadData` fills an empty registry from a stream on which
`Decode` reports an error that is not a type mismatch, the registry stays
empty and the user is as it was; the error is then the one of reading the
first JSON value (malformed JSON, or input that ends inside a value or before
one). -/
theorem C12_load_malformed (content : List Byte) (u : User) (e : json.DecodeError)
    (l : Bool)
    (h : loadDataFrom ⟨[], none⟩ (.opened content) = .returned u (some e) l)
    (hne : e ≠ .UnmarshalTypeError) :
    u.Places = none ∧ u = ⟨[], none⟩ ∧ json.readValue content = .error e := by
  simp only [loadDataFrom, json.Decode] at h
  cases hr : json.readValue content with
  | error e' =>
    simp only [hr, LoadResult.returned.injEq, Option.some.injEq] at h
    obtain ⟨hu, he, _⟩ := h
    subst he
    exact ⟨by rw [← hu], hu.symm, rfl⟩
  | ok v =>
    simp only [hr] at h
    cases hu : json.unmarshal v none with
    | none => simp [hu] at h
    | some r =>
      simp only [hu, LoadResult.returned.injEq] at h
      exact absurd (json.unmarshal_type v none r.1 r.2 hu e h.2.1) hne

/-- On `truncatedFile` the registry stays empty. -/
theorem C12_load_malformed_witness :
    loadDataFrom ⟨[], none⟩ (.opened truncatedFile)
      = .returned ⟨[], none⟩ (some .ErrUnexpectedEOF) true
    ∧ json.DecodeError.ErrUnexpectedEOF ≠ .UnmarshalTypeError
    ∧ (⟨[], none⟩ : User).Places = none ∧ (⟨[], none⟩ : User) = ⟨[], none⟩
    ∧ json.readValue truncatedFile = .error .ErrUnexpectedEOF :=
  ⟨by decide, by decide,
    C12_load_malformed truncatedFile ⟨[], none⟩ .ErrUnexpectedEOF true (by decide) (by decide)⟩

/-! ## The claim about multi-digit ids -/

theorem digitsValueFrom_cons (acc : Nat) (c : Byte) (s : GoString) :
    digitsValueFrom acc (c :: s) = digitsValueFrom (acc * 10 + (c.val - 0x30)) s := rfl

theorem digitsValueFrom_ge (acc : Nat) (s : GoString) : acc ≤ digitsValueFrom acc s := by
  induction s generalizing acc with
  | nil => exact le_refl _
  | cons c s ih =>
    rw [digitsValueFrom_cons]
    have := ih (acc * 10 + (c.val - 0x30))
    omega

theorem digitsValueFrom_append (acc : Nat) (s t : GoString) :
    digitsValueFrom acc (s ++ t) = digitsValueFrom (digitsValueFrom acc s) t := by
  simp [digitsValueFrom, List.foldl_append]

namespace strconv

/-- On a string of digits whose value fits 64 bits, the digit loop of
`ParseUint` returns the value. -/
theorem parseUintLoop_digits (s : GoString) (acc : Nat)
    (hd : ∀ c ∈ s, 0x30 ≤ c.val ∧ c.val ≤ 0x39) (h : digitsValueFrom acc s < 2 ^ 64) :
    parseUintLoop acc s = .ok (digitsValueFrom acc s) := by
  induction s generalizing acc with
  | nil => rfl
  | cons c s ih =>
    have hc := hd c (List.mem_cons_self _ _)
    rw [digitsValueFrom_cons] at h ⊢
    have hge := digitsValueFrom_ge (acc * 10 + (c.val - 0x30)) s
    simp only [parseUintLoop]
    rw [if_pos hc, if_neg (by omega), if_neg (by omega)]
    exact ih _ (fun x hx => hd x (List.mem_cons_of_mem _ hx)) h

/-- Whatever the digit loop of `ParseUint` returns on a string of digits is
the value of the string. -/
theorem parseUintLoop_sound (s : GoString) (acc v : Nat)
    (hd : ∀ c ∈ s, 0x30 ≤ c.val ∧ c.val ≤ 0x39) (h : parseUintLoop acc s = .ok v) :
    v = digitsValueFrom acc s := by
  induction s generalizing acc with
  | nil =>
    simp only [parseUintLoop, Except.ok.injEq] at h
    exact h.symm
  | cons c s ih =>
    have hc := hd c (List.mem_cons_self _ _)
    rw [digitsValueFrom_cons]
    simp only [parseUintLoop] at h
    rw [if_pos hc] at h
    split at h
    · simp at h
    · split at h
      · simp at h
      · exact ih _ (fun x hx => hd x (List.mem_cons_of_mem _ hx)) h

/-- On a non-empty string of digits `ParseInt` returns the value of the string
when it is below `2 ^ 63`, and an error otherwise. -/
theorem ParseInt_digits (c : Byte) (s : GoString)
    (hd : ∀ x ∈ c :: s, 0x30 ≤ x.val ∧ x.val ≤ 0x39) :
    (digitsValue (c :: s) < 2 ^ 63 → ParseInt (c :: s) = .ok (digitsValue (c :: s) : Nat))
    ∧ (2 ^ 63 ≤ digitsValue (c :: s) → ∃ e, ParseInt (c :: s) = .error e) := by
  have hc := hd c (List.mem_cons_self _ _)
  have hneg : decide (c.val = 0x2D) = false := by
    simp only [decide_eq_false_iff_not]; omega
  constructor
  · intro h
    have hp := parseUintLoop_digits (c :: s) 0 hd (by unfold digitsValue at h; omega)
    simp only [ParseInt, ParseUint]
    rw [if_neg (by omega), hp, hneg]
    simp only
    rw [if_neg (by
      simp only [Bool.false_eq_true, not_false_eq_true, true_and, ge_iff_le, not_le]
      exact h), if_neg (by simp), if_neg (by simp)]
    rfl
  · intro h
    simp only [ParseInt, ParseUint]
    rw [if_neg (by omega), hneg]
    cases hp : parseUintLoop 0 (c :: s) with
    | error e => exact ⟨e, rfl⟩
    | ok un =>
      have hs := parseUintLoop_sound (c :: s) 0 un hd hp
      simp only
      rw [if_pos (by
        simp only [Bool.false_eq_true, not_false_eq_true, true_and, ge_iff_le]
        rw [hs]; exact h)]
      exact ⟨_, rfl⟩

end strconv

namespace fmt

theorem acceptDigits_digits (s : GoString) (hd : ∀ c ∈ s, 0x30 ≤ c.val ∧ c.val ≤ 0x39) :
    acceptDigits s = (s, []) := by
  induction s with
  | nil => rfl
  | cons c s ih =>
    have hc := hd c (List.mem_cons_self _ _)
    simp only [acceptDigits]
    rw [if_pos hc, ih (fun x hx => hd x (List.mem_cons_of_mem _ hx))]

theorem SkipSpace_digit (c : Byte) (s : GoString) (hc : 0x30 ≤ c.val ∧ c.val ≤ 0x39) :
    SkipSpace (c :: s) = .ok (c :: s) := by
  have hsp : isSpace c.val = false := by
    simp only [isSpace, decide_eq_false_iff_not]; omega
  simp only [SkipSpace, List.length_cons, skipSpaceAux,
    utf8.DecodeRune_ascii c s (by omega), hsp, Bool.false_eq_true, if_false]
  rw [if_neg (by omega)]

/-- On a non-empty string of digits the scan succeeds exactly when the value of
the string is below `2 ^ 63`. -/
theorem Sscanf_digits (c : Byte) (s : GoString)
    (hd : ∀ x ∈ c :: s, 0x30 ≤ x.val ∧ x.val ≤ 0x39) :
    (digitsValue (c :: s) < 2 ^ 63 → Sscanf (c :: s) = (1, none))
    ∧ (2 ^ 63 ≤ digitsValue (c :: s) → ∃ e, Sscanf (c :: s) = (0, some e)) := by
  have hc := hd c (List.mem_cons_self _ _)
  have hsign : ¬ (c.val = 0x2B ∨ c.val = 0x2D) := by omega
  have hscan : scanInt (c :: s)
      = match strconv.ParseInt (c :: s) with
        | .error e => .error (.num e)
        | .ok i => .ok (i, []) := by
    simp only [scanInt, SkipSpace_digit c s hc, hsign, if_false, acceptDigits_digits (c :: s) hd,
      List.nil_append]
    cases strconv.ParseInt (c :: s) <;> rfl
  obtain ⟨h1, h2⟩ := strconv.ParseInt_digits c s hd
  constructor
  · intro h
    simp only [Sscanf, hscan, h1 h]
  · intro h
    obtain ⟨e, he⟩ := h2 h
    exact ⟨.num e, by simp only [Sscanf, hscan, he]⟩

end fmt

/-- Dropping the last digit divides the value by ten. -/
theorem digitsValue_dropLast (s : GoString) (hs : s ≠ [])
    (hd : ∀ c ∈ s, 0x30 ≤ c.val ∧ c.val ≤ 0x39) :
    digitsValue (s.take (s.length - 1)) = digitsValue s / 10 := by
  obtain ⟨init, last, rfl⟩ : ∃ init last, s = init ++ [last] :=
    ⟨s.dropLast, s.getLast hs, (List.dropLast_append_getLast hs).symm⟩
  have hl := hd last (by simp)
  rw [List.length_append, List.length_singleton, Nat.add_sub_cancel, List.take_left']
  · unfold digitsValue
    rw [digitsValueFrom_append, digitsValueFrom_cons]
    show digitsValueFrom 0 init = (digitsValueFrom 0 init * 10 + (last.val - 0x30)) / 10
    omega
  · rfl


/-- C14 as stated fails: the string of twenty digits `9` consists of two or
more decimal digits, and `parseID` returns an error on it, because the number
it denotes is outside the range of `int` and the scan fails. -/
theorem C14_parseID_overflow_counterexample :
    2 ≤ (ascii "99999999999999999999").length
    ∧ (∀ c ∈ ascii "99999999999999999999", 0x30 ≤ c.val ∧ c.val ≤ 0x39)
    ∧ parseID (ascii "99999999999999999999") = some (.error .format) := by
  decide

/-- C14, amended: for every string `s` of two or more decimal digits that
denotes a number `n` below `2 ^ 63`, `parseID` returns without error the number
denoted by `s` without its last character, which is `n / 10`; when `n` is
`2 ^ 63` or more it returns the format error. -/
theorem C14_parseID_drops_last_digit (s : GoString) (hlen : 2 ≤ s.length)
    (hd : ∀ c ∈ s, 0x30 ≤ c.val ∧ c.val ≤ 0x39) :
    digitsValue (s.take (s.length - 1)) = digitsValue s / 10
    ∧ (digitsValue s < 2 ^ 63 → parseID s = some (.ok ((digitsValue s / 10 : Nat) : Int)))
    ∧ (2 ^ 63 ≤ digitsValue s → parseID s = some (.error .format)) := by
  obtain ⟨c, t, rfl⟩ : ∃ c t, s = c :: t := by
    cases s with
    | nil => simp at hlen
    | cons c t => exact ⟨c, t, rfl⟩
  have hdrop := digitsValue_dropLast (c :: t) (by simp) hd
  obtain ⟨hs1, hs2⟩ := fmt.Sscanf_digits c t hd
  refine ⟨hdrop, ?_, ?_⟩
  · intro h
    obtain ⟨c', t', hnum⟩ : ∃ c' t', (c :: t).take ((c :: t).length - 1) = c' :: t' := by
      cases t with
      | nil => simp at hlen
      | cons c2 t2 => exact ⟨c, (c2 :: t2).take (c2 :: t2).length.pred, by simp⟩
    have hdn : ∀ x ∈ c' :: t', 0x30 ≤ x.val ∧ x.val ≤ 0x39 := by
      intro x hx
      rw [← hnum] at hx
      exact hd x (List.mem_of_mem_take hx)
    have hp := (strconv.ParseInt_digits c' t' hdn).1 (by rw [← hnum, hdrop]; omega)
    rw [← hnum, hdrop] at hp
    unfold parseID
    simp only [hs1 h, strconv.Atoi, hp]
    simp
  · intro h
    obtain ⟨e, he⟩ := hs2 h
    unfold parseID
    simp only [he]
    simp

/-- The string `12` denotes 12 and `parseID` returns 1 on it. -/
theorem C14_parseID_drops_last_digit_witness :
    2 ≤ (ascii "12").length
    ∧ (∀ c ∈ ascii "12", 0x30 ≤ c.val ∧ c.val ≤ 0x39)
    ∧ digitsValue (ascii "12") = 12
    ∧ parseID (ascii "12") = some (.ok 1) :=
  have h := C14_parseID_drops_last_digit (ascii "12") (by decide) (by decide)
  ⟨by decide, by decide, by decide, h.2.1 (by decide)⟩

/-! ## The claims about the acceptance of ids -/

theorem parseID_singleton (c : Byte) : ∃ e, parseID [c] = some (.error e) := by
  unfold parseID
  simp only
  split
  · exact ⟨_, rfl⟩
  · exact ⟨.convert, rfl⟩

theorem badRequest_of_parseID_error (grow : fasthttp.Growslice) (c : Ctx) (st : State)
    (e : IDError) (h : parseID c.id = some (.error e)) :
    updatePlaceDescription grow c st
        = some (⟨StatusBadRequest, .error "невозможно преобразовать ID"⟩, st)
    ∧ deletePlace c st
        = some (⟨StatusBadRequest, .error "невозможно преобразовать ID"⟩, st) := by
  constructor
  · unfold updatePlaceDescription
    rw [h]
  · unfold deletePlace
    rw [h]

theorem Sscanf_nil : fmt.Sscanf [] = (0, some .EOF) := rfl

/-- C15 (the code departs from it): `parseID` accepts the segments `1a` and
`12x`, which are not integer literals, and returns 1 and 12; `deletePlace`
with the id `1a` then answers 200 and removes the place at index 1. -/
theorem C15_parseID_accepts_trailing_character :
    parseID (ascii "1a") = some (.ok 1)
    ∧ parseID (ascii "12x") = some (.ok 12)
    ∧ deletePlace (idCtx "1a" "") (stateOf [cafe, park])
        = some (⟨StatusOK, .message "место удалено"⟩, stateOf [cafe]) := by
  decide

/-- C16: for every path id of exactly one byte `parseID` returns an error, and
`updatePlaceDescription` and `deletePlace` answer 400 and leave the state as
it was, whatever the registry holds. -/
theorem C16_single_character_rejected (grow : fasthttp.Growslice) (c : Ctx) (st : State)
    (h : c.id.length = 1) :
    (∃ e, parseID c.id = some (.error e))
    ∧ updatePlaceDescription grow c st
        = some (⟨StatusBadRequest, .error "невозможно преобразовать ID"⟩, st)
    ∧ deletePlace c st
        = some (⟨StatusBadRequest, .error "невозможно преобразовать ID"⟩, st) := by
  obtain ⟨x, hx⟩ : ∃ x, c.id = [x] := List.length_eq_one.1 h
  obtain ⟨e, he⟩ := parseID_singleton x
  rw [← hx] at he
  exact ⟨⟨e, he⟩, badRequest_of_parseID_error grow c st e he⟩

/-- The id `7` is rejected on a registry that has a place at index 7 or not. -/
theorem C16_single_character_rejected_witness :
    (idCtx "7" "description=new").id.length = 1
    ∧ (∃ e, parseID (idCtx "7" "description=new").id = some (.error e))
    ∧ updatePlaceDescription tight (idCtx "7" "description=new") (stateOf [cafe, park])
        = some (⟨StatusBadRequest, .error "невозможно преобразовать ID"⟩, stateOf [cafe, park])
    ∧ deletePlace (idCtx "7" "description=new") (stateOf [cafe, park])
        = some (⟨StatusBadRequest, .error "невозможно преобразовать ID"⟩, stateOf [cafe, park]) :=
  ⟨rfl, C16_single_character_rejected tight (idCtx "7" "description=new") (stateOf [cafe, park])
    rfl⟩

/-- C17: `parseID` never panics.  The scan of the empty string fails, so the
slice expression `s[:len(s)-1]` is reached only for a non-empty `s`, and
`parseID` returns an integer or an error for every string; the two handlers
that call it always answer. -/
theorem C17_parseID_total (grow : fasthttp.Growslice) (s : GoString) :
    fmt.Sscanf [] = (0, some .EOF)
    ∧ (fmt.Sscanf s = (1, none) → 1 ≤ s.length)
    ∧ (∃ r, parseID s = some r)
    ∧ (∀ (c : Ctx) (st : State), ∃ r, updatePlaceDescription grow c st = some r)
    ∧ (∀ (c : Ctx) (st : State), ∃ r, deletePlace c st = some r) := by
  refine ⟨rfl, ?_, parseID_isSome s, ?_, ?_⟩
  · intro h
    cases s with
    | nil => rw [Sscanf_nil] at h; simp at h
    | cons b rest => simp
  · intro c st
    rcases updatePlaceDescription_cases grow c st with ⟨r, _, h⟩ | h | ⟨i, p, _, h⟩
    · exact ⟨_, h⟩
    · exact ⟨_, h⟩
    · exact ⟨_, h⟩
  · intro c st
    rcases deletePlace_cases c st with ⟨r, _, h⟩ | ⟨i, h⟩
    · exact ⟨_, h⟩
    · exact ⟨_, h⟩

end RatingPlaces
